import Mathlib

/-!
krunner-ssh: a shallow embedding of the SSH helper core.

The development follows the C++ sources

* `src/sshhelper_common.cpp` (argument normalisation, entry ids),
* `src/sshdiscovery.cpp` (SSH config and known_hosts parsers),
* `src/sshhelper.cpp` (option scanner and user substitution, fuzzy scoring,
  query matching, reload of the registry, launch chain).

Qt value types are modelled by plain Lean data:

* a `QString` is the list of its characters (Unicode scalar values), a
  `QStringList` a list of strings, a `QByteArray` a list of bytes kept as
  natural numbers below 256. In the parsers and the scanners positions count
  characters; the code searches for ASCII characters only and cuts at the
  positions found, so the substrings are those of the UTF-16 representation.
  The fuzzy scorer measures sizes and positions in text of any kind, so it
  works on the `QChar`s of a string, its UTF-16 code units (`toUtf16`);
* the file read by a parser is given by the decoded text of its stream, `none`
  standing for a file that cannot be opened;
* a `QSet<QString>` that is only inserted into and queried is a list, a
  `QHash<QString, QString>` the list of its entries;
* `i18n` texts are given in the source language;
* a `double` is an exact rational number;
* the single-shot reload timer is the time in ms at which it fires, `none`
  while it is not active;
* the case folding of a character, address parsing, reverse lookup, locale
  comparison, executable lookup and process start are parameters (oracles) of
  the functions that use them, and a function with side effects returns, next
  to its result, the state it leaves or the calls it makes.

Library primitives (`trimmed`, `indexOf`, `split`, SHA-1, ...) follow their
documented behaviour; every function of the repository keeps its source name
and its control flow.
-/

namespace SshHelper

/-! ## Qt strings -/

/-- A `QString`, as the list of its characters. -/
abbrev QString := List Char

/-- A `QStringList`. -/
abbrev QStringList := List QString

/-- A `QByteArray`: bytes as natural numbers below 256. -/
abbrev QByteArray := List Nat

/-- Line feed, U+000A. -/
def chLF : Char := Char.ofNat 10

/-- Carriage return, U+000D. -/
def chCR : Char := Char.ofNat 13

/-- The double quote, U+0022. -/
def chQuote : Char := Char.ofNat 34

/-- The number sign, U+0023. -/
def chHash : Char := Char.ofNat 35

/-- The unit separator, U+001F. -/
def chUnitSep : Char := Char.ofNat 31

/-- Qt `QChar::isSpace`: U+0020, U+0009..U+000D, U+0085, U+00A0 and the characters
of the Unicode categories Zs, Zl and Zp. -/
def qIsSpace (c : Char) : Bool :=
  c.toNat == 0x20 || (0x09 ≤ c.toNat && c.toNat ≤ 0x0D) || c.toNat == 0x85 ||
  c.toNat == 0xA0 || c.toNat == 0x1680 || (0x2000 ≤ c.toNat && c.toNat ≤ 0x200A) ||
  c.toNat == 0x2028 || c.toNat == 0x2029 || c.toNat == 0x202F ||
  c.toNat == 0x205F || c.toNat == 0x3000

/-- Qt `QString::trimmed`: whitespace removed from the start and the end. -/
def trimmed (s : QString) : QString :=
  (s.dropWhile qIsSpace).rdropWhile qIsSpace

/-- Qt `QString::startsWith(QChar)`. -/
def startsWithChar (s : QString) (c : Char) : Bool :=
  match s with
  | [] => false
  | x :: _ => x == c

/-- Qt `QString::endsWith(QChar)`. -/
def endsWithChar (s : QString) (c : Char) : Bool :=
  match s.getLast? with
  | none => false
  | some x => x == c

/-- Qt `QString::startsWith` with a string argument. -/
def startsWithStr {α : Type} [DecidableEq α] (s p : List α) : Bool :=
  p.isPrefixOf s

/-- Qt `QString::contains(QChar)`. -/
def containsChar (s : QString) (c : Char) : Bool :=
  decide (c ∈ s)

/-- Qt `QString::indexOf(QChar)`: the first position of `c`, or -1. -/
def indexOf {α : Type} [DecidableEq α] : List α → α → Int
  | [], _ => -1
  | x :: xs, c => if x = c then 0 else if indexOf xs c < 0 then -1 else indexOf xs c + 1

/-- Qt `QString::lastIndexOf(QChar)`: the last position of `c`, or -1. -/
def lastIndexOf : QString → Char → Int
  | [], _ => -1
  | x :: xs, c =>
    if 0 ≤ lastIndexOf xs c then lastIndexOf xs c + 1 else if x = c then 0 else -1

/-- Qt `QString::left(n)`: the first `n` characters; the whole string when `n` is
negative or not smaller than the size. -/
def left (s : QString) (n : Int) : QString :=
  if n < 0 then s else s.take n.toNat

/-- Qt `QString::mid(pos)` for a position `0 ≤ pos`: the string from `pos` on
(empty when `pos` is beyond the end). -/
def midFrom (s : QString) (pos : Int) : QString :=
  s.drop pos.toNat

/-- Qt `QString::mid(pos, n)` for `0 ≤ pos` and `0 ≤ n`: at most `n` characters
from position `pos` on. -/
def mid (s : QString) (pos n : Int) : QString :=
  (s.drop pos.toNat).take n.toNat

/-- Qt `QString::at(i)`. Reading one position past the last character yields the
terminating null character of the string data. -/
def charAt (s : QString) (i : Nat) : Char :=
  s.getD i (Char.ofNat 0)

/-- Qt `QString::toLower` on the ASCII range. The parsers compare the result with
the ASCII keywords `host`, `hostname` and `user` only, and no character outside
ASCII has one of their letters as its lower case form. -/
def toLower (s : QString) : QString :=
  s.map Char.toLower

/-! ## Option scanner and user substitution (`sshhelper.cpp`) -/

/-- The table `optionsWithValue` of `hostArgumentIndex`. -/
def optionsWithValue : List Char :=
  ['b', 'c', 'D', 'E', 'F', 'I', 'i', 'J', 'L', 'l', 'm', 'O', 'o', 'p', 'Q', 'R', 'S',
   'W', 'w']

/-- The local variables of the scanning loop of `hostArgumentIndex`. -/
structure ScanState where
  consumeNext : Bool
  afterDoubleDash : Bool
  candidateIndex : Int
  deriving DecidableEq

/-- One iteration of the loop of `hostArgumentIndex`, at index `i` on the token
`arg`. -/
def scanStep (st : ScanState) (i : Nat) (arg : QString) : ScanState :=
  if st.consumeNext then
    { st with consumeNext := false }
  else if !st.afterDoubleDash && arg == "--".toList then
    { st with afterDoubleDash := true }
  else if !st.afterDoubleDash && startsWithChar arg '-' then
    if startsWithStr arg "--".toList then
      if !containsChar arg '=' then { st with consumeNext := true } else st
    else if arg.length == 2 then
      if decide (charAt arg 1 ∈ optionsWithValue) then { st with consumeNext := true } else st
    else
      -- the letter read at position 1 decides nothing: both branches continue
      if decide (charAt arg 1 ∈ optionsWithValue) then st else st
  else
    { st with candidateIndex := (i : Int) }

/-- The loop of `hostArgumentIndex` from index `i` on. -/
def scanFrom : QStringList → Nat → ScanState → ScanState
  | [], _, st => st
  | arg :: rest, i, st => scanFrom rest (i + 1) (scanStep st i arg)

/-- The function `SshHelperRunner::hostArgumentIndex`. -/
def hostArgumentIndex (arguments : QStringList) : Int :=
  if arguments.isEmpty then -1
  else (scanFrom arguments 0 ⟨false, false, -1⟩).candidateIndex

/-- The function `SshHelperRunner::applyUserToArguments`. -/
def applyUserToArguments (arguments : QStringList) (userName : QString) : QStringList :=
  if (trimmed userName).isEmpty || arguments.isEmpty then arguments
  else
    let updated := arguments
    let index := hostArgumentIndex updated
    if index < 0 || index ≥ (updated.length : Int) then updated
    else
      let host := trimmed (updated.getD index.toNat [])
      if host.isEmpty then updated
      else
        let atIndex := lastIndexOf host '@'
        let host := if atIndex > 0 then midFrom host (atIndex + 1) else host
        updated.set index.toNat (trimmed userName ++ '@' :: host)

/-! ## Entry ids (`sshhelper_common.cpp`) -/

/-- UTF-8 encoding of one character. -/
def utf8EncodeChar (c : Char) : QByteArray :=
  if c.toNat < 0x80 then [c.toNat]
  else if c.toNat < 0x800 then [0xC0 + c.toNat / 0x40, 0x80 + c.toNat % 0x40]
  else if c.toNat < 0x10000 then
    [0xE0 + c.toNat / 0x1000, 0x80 + c.toNat / 0x40 % 0x40, 0x80 + c.toNat % 0x40]
  else
    [0xF0 + c.toNat / 0x40000, 0x80 + c.toNat / 0x1000 % 0x40,
     0x80 + c.toNat / 0x40 % 0x40, 0x80 + c.toNat % 0x40]

/-- Qt `QString::toUtf8`. -/
def toUtf8 (s : QString) : QByteArray :=
  s.flatMap utf8EncodeChar

/-- Left rotation of a 32-bit word. -/
def rotl32 (n x : Nat) : Nat :=
  ((x <<< n) % 4294967296) ||| (x >>> (32 - n))

/-- Big-endian bytes of a 64-bit length field. -/
def be64 (n : Nat) : QByteArray :=
  [n / 72057594037927936 % 256, n / 281474976710656 % 256, n / 1099511627776 % 256,
   n / 4294967296 % 256, n / 16777216 % 256, n / 65536 % 256, n / 256 % 256, n % 256]

/-- SHA-1 message padding (FIPS 180-4, 5.1.1). -/
def sha1Pad (msg : QByteArray) : QByteArray :=
  msg ++ 0x80 :: (List.replicate ((119 - msg.length % 64) % 64) 0 ++ be64 (8 * msg.length))

/-- Big-endian 32-bit words of a byte sequence. -/
def beWords : QByteArray → List Nat
  | b0 :: b1 :: b2 :: b3 :: rest => (((b0 * 256 + b1) * 256 + b2) * 256 + b3) :: beWords rest
  | _ => []

/-- The 80-word message schedule of one SHA-1 block. -/
def sha1Schedule (w16 : List Nat) : List Nat :=
  (List.range 64).foldl
    (fun w t =>
      w ++ [rotl32 1 (w.getD (t + 13) 0 ^^^ w.getD (t + 8) 0 ^^^ w.getD (t + 2) 0 ^^^ w.getD t 0)])
    w16

/-- The five working words of SHA-1. -/
structure Sha1State where
  a : Nat
  b : Nat
  c : Nat
  d : Nat
  e : Nat
  deriving DecidableEq

/-- The round function and constant of round `t`. -/
def sha1F (t b c d : Nat) : Nat × Nat :=
  if t < 20 then ((b &&& c) ||| ((b ^^^ 4294967295) &&& d), 0x5A827999)
  else if t < 40 then (b ^^^ c ^^^ d, 0x6ED9EBA1)
  else if t < 60 then ((b &&& c) ||| (b &&& d) ||| (c &&& d), 0x8F1BBCDC)
  else (b ^^^ c ^^^ d, 0xCA62C1D6)

/-- One round of the SHA-1 compression function. -/
def sha1Round (w : List Nat) (s : Sha1State) (t : Nat) : Sha1State :=
  { a := (rotl32 5 s.a + (sha1F t s.b s.c s.d).1 + s.e + (sha1F t s.b s.c s.d).2 + w.getD t 0)
           % 4294967296,
    b := s.a, c := rotl32 30 s.b, d := s.c, e := s.d }

/-- The SHA-1 compression function on one 64-byte block. -/
def sha1Block (h : Sha1State) (block : QByteArray) : Sha1State :=
  let s := (List.range 80).foldl (sha1Round (sha1Schedule (beWords block))) h
  { a := (h.a + s.a) % 4294967296, b := (h.b + s.b) % 4294967296,
    c := (h.c + s.c) % 4294967296, d := (h.d + s.d) % 4294967296,
    e := (h.e + s.e) % 4294967296 }

/-- The compression function folded over `n` consecutive blocks. -/
def sha1Blocks : Nat → QByteArray → Sha1State → Sha1State
  | 0, _, h => h
  | n + 1, bytes, h => sha1Blocks n (bytes.drop 64) (sha1Block h (bytes.take 64))

/-- Big-endian bytes of a 32-bit word. -/
def be32 (x : Nat) : QByteArray :=
  [x / 16777216 % 256, x / 65536 % 256, x / 256 % 256, x % 256]

/-- Qt `QCryptographicHash::hash(buffer, QCryptographicHash::Sha1)`: the 20-byte
SHA-1 digest (FIPS 180-4). -/
def sha1 (msg : QByteArray) : QByteArray :=
  let h := sha1Blocks ((sha1Pad msg).length / 64) (sha1Pad msg)
    ⟨0x67452301, 0xEFCDAB89, 0x98BADCFE, 0x10325476, 0xC3D2E1F0⟩
  be32 h.a ++ be32 h.b ++ be32 h.c ++ be32 h.d ++ be32 h.e

/-- One lower-case hexadecimal digit. -/
def hexDigit (n : Nat) : Char :=
  "0123456789abcdef".toList.getD n '0'

/-- Qt `QByteArray::toHex`, read back by `QString::fromLatin1`. -/
def toHex (bytes : QByteArray) : QString :=
  bytes.flatMap (fun b => [hexDigit (b / 16), hexDigit (b % 16)])

/-- The function `normalizedArguments`: every argument trimmed. -/
def normalizedArguments (arguments : QStringList) : QStringList :=
  arguments.foldl (fun normalized arg => normalized ++ [trimmed arg]) []

/-- The byte buffer that `entryIdForArguments` builds and hands to SHA-1: the
loop appends the UTF-8 form of each normalized argument and then the byte
0x1f. -/
def entryIdBuffer (arguments : QStringList) : QByteArray :=
  (normalizedArguments arguments).foldl (fun buffer arg => (buffer ++ toUtf8 arg) ++ [0x1f]) []

/-- The function `SshHelper::entryIdForArguments`. -/
def entryIdForArguments (arguments : QStringList) : QString :=
  "auto:".toList ++ toHex (sha1 (entryIdBuffer arguments))

/-! ## Host discovery (`sshdiscovery.cpp`) -/

/-- The enumeration `EntryOrigin`. -/
inductive EntryOrigin where
  | Config
  | KnownHosts
  | Manual
  deriving DecidableEq

/-- The record `DiscoveredHost`; its field `alias` is `hostAlias` here, `alias`
being a reserved word. -/
structure DiscoveredHost where
  id : QString
  hostAlias : QString
  description : QString
  arguments : QStringList
  hostName : QString
  userName : QString
  origin : EntryOrigin
  deriving DecidableEq

/-- The two accumulators every parser threads through: the output vector
`out` and the set `seenIds`. -/
structure Discovery where
  out : List DiscoveredHost
  seenIds : List QString
  deriving DecidableEq

/-- The lines `QTextStream::readLine` returns until `atEnd`: the text is cut at
every line feed, a carriage return directly before the line feed belongs to
the terminator, and a text that ends with a terminator has no further line. -/
def readLines : QString → List QString
  | [] => []
  | c :: cs =>
    if c = chLF then [] :: readLines cs
    else if c = chCR ∧ cs.head? = some chLF then readLines cs
    else
      match readLines cs with
      | [] => [[c]]
      | l :: ls => (c :: l) :: ls

/-- Qt `QString::split(sep)` with `Qt::KeepEmptyParts`, for a separator given as a
predicate on single characters. -/
def splitKeepEmpty {α : Type} (isSep : α → Bool) : List α → List (List α)
  | [] => [[]]
  | c :: cs =>
    if isSep c then [] :: splitKeepEmpty isSep cs
    else
      match splitKeepEmpty isSep cs with
      | [] => [[c]]
      | w :: ws => (c :: w) :: ws

/-- Qt `QString::split(sep, Qt::SkipEmptyParts)`. Splitting at runs of separator
characters (the pattern `\s+`) and splitting at every single one leave the same
non-empty parts. -/
def splitSkipEmpty {α : Type} (isSep : α → Bool) (s : List α) : List (List α) :=
  (splitKeepEmpty isSep s).filter (fun part => !part.isEmpty)

/-- The class `\s` of `QRegularExpression` without Unicode properties: the six
ASCII whitespace characters. -/
def isRegexSpace (c : Char) : Bool :=
  c.toNat == 0x20 || (0x09 ≤ c.toNat && c.toNat ≤ 0x0D)

/-- The loop of `stripComment` on the rest of the line, `inQuotes` being its
flag: the characters kept. -/
def stripCommentFrom : QString → Bool → QString
  | [], _ => []
  | c :: cs, inQuotes =>
    if c = chQuote then c :: stripCommentFrom cs (!inQuotes)
    else if c = chHash ∧ inQuotes = false then []
    else c :: stripCommentFrom cs inQuotes

/-- The function `stripComment`. -/
def stripComment (line : QString) : QString :=
  stripCommentFrom line false

/-- The record `ConfigState`. -/
structure ConfigState where
  hosts : QStringList
  hostname : QString
  user : QString
  deriving DecidableEq

/-- The description text of a config entry (`i18n` in the source language). -/
def configDescription (state : ConfigState) : QString :=
  if !state.user.isEmpty && !state.hostname.isEmpty then
    (state.user ++ '@' :: state.hostname) ++ " in SSH config".toList
  else if !state.hostname.isEmpty then state.hostname ++ " in SSH config".toList
  else "SSH config entry".toList

/-- The body of the loop of `commitConfigState` for one alias of the stanza. -/
def commitAlias (state : ConfigState) (d : Discovery) (rawAlias : QString) : Discovery :=
  if (trimmed rawAlias).isEmpty || containsChar (trimmed rawAlias) '*' ||
      containsChar (trimmed rawAlias) '?' then d
  else if decide (entryIdForArguments [trimmed rawAlias] ∈ d.seenIds) then d
  else
    { out := d.out ++
        [{ id := entryIdForArguments [trimmed rawAlias]
           hostAlias := trimmed rawAlias
           description := configDescription state
           arguments := [trimmed rawAlias]
           hostName := if state.hostname.isEmpty then trimmed rawAlias else state.hostname
           userName := state.user
           origin := EntryOrigin.Config }]
      seenIds := entryIdForArguments [trimmed rawAlias] :: d.seenIds }

/-- The function `commitConfigState`. -/
def commitConfigState (state : ConfigState) (d : Discovery) : Discovery :=
  if state.hosts.isEmpty then d else state.hosts.foldl (commitAlias state) d

/-- The body of the reading loop of `parseConfigFile` for one line. -/
def configLine (acc : ConfigState × Discovery) (rawLine : QString) : ConfigState × Discovery :=
  if (trimmed (stripComment rawLine)).isEmpty then acc
  else if (splitSkipEmpty isRegexSpace (trimmed (stripComment rawLine))).isEmpty then acc
  else if toLower ((splitSkipEmpty isRegexSpace (trimmed (stripComment rawLine))).headD [])
      = "host".toList then
    (⟨(splitSkipEmpty isRegexSpace (trimmed (stripComment rawLine))).drop 1, [], []⟩,
      commitConfigState acc.1 acc.2)
  else if toLower ((splitSkipEmpty isRegexSpace (trimmed (stripComment rawLine))).headD [])
      = "hostname".toList then
    if (splitSkipEmpty isRegexSpace (trimmed (stripComment rawLine))).length > 1 then
      ({ acc.1 with
          hostname := (splitSkipEmpty isRegexSpace (trimmed (stripComment rawLine))).getD 1 [] },
        acc.2)
    else acc
  else if toLower ((splitSkipEmpty isRegexSpace (trimmed (stripComment rawLine))).headD [])
      = "user".toList then
    if (splitSkipEmpty isRegexSpace (trimmed (stripComment rawLine))).length > 1 then
      ({ acc.1 with
          user := (splitSkipEmpty isRegexSpace (trimmed (stripComment rawLine))).getD 1 [] },
        acc.2)
    else acc
  else acc

/-- The function `parseConfigFile`; `file` is the text of the file at `path`, or
`none` when it cannot be opened. -/
def parseConfigFile (file : Option QString) (d : Discovery) : Discovery :=
  match file with
  | none => d
  | some text =>
    commitConfigState ((readLines text).foldl configLine (⟨[], [], []⟩, d)).1
      ((readLines text).foldl configLine (⟨[], [], []⟩, d)).2

/-- The function `hostNameFromKnownHostsEntry`. -/
def hostNameFromKnownHostsEntry (entry : QString) : QString :=
  if startsWithChar (trimmed entry) '[' && decide (indexOf (trimmed entry) ']' > 1) then
    mid (trimmed entry) 1 (indexOf (trimmed entry) ']' - 1)
  else trimmed entry

/-- The tail of the loop body of `parseKnownHosts`, from the bracket test on:
`candidate` is the host token after the removal of a user part, `userName`
that user part. -/
def knownHostsEmit (d : Discovery) (candidate userName : QString) : Discovery :=
  let cleaned :=
    if startsWithChar candidate '[' && endsWithChar candidate ']' then
      mid candidate 1 ((candidate.length : Int) - 2)
    else candidate
  if decide (entryIdForArguments [cleaned] ∈ d.seenIds) then d
  else
    { out := d.out ++
        [{ id := entryIdForArguments [cleaned]
           hostAlias := cleaned
           description := "known_hosts entry".toList
           arguments := [cleaned]
           hostName := hostNameFromKnownHostsEntry cleaned
           userName := userName
           origin := EntryOrigin.KnownHosts }]
      seenIds := entryIdForArguments [cleaned] :: d.seenIds }

/-- The body of the inner loop of `parseKnownHosts` for one host token. -/
def knownHostsToken (d : Discovery) (host : QString) : Discovery :=
  if (trimmed host).isEmpty then d
  else if lastIndexOf (trimmed host) '@' > 0 then
    if (midFrom (trimmed host) (lastIndexOf (trimmed host) '@' + 1)).isEmpty then d
    else
      knownHostsEmit d (midFrom (trimmed host) (lastIndexOf (trimmed host) '@' + 1))
        (left (trimmed host) (lastIndexOf (trimmed host) '@'))
  else knownHostsEmit d (trimmed host) []

/-- The host field of a stripped known_hosts line: the text before the first
space, or the whole line. -/
def hostsField (stripped : QString) : QString :=
  if indexOf stripped ' ' > 0 then left stripped (indexOf stripped ' ') else stripped

/-- The body of the reading loop of `parseKnownHosts` for one line. -/
def knownHostsLine (d : Discovery) (rawLine : QString) : Discovery :=
  if (trimmed (stripComment rawLine)).isEmpty then d
  else if startsWithChar (trimmed (stripComment rawLine)) '|' then d
  else
    (splitSkipEmpty (fun c => c == ',') (hostsField (trimmed (stripComment rawLine)))).foldl
      knownHostsToken d

/-- The function `parseKnownHosts`; `file` is the text of the file at `path`, or
`none` when it cannot be opened. -/
def parseKnownHosts (file : Option QString) (d : Discovery) : Discovery :=
  match file with
  | none => d
  | some text => (readLines text).foldl knownHostsLine d

/-- The function `SshHelper::discoverHosts`, on the contents of the two files. -/
def discoverHosts (config knownHosts : Option QString) : List DiscoveredHost :=
  (parseKnownHosts knownHosts (parseConfigFile config ⟨[], []⟩)).out

/-- Invariant of the two accumulators of the parsers, used in the proofs: the
emitted hosts have pairwise distinct ids, each of these ids is in `seenIds`,
and every host carries the id of its own argument vector. -/
def Discovery.WellFormed (d : Discovery) : Prop :=
  (d.out.map fun x => x.id).Nodup ∧
  (∀ x ∈ d.out, x.id ∈ d.seenIds) ∧
  (∀ x ∈ d.out, x.id = entryIdForArguments x.arguments)

/-! ## Fuzzy scoring (`sshhelper.cpp`)

A `double` is modelled by an exact rational number. The scorer counts sizes
and positions of text that may hold any character, so it works on the form in
which Qt stores a `QString`: the sequence of its `QChar`s, which are UTF-16
code units. -/

/-- A `QString` as the sequence of its `QChar`s (UTF-16 code units). -/
abbrev Utf16 := List Nat

/-- The `QChar`s of one character: one code unit for a character of the Basic
Multilingual Plane, a high and a low surrogate for any other. -/
def utf16EncodeChar (c : Char) : Utf16 :=
  if c.toNat < 0x10000 then [c.toNat]
  else [0xD800 + (c.toNat - 0x10000) / 0x400, 0xDC00 + (c.toNat - 0x10000) % 0x400]

/-- The `QChar`s of a string; `QString::size()` is the length of this list. -/
def toUtf16 (s : QString) : Utf16 :=
  s.flatMap utf16EncodeChar

/-- Qt `qBound(min, value, max)`, that is `qMax(min, qMin(max, value))`. -/
def qBound (lo value hi : ℚ) : ℚ :=
  max lo (min hi value)

/-- Qt `QString::simplified`: whitespace removed from both ends and every
internal run of whitespace replaced by one space. -/
def simplified (s : QString) : QString :=
  List.intercalate [' '] (splitSkipEmpty qIsSpace s)

/-- The function `SshHelperRunner::normalized`, with its result as the
sequence of `QChar`s. `QString::toCaseFolded` folds character by character;
the folding of one character (a Unicode table) is the parameter `fold`. -/
def normalized (fold : Char → Char) (text : QString) : Utf16 :=
  toUtf16 ((simplified text).map fold)

/-- Qt `QString::contains(QString)`: `p` occurs in `s` as a substring. -/
def containsStr {α : Type} [DecidableEq α] : List α → List α → Bool
  | [], p => p.isEmpty
  | c :: cs, p => p.isPrefixOf (c :: cs) || containsStr cs p

/-- Qt `QString::indexOf(QChar, from)` for `0 ≤ from`: the first position of
`c` at or after `from`, or -1. -/
def indexOfFrom (s : Utf16) (c : Nat) (start : Int) : Int :=
  if indexOf (s.drop start.toNat) c < 0 then -1 else indexOf (s.drop start.toNat) c + start

/-- The local variables of the loop of `subsequenceScore`. -/
structure SubseqState where
  firstIndex : Int
  lastIndex : Int
  previousIndex : Int
  bestBlock : Int
  currentBlock : Int
  matched : Int
  deriving DecidableEq

/-- One iteration of the loop of `subsequenceScore` on the pattern character
`c`; `none` is the early `return 0.0` for a character that is not found. -/
def subseqStep (text : Utf16) (st : SubseqState) (c : Nat) : Option SubseqState :=
  if indexOfFrom text c (st.previousIndex + 1) < 0 then none
  else
    some
      { firstIndex :=
          if st.firstIndex = -1 then indexOfFrom text c (st.previousIndex + 1) else st.firstIndex
        lastIndex := indexOfFrom text c (st.previousIndex + 1)
        previousIndex := indexOfFrom text c (st.previousIndex + 1)
        bestBlock :=
          max st.bestBlock
            (if indexOfFrom text c (st.previousIndex + 1) = st.previousIndex + 1 then
              st.currentBlock + 1 else 1)
        currentBlock :=
          if indexOfFrom text c (st.previousIndex + 1) = st.previousIndex + 1 then
            st.currentBlock + 1 else 1
        matched := st.matched + 1 }

/-- The loop of `subsequenceScore` over the characters of the pattern. -/
def subseqLoop (text : Utf16) : Utf16 → SubseqState → Option SubseqState
  | [], st => some st
  | c :: cs, st =>
    match subseqStep text st c with
    | none => none
    | some st2 => subseqLoop text cs st2

/-- The weighted score `subsequenceScore` computes after its loop. The sum is
taken over exact rationals; the `double` the code returns is this value up to
the rounding of the five operations. -/
def subseqWeighted (pattern : Utf16) (st : SubseqState) : ℚ :=
  let span : Int := max 1 (st.lastIndex - st.firstIndex + 1)
  let coverage : ℚ := (st.matched : ℚ) / (pattern.length : ℚ)
  let density : ℚ := (st.matched : ℚ) / (span : ℚ)
  let continuity : ℚ := (st.bestBlock : ℚ) / (pattern.length : ℚ)
  let prefixBoost : ℚ := if st.firstIndex = 0 then 0.15 else 0
  qBound 0 (0.45 * coverage + 0.35 * continuity + 0.20 * density + prefixBoost) 1

/-- The function `subsequenceScore`. -/
def subsequenceScore (text pattern : Utf16) : ℚ :=
  if pattern.isEmpty || text.isEmpty then 0
  else
    match subseqLoop text pattern ⟨-1, -1, -1, 0, 0, 0⟩ with
    | none => 0
    | some st => subseqWeighted pattern st

/-- The function `SshHelperRunner::computeFuzzyScore`. -/
def computeFuzzyScore (fold : Char → Char) (candidate pattern : QString) : ℚ :=
  if (normalized fold candidate).isEmpty || (normalized fold pattern).isEmpty then 0
  else if normalized fold candidate = normalized fold pattern then 1
  else if startsWithStr (normalized fold candidate) (normalized fold pattern) then
    qBound 0
      (0.8 + 0.2 * (((normalized fold pattern).length : ℚ) /
        ((normalized fold candidate).length : ℚ))) 1
  else if containsStr (normalized fold candidate) (normalized fold pattern) then
    qBound 0
      (0.6 + 0.2 * (((normalized fold pattern).length : ℚ) /
        ((normalized fold candidate).length : ℚ))) 1
  else if (splitSkipEmpty (fun u => u == 0x20) (normalized fold pattern)).isEmpty then 0
  else
    qBound 0
      (((splitSkipEmpty (fun u => u == 0x20) (normalized fold pattern)).foldl
          (fun total token => total + subsequenceScore (normalized fold candidate) token) 0) /
        ((splitSkipEmpty (fun u => u == 0x20) (normalized fold pattern)).length : ℚ)) 1

/-! ## Query matching (`sshhelper.cpp`) -/

/-- The record `SshHelperRunner::SshTarget`. -/
structure SshTarget where
  id : QString
  defaultLabel : QString
  label : QString
  description : QString
  sshArguments : QStringList
  hostName : QString
  dnsName : QString
  userName : QString
  origin : EntryOrigin
  isManual : Bool
  deriving DecidableEq

/-- The fields of a `KRunner::QueryMatch` that `match` sets; `categoryModerate`
records the call of `setCategoryRelevance(Moderate)`. -/
structure QueryMatch where
  id : QString
  iconName : QString
  text : QString
  subtext : QString
  relevance : ℚ
  categoryModerate : Bool
  data : QStringList
  deriving DecidableEq

/-- Qt `QString::startsWith(s, Qt::CaseInsensitive)`: the comparison folds the
case of both sides. -/
def startsWithFold (fold : Char → Char) (s p : QString) : Bool :=
  (p.map fold).isPrefixOf (s.map fold)

/-- Qt `QStringList::join(QChar)`. -/
def joinWith (sep : Char) (l : QStringList) : QString :=
  List.intercalate [sep] l

/-- The match of the regular expression `^([^\s@]+)@(.+)$` of `match` on a
trimmed pattern: the captures 1 and 2. The first `@` has to follow a non-empty
run of characters that are not ASCII whitespace, and the rest has to be
non-empty and free of line feeds (the dot does not match one, and a trimmed
subject does not end with one). -/
def userPatternMatch (pattern : QString) : Option (QString × QString) :=
  if indexOf pattern '@' > 0 ∧
      (left pattern (indexOf pattern '@')).all (fun c => !isRegexSpace c) = true ∧
      midFrom pattern (indexOf pattern '@' + 1) ≠ [] ∧
      chLF ∉ midFrom pattern (indexOf pattern '@' + 1) then
    some (left pattern (indexOf pattern '@'), midFrom pattern (indexOf pattern '@' + 1))
  else none

/-- The variable `pattern` of `match`: the query without its first three
characters, trimmed. -/
def queryPattern (query : QString) : QString :=
  trimmed (midFrom (trimmed query) 3)

/-- The variable `searchPattern` of `match`. -/
def querySearchPattern (query : QString) : QString :=
  match userPatternMatch (queryPattern query) with
  | none => queryPattern query
  | some (_, hostPart) => if !(trimmed hostPart).isEmpty then trimmed hostPart
      else queryPattern query

/-- The variable `explicitUser` of `match`. -/
def queryExplicitUser (query : QString) : QString :=
  match userPatternMatch (queryPattern query) with
  | none => []
  | some (user, hostPart) => if !(trimmed hostPart).isEmpty then trimmed user else []

/-- The relevance `match` computes for one target when the search pattern is
not empty: the `std::max` of the seven scores. -/
def matchRelevance (fold : Char → Char) (target : SshTarget) (searchPattern pattern : QString) :
    ℚ :=
  let onLabel := computeFuzzyScore fold target.label searchPattern
  let onArguments := computeFuzzyScore fold (joinWith ' ' target.sshArguments) searchPattern
  let onDescription := computeFuzzyScore fold target.description searchPattern
  let onDefaultLabel :=
    if target.label = target.defaultLabel then 0
    else computeFuzzyScore fold target.defaultLabel searchPattern
  let onDnsName := computeFuzzyScore fold target.dnsName searchPattern
  let onUserName := computeFuzzyScore fold target.userName searchPattern
  let onUserHost :=
    if target.userName.isEmpty then 0
    else computeFuzzyScore fold (target.userName ++ '@' :: target.hostName) pattern
  max onLabel (max onArguments (max onDescription (max onDefaultLabel
    (max onDnsName (max onUserName onUserHost)))))

/-- The subtext `match` gives a result (`i18n` in the source language). -/
def matchSubtext (target : SshTarget) : QString :=
  if target.dnsName.isEmpty then target.description
  else if target.description.isEmpty then "DNS: ".toList ++ target.dnsName
  else target.description ++ " (DNS: ".toList ++ target.dnsName ++ ")".toList

/-- The body of the loop of `match` for one target; `results` are the matches
added to the context so far. -/
def matchTarget (fold : Char → Char) (searchPattern pattern explicitUser : QString)
    (results : List QueryMatch) (target : SshTarget) : List QueryMatch :=
  let showAll := searchPattern.isEmpty
  let relevance : ℚ := if showAll then 0.3 else matchRelevance fold target searchPattern pattern
  if !showAll ∧ relevance ≤ 0 then results
  else
    results ++
      [{ id := target.id
         iconName := "utilities-terminal".toList
         text := target.label
         subtext := matchSubtext target
         relevance := qBound 0 (if showAll then max relevance 0.33 else relevance) 1
         categoryModerate := showAll
         data :=
           if !explicitUser.isEmpty then applyUserToArguments target.sshArguments explicitUser
           else target.sshArguments }]

/-- The function `SshHelperRunner::match`, as the list of the matches it adds to
the context, in the order of the calls of `addMatch`. `targets` is the snapshot
`m_targets` that `ensureHostsLoaded` leaves. -/
def runnerMatch (fold : Char → Char) (targets : List SshTarget) (query : QString) :
    List QueryMatch :=
  if !startsWithFold fold (trimmed query) "ssh".toList then []
  else if targets.isEmpty then []
  else
    targets.foldl
      (matchTarget fold (querySearchPattern query) (queryPattern query) (queryExplicitUser query))
      []

/-! ## The registry and its reload (`sshhelper.cpp`) -/

/-- The record `SshHelper::ManualEntry`. -/
structure ManualEntry where
  id : QString
  name : QString
  description : QString
  arguments : QStringList
  deriving DecidableEq

/-- What the config file holds in the sub-group of one manual entry: the
values of the keys `Name`, `Arguments` and `Description`, each empty when the
key is absent. -/
structure ManualGroup where
  name : QString
  arguments : QStringList
  description : QString
  deriving DecidableEq

/-- The function `SshHelper::loadManualEntries` (`sshhelper_common.cpp`), on
the list stored under the key `Ids` and on the sub-group that `KConfigGroup`
reads for an id; a config that cannot be opened has no ids. -/
def loadManualEntries (ids : QStringList) (group : QString → ManualGroup) : List ManualEntry :=
  ids.filterMap fun id =>
    if !(trimmed (group id).name).isEmpty &&
        !(normalizedArguments (group id).arguments).isEmpty then
      some
        { id := id
          name := (group id).name
          description := (group id).description
          arguments := normalizedArguments (group id).arguments }
    else none

/-- The record `SshHelper::TerminalPreference`. -/
structure TerminalPreference where
  id : QString
  customCommand : QString
  deriving DecidableEq

/-- Qt `QHash<QString, QString>::value(key)`: the value stored for the key, or
the empty string. A hash is the list of its entries, the newest first. -/
def hashValue (hash : List (QString × QString)) (key : QString) : QString :=
  (hash.lookup key).getD []

/-- The data members of `SshHelperRunner` that the registry uses (the file
watcher, the reload timer and the config handles are not among them). -/
structure Runner where
  targets : List SshTarget
  seenIds : List QString
  customLabels : List (QString × QString)
  customUsernames : List (QString × QString)
  manualEntries : List ManualEntry
  preferredTerminalId : QString
  customTerminalCommand : QString
  dnsCache : List (QString × QString)
  dnsFailures : List QString
  loaded : Bool

/-- The runner as its constructor leaves it. -/
def Runner.initial : Runner :=
  { targets := [], seenIds := [], customLabels := [], customUsernames := [],
    manualEntries := [], preferredTerminalId := "auto".toList, customTerminalCommand := [],
    dnsCache := [], dnsFailures := [], loaded := false }

/-- What `reloadHosts` reads from outside the runner: the home path, the two
SSH files, the persisted settings as the `load...` functions return them, and
the oracles for `QHostAddress::setAddress` (does the text parse as an address),
`QHostInfo::fromName` (`none` for an error, else the host name of the answer)
and `QString::localeAwareCompare`. -/
structure ReloadEnv where
  homePath : QString
  configFile : Option QString
  knownHostsFile : Option QString
  customLabels : List (QString × QString)
  customUsernames : List (QString × QString)
  manualEntries : List ManualEntry
  terminalPreference : TerminalPreference
  setAddress : QString → Bool
  fromName : QString → Option QString
  localeAwareCompare : QString → QString → Int

/-- The local variables of the scanning loop of `hostFromArguments`. -/
structure HostScanState where
  consumeNext : Bool
  afterDoubleDash : Bool
  candidate : QString
  deriving DecidableEq

/-- One iteration of the loop of `hostFromArguments` on the token `arg`. -/
def hostScanStep (st : HostScanState) (arg : QString) : HostScanState :=
  if st.consumeNext then
    { st with consumeNext := false }
  else if !st.afterDoubleDash && arg == "--".toList then
    { st with afterDoubleDash := true }
  else if !st.afterDoubleDash && startsWithChar arg '-' then
    if startsWithStr arg "--".toList then
      if !containsChar arg '=' then { st with consumeNext := true } else st
    else if arg.length == 2 then
      if decide (charAt arg 1 ∈ optionsWithValue) then { st with consumeNext := true } else st
    else
      -- the letter read at position 1 decides nothing: both branches continue
      if decide (charAt arg 1 ∈ optionsWithValue) then st else st
  else
    { st with candidate := arg }

/-- The function `SshHelperRunner::hostFromArguments`. -/
def hostFromArguments (arguments : QStringList) : QString :=
  if arguments.isEmpty then []
  else (arguments.foldl hostScanStep ⟨false, false, []⟩).candidate

/-- The function `SshHelperRunner::normalizedHost`. -/
def normalizedHost (host : QString) : QString :=
  if (trimmed host).isEmpty then []
  else
    let c1 :=
      if lastIndexOf (trimmed host) '@' ≥ 0 then
        midFrom (trimmed host) (lastIndexOf (trimmed host) '@' + 1)
      else trimmed host
    let c2 :=
      if startsWithChar c1 '[' && decide (indexOf c1 ']' > 1) then mid c1 1 (indexOf c1 ']' - 1)
      else c1
    let c3 := if indexOf c2 '%' > 0 then left c2 (indexOf c2 '%') else c2
    if endsWithChar c3 '.' then c3.dropLast else c3

/-- The address text `resolveDnsNameForHost` looks up for a normalized host:
the host itself when it parses as an address, its part before the colon when
it has exactly one colon and a dot and that part parses, and none otherwise
(the early `return {}`). -/
def dnsIpCandidate (env : ReloadEnv) (normalized : QString) : Option QString :=
  if env.setAddress normalized then some normalized
  else if normalized.count ':' == 1 && containsChar normalized '.' then
    if env.setAddress (normalized.takeWhile fun c => c != ':') then
      some (normalized.takeWhile fun c => c != ':')
    else none
  else none

/-- The host name of a lookup answer as `resolveDnsNameForHost` cleans it:
trimmed, and without one trailing dot. -/
def cleanedAnswer (hostName : QString) : QString :=
  if endsWithChar (trimmed hostName) '.' then (trimmed hostName).dropLast else trimmed hostName

/-- The function `SshHelperRunner::resolveDnsNameForHost`: the name returned and
the runner with its two caches updated. -/
def resolveDnsNameForHost (env : ReloadEnv) (r : Runner) (host : QString) : QString × Runner :=
  if (normalizedHost host).isEmpty then ([], r)
  else
    match dnsIpCandidate env (normalizedHost host) with
    | none => ([], r)
    | some ipCandidate =>
      if (r.dnsCache.lookup ipCandidate).isSome then (hashValue r.dnsCache ipCandidate, r)
      else if ipCandidate ∈ r.dnsFailures then ([], r)
      else
        match env.fromName ipCandidate with
        | none => ([], { r with dnsFailures := ipCandidate :: r.dnsFailures })
        | some hostName =>
          if (cleanedAnswer hostName).isEmpty ∨ cleanedAnswer hostName = ipCandidate then
            ([], { r with dnsFailures := ipCandidate :: r.dnsFailures })
          else if env.setAddress (cleanedAnswer hostName) then
            ([], { r with dnsFailures := ipCandidate :: r.dnsFailures })
          else
            (cleanedAnswer hostName,
              { r with dnsCache := (ipCandidate, cleanedAnswer hostName) :: r.dnsCache })

/-- The target `reloadHosts` builds for one discovered host. -/
def targetOfDiscovered (customUsernames : List (QString × QString)) (host : DiscoveredHost) :
    SshTarget :=
  let userName :=
    if !(trimmed (hashValue customUsernames host.id)).isEmpty then
      trimmed (hashValue customUsernames host.id)
    else trimmed host.userName
  { id := host.id
    defaultLabel := host.hostAlias
    label := host.hostAlias
    description := host.description
    userName := userName
    sshArguments :=
      if !userName.isEmpty then applyUserToArguments host.arguments userName else host.arguments
    hostName := if host.hostName.isEmpty then host.hostAlias else host.hostName
    dnsName := []
    origin := host.origin
    isManual := false }

/-- The loop of `reloadHosts` that applies the custom labels, for one target. -/
def applyCustomLabel (customLabels : List (QString × QString)) (target : SshTarget) :
    SshTarget :=
  if !(trimmed (hashValue customLabels target.id)).isEmpty then
    { target with label := trimmed (hashValue customLabels target.id) }
  else target

/-- The target `reloadHosts` builds for one manual entry. -/
def targetOfManual (manual : ManualEntry) : SshTarget :=
  { id := manual.id
    defaultLabel := if manual.name.isEmpty then manual.id else manual.name
    label := if manual.name.isEmpty then manual.id else manual.name
    description :=
      if manual.description.isEmpty then "Manual entry".toList else manual.description
    sshArguments := manual.arguments
    hostName := hostFromArguments manual.arguments
    dnsName := []
    userName := []
    origin := EntryOrigin.Manual
    isManual := true }

/-- The inner loop of the manual merge: the first target with the id of
`entry` takes over its fields, then the loop breaks. -/
def overwriteExisting (entry : SshTarget) : List SshTarget → List SshTarget
  | [] => []
  | existing :: rest =>
    if existing.id = entry.id then
      { existing with
        defaultLabel := entry.defaultLabel
        label := entry.label
        description := entry.description
        sshArguments := entry.sshArguments
        hostName := entry.hostName
        userName := entry.userName
        origin := entry.origin
        isManual := true } :: rest
    else existing :: overwriteExisting entry rest

/-- The body of the loop of `reloadHosts` over the manual entries, on the pair
of `m_targets` and `m_seenIds`. -/
def mergeManualEntry (acc : List SshTarget × List QString) (manual : ManualEntry) :
    List SshTarget × List QString :=
  if manual.id.isEmpty || manual.arguments.isEmpty then acc
  else if manual.id ∈ acc.2 then (overwriteExisting (targetOfManual manual) acc.1, acc.2)
  else (acc.1 ++ [targetOfManual manual], manual.id :: acc.2)

/-- The body of the last loop of `reloadHosts` over the targets: the host name
is completed and the DNS name resolved. `acc` holds the targets done so far
and the runner with its caches. -/
def resolveTarget (env : ReloadEnv) (acc : List SshTarget × Runner) (target : SshTarget) :
    List SshTarget × Runner :=
  let h1 := if target.hostName.isEmpty then hostFromArguments target.sshArguments
    else target.hostName
  let h2 := if h1.isEmpty then target.defaultLabel else h1
  (acc.1 ++ [{ target with hostName := h2, dnsName := (resolveDnsNameForHost env acc.2 h2).1 }],
    (resolveDnsNameForHost env acc.2 h2).2)

/-- Insertion of a target into a list sorted by label, before the first target
whose label is not smaller. -/
def insertByLabel (cmp : QString → QString → Int) (t : SshTarget) :
    List SshTarget → List SshTarget
  | [] => [t]
  | x :: xs => if cmp x.label t.label < 0 then x :: insertByLabel cmp t xs else t :: x :: xs

/-- The call of `std::sort` of `reloadHosts`, by `localeAwareCompare` of the
labels. `std::sort` is not stable: it leaves the order of targets with equal
labels open, and here they keep their order. What the theorems use of the
sort holds of `std::sort` as well: the result is a permutation of the input
and a function of the input. -/
def sortByLabel (cmp : QString → QString → Int) : List SshTarget → List SshTarget
  | [] => []
  | t :: ts => insertByLabel cmp t (sortByLabel cmp ts)

/-- The function `SshHelperRunner::reloadHosts`. -/
def reloadHosts (env : ReloadEnv) (r : Runner) : Runner :=
  if env.homePath.isEmpty then { r with targets := [], seenIds := [], loaded := true }
  else
    let discovered := discoverHosts env.configFile env.knownHostsFile
    let built := (discovered.map (targetOfDiscovered env.customUsernames)).map
      (applyCustomLabel env.customLabels)
    let merged := env.manualEntries.foldl mergeManualEntry
      (built, (discovered.map fun host => host.id).reverse)
    let resolved := merged.1.foldl (resolveTarget env)
      ([], { r with dnsFailures := [] })
    { resolved.2 with
      targets := sortByLabel env.localeAwareCompare resolved.1
      seenIds := merged.2
      customLabels := env.customLabels
      customUsernames := env.customUsernames
      manualEntries := env.manualEntries
      preferredTerminalId :=
        if env.terminalPreference.id.isEmpty then "auto".toList else env.terminalPreference.id
      customTerminalCommand := trimmed env.terminalPreference.customCommand
      loaded := true }

/-- The function `SshHelperRunner::ensureHostsLoaded`. -/
def ensureHostsLoaded (env : ReloadEnv) (r : Runner) : Runner :=
  if !r.loaded then reloadHosts env r else r

/-! ## The launch chain (`sshhelper.cpp`) -/

/-- What a launch does to the outside world, in the order of the calls: a
lookup by `QStandardPaths::findExecutable` or a call of
`QProcess::startDetached`. -/
inductive LaunchEvent where
  | findExecutable (program : QString)
  | startDetached (program : QString) (arguments : QStringList)
  deriving DecidableEq

/-- The outside world of a launch: the oracle for `findExecutable` (the path
found, or the empty string), the oracle for `startDetached` (did the process
start) and the values of the environment variables `SSH_HELPER_TERMINAL` and
`TERMINAL` (`qEnvironmentVariable` gives the empty string for an unset one). -/
structure LaunchEnv where
  findExecutable : QString → QString
  startDetached : QString → QStringList → Bool
  sshHelperTerminal : QString
  terminal : QString

/-- The local variables of the loop of `QProcess::splitCommand`. -/
structure SplitState where
  args : QStringList
  tmp : QString
  quoteCount : Nat
  inQuote : Bool
  deriving DecidableEq

/-- One iteration of the loop of `QProcess::splitCommand`: a double quote is
counted, and the third one in a row is taken literally; any other character
first settles the pending quotes (a single one toggles `inQuote`) and then
either ends the token, when it is whitespace outside quotes, or joins it. -/
def splitCommandStep (st : SplitState) (c : Char) : SplitState :=
  if c = chQuote then
    if st.quoteCount + 1 = 3 then { st with quoteCount := 0, tmp := st.tmp ++ [c] }
    else { st with quoteCount := st.quoteCount + 1 }
  else if !(if st.quoteCount = 1 then !st.inQuote else st.inQuote) && qIsSpace c then
    { args := if !st.tmp.isEmpty then st.args ++ [st.tmp] else st.args
      tmp := []
      quoteCount := 0
      inQuote := if st.quoteCount = 1 then !st.inQuote else st.inQuote }
  else
    { st with
      tmp := st.tmp ++ [c]
      quoteCount := 0
      inQuote := if st.quoteCount = 1 then !st.inQuote else st.inQuote }

/-- Qt `QProcess::splitCommand`. -/
def splitCommand (command : QString) : QStringList :=
  if !(command.foldl splitCommandStep ⟨[], [], 0, false⟩).tmp.isEmpty then
    (command.foldl splitCommandStep ⟨[], [], 0, false⟩).args ++
      [(command.foldl splitCommandStep ⟨[], [], 0, false⟩).tmp]
  else (command.foldl splitCommandStep ⟨[], [], 0, false⟩).args

/-- The function `launchWithCustomDescriptor`: its result and the calls it
makes. -/
def launchWithCustomDescriptor (env : LaunchEnv) (descriptor : QString) (sshArgs : QStringList) :
    Bool × List LaunchEvent :=
  if descriptor.isEmpty then (false, [])
  else
    match splitCommand descriptor with
    | [] => (false, [])
    | program :: parts =>
      if (env.findExecutable program).isEmpty then (false, [LaunchEvent.findExecutable program])
      else
        (env.startDetached (env.findExecutable program) (parts ++ ["ssh".toList] ++ sshArgs),
          [LaunchEvent.findExecutable program,
            LaunchEvent.startDetached (env.findExecutable program)
              (parts ++ ["ssh".toList] ++ sshArgs)])

/-- The function `launchWithDashE`: its result and the calls it makes. -/
def launchWithDashE (env : LaunchEnv) (program : QString) (sshArgs extraArgs : QStringList) :
    Bool × List LaunchEvent :=
  if (env.findExecutable program).isEmpty then (false, [LaunchEvent.findExecutable program])
  else
    (env.startDetached (env.findExecutable program)
        (extraArgs ++ ["-e".toList] ++ ["ssh".toList] ++ sshArgs),
      [LaunchEvent.findExecutable program,
        LaunchEvent.startDetached (env.findExecutable program)
          (extraArgs ++ ["-e".toList] ++ ["ssh".toList] ++ sshArgs)])

/-- The function `launchWithDoubleDash`: its result and the calls it makes. -/
def launchWithDoubleDash (env : LaunchEnv) (program : QString) (sshArgs extraArgs : QStringList) :
    Bool × List LaunchEvent :=
  if (env.findExecutable program).isEmpty then (false, [LaunchEvent.findExecutable program])
  else
    (env.startDetached (env.findExecutable program)
        (extraArgs ++ ["--".toList] ++ ["ssh".toList] ++ sshArgs),
      [LaunchEvent.findExecutable program,
        LaunchEvent.startDetached (env.findExecutable program)
          (extraArgs ++ ["--".toList] ++ ["ssh".toList] ++ sshArgs)])

/-- The list `dashETerminals` of `run` (and the set of the same name of
`launchPreferredTerminal`). -/
def dashETerminals : QStringList :=
  ["kitty".toList, "alacritty".toList, "tilix".toList, "xfce4-terminal".toList,
   "lxterminal".toList, "qterminal".toList, "terminator".toList, "mate-terminal".toList,
   "wezterm".toList, "urxvt".toList, "sakura".toList]

/-- The function `SshHelperRunner::launchPreferredTerminal`. -/
def launchPreferredTerminal (env : LaunchEnv) (r : Runner) (arguments : QStringList) :
    Bool × List LaunchEvent :=
  if r.preferredTerminalId.isEmpty ∨ r.preferredTerminalId = "auto".toList then (false, [])
  else if r.preferredTerminalId = "custom".toList then
    launchWithCustomDescriptor env r.customTerminalCommand arguments
  else if r.preferredTerminalId = "konsole".toList then
    launchWithDashE env "konsole".toList arguments ["--noclose".toList]
  else if r.preferredTerminalId = "gnome-terminal".toList then
    launchWithDoubleDash env "gnome-terminal".toList arguments []
  else if r.preferredTerminalId = "kgx".toList then
    launchWithDoubleDash env "kgx".toList arguments []
  else if r.preferredTerminalId = "xterm".toList then
    launchWithDashE env "xterm".toList arguments ["-hold".toList]
  else if r.preferredTerminalId = "x-terminal-emulator".toList then
    launchWithDashE env "x-terminal-emulator".toList arguments []
  else if r.preferredTerminalId ∈ dashETerminals then
    launchWithDashE env r.preferredTerminalId arguments []
  else launchWithCustomDescriptor env r.preferredTerminalId arguments

/-- The pattern `if (step) return;` of `run`: the calls of the step, followed by
the calls of the rest of the function when the step returns false. -/
def thenTry (step : Bool × List LaunchEvent) (rest : List LaunchEvent) : List LaunchEvent :=
  if step.1 then step.2 else step.2 ++ rest

/-- The function `SshHelperRunner::run`, as the calls it makes; `arguments` is
the argument vector stored in the match. -/
def run (env : LaunchEnv) (r : Runner) (arguments : QStringList) : List LaunchEvent :=
  if arguments.isEmpty then []
  else
    thenTry (launchPreferredTerminal env r arguments) <|
    thenTry (launchWithCustomDescriptor env env.sshHelperTerminal arguments) <|
    thenTry (launchWithCustomDescriptor env env.terminal arguments) <|
    thenTry (launchWithDashE env "konsole".toList arguments ["--noclose".toList]) <|
    thenTry (launchWithDoubleDash env "gnome-terminal".toList arguments []) <|
    thenTry (launchWithDoubleDash env "kgx".toList arguments []) <|
    thenTry (launchWithDashE env "x-terminal-emulator".toList arguments []) <|
    dashETerminals.foldr (fun terminal rest => thenTry (launchWithDashE env terminal arguments []) rest) <|
    thenTry (launchWithDashE env "xterm".toList arguments ["-hold".toList]) <|
    [LaunchEvent.startDetached "ssh".toList arguments]

/-- Whether an event is a call of `startDetached` that started a process. -/
def LaunchEvent.started (env : LaunchEnv) : LaunchEvent → Bool
  | LaunchEvent.findExecutable _ => false
  | LaunchEvent.startDetached program arguments => env.startDetached program arguments

/-- Specification side of the launch chain: its steps in the order preferred
terminal, `SSH_HELPER_TERMINAL`, `TERMINAL`, konsole, gnome-terminal, kgx,
x-terminal-emulator, kitty, alacritty, tilix, xfce4-terminal, lxterminal,
qterminal, terminator, mate-terminal, wezterm, urxvt, sakura, xterm, bare ssh;
each step with its result and the calls it makes. -/
def launchChain (env : LaunchEnv) (r : Runner) (arguments : QStringList) :
    List (Bool × List LaunchEvent) :=
  [launchPreferredTerminal env r arguments,
   launchWithCustomDescriptor env env.sshHelperTerminal arguments,
   launchWithCustomDescriptor env env.terminal arguments,
   launchWithDashE env "konsole".toList arguments ["--noclose".toList],
   launchWithDoubleDash env "gnome-terminal".toList arguments [],
   launchWithDoubleDash env "kgx".toList arguments [],
   launchWithDashE env "x-terminal-emulator".toList arguments [],
   launchWithDashE env "kitty".toList arguments [],
   launchWithDashE env "alacritty".toList arguments [],
   launchWithDashE env "tilix".toList arguments [],
   launchWithDashE env "xfce4-terminal".toList arguments [],
   launchWithDashE env "lxterminal".toList arguments [],
   launchWithDashE env "qterminal".toList arguments [],
   launchWithDashE env "terminator".toList arguments [],
   launchWithDashE env "mate-terminal".toList arguments [],
   launchWithDashE env "wezterm".toList arguments [],
   launchWithDashE env "urxvt".toList arguments [],
   launchWithDashE env "sakura".toList arguments [],
   launchWithDashE env "xterm".toList arguments ["-hold".toList],
   (env.startDetached "ssh".toList arguments,
     [LaunchEvent.startDetached "ssh".toList arguments])]

/-- Specification side of the launch chain: the steps are attempted in order
and the first one that succeeds ends the chain. -/
def firstSuccess : List (Bool × List LaunchEvent) → List LaunchEvent
  | [] => []
  | step :: rest => if step.1 then step.2 else step.2 ++ firstSuccess rest

/-! ## Character reads of the option scanners (`sshhelper.cpp`) -/

/-- The positions at which one iteration of the loop of `hostArgumentIndex`
calls `arg.at` on its token: position 1 in the branch of the two-character
options, and position 1 again after that branch, on every other token that
starts with one dash. -/
def scanStepReads (st : ScanState) (arg : QString) : List Nat :=
  if st.consumeNext then []
  else if !st.afterDoubleDash && arg == "--".toList then []
  else if !st.afterDoubleDash && startsWithChar arg '-' then
    if startsWithStr arg "--".toList then []
    else if arg.length == 2 then [1]
    else [1]
  else []

/-- The calls of `arg.at` of the loop of `hostArgumentIndex` from index `i` on,
each as the pair of the token and the position read. -/
def scanReads : QStringList → Nat → ScanState → List (QString × Nat)
  | [], _, _ => []
  | arg :: rest, i, st =>
    (scanStepReads st arg).map (fun p => (arg, p)) ++ scanReads rest (i + 1) (scanStep st i arg)

/-- The calls of `arg.at` of `hostArgumentIndex`. -/
def hostArgumentIndexReads (arguments : QStringList) : List (QString × Nat) :=
  if arguments.isEmpty then [] else scanReads arguments 0 ⟨false, false, -1⟩

/-- The positions at which one iteration of the loop of `hostFromArguments`
calls `arg.at` on its token. -/
def hostScanStepReads (st : HostScanState) (arg : QString) : List Nat :=
  if st.consumeNext then []
  else if !st.afterDoubleDash && arg == "--".toList then []
  else if !st.afterDoubleDash && startsWithChar arg '-' then
    if startsWithStr arg "--".toList then []
    else if arg.length == 2 then [1]
    else [1]
  else []

/-- The calls of `arg.at` of the loop of `hostFromArguments`. -/
def hostScanReads : QStringList → HostScanState → List (QString × Nat)
  | [], _ => []
  | arg :: rest, st =>
    (hostScanStepReads st arg).map (fun p => (arg, p)) ++ hostScanReads rest (hostScanStep st arg)

/-- The calls of `arg.at` of `hostFromArguments`. -/
def hostFromArgumentsReads (arguments : QStringList) : List (QString × Nat) :=
  if arguments.isEmpty then [] else hostScanReads arguments ⟨false, false, []⟩

/-! ## The reload timer (`sshhelper.cpp`) -/

/-- The runner together with its `m_reloadTimer`. The constructor makes the
timer single-shot with an interval of 250 ms; a `QTimer` that was started is
active until it fires. `deadline` is the time in ms at which the timer fires,
and `none` while the timer is not active. -/
structure TimedRunner where
  runner : Runner
  deadline : Option Nat

/-- The interval `m_reloadTimer.setInterval(250)` of the constructor. -/
def reloadInterval : Nat := 250

/-- The function `SshHelperRunner::scheduleReload`, called at the time `now`:
`m_loaded = false`, and `m_reloadTimer.start()` only when the timer is not
active. -/
def scheduleReload (now : Nat) (s : TimedRunner) : TimedRunner :=
  { runner := { s.runner with loaded := false }
    deadline := if !s.deadline.isSome then some (now + reloadInterval) else s.deadline }

/-- The timeout of `m_reloadTimer`, connected to `reloadHosts`: the single-shot
timer stops and the hosts are reloaded. -/
def timerTimeout (env : ReloadEnv) (s : TimedRunner) : TimedRunner :=
  { runner := reloadHosts env s.runner, deadline := none }

/-- The event loop up to the time `now`: a timer whose deadline has come
fires. -/
def advanceTo (env : ReloadEnv) (now : Nat) (s : TimedRunner) : TimedRunner :=
  match s.deadline with
  | some d => if d ≤ now then timerTimeout env s else s
  | none => s

/-- A change notification of the file watcher or of the config watcher at the
time `now`: the slot `scheduleReload` runs after the timers that were due. -/
def notifyAt (env : ReloadEnv) (s : TimedRunner) (now : Nat) : TimedRunner :=
  scheduleReload now (advanceTo env now s)


/-! ## The DNS caches over time (`sshhelper.cpp`) -/

/-- What the part of `resolveDnsNameForHost` after the two cache tests makes of
the address `ip`: the cleaned host name of the answer, or `none` when the
lookup reports an error, gives an empty name, echoes the address or gives a
text that parses as an address (the cases that end in
`m_dnsFailures.insert(ipCandidate)`). -/
def freshLookup (env : ReloadEnv) (ip : QString) : Option QString :=
  match env.fromName ip with
  | none => none
  | some hostName =>
    if (cleanedAnswer hostName).isEmpty ∨ cleanedAnswer hostName = ip then none
    else if env.setAddress (cleanedAnswer hostName) then none
    else some (cleanedAnswer hostName)

/-- The name `resolveDnsNameForHost` returns for a host during a reload that
started with the positive cache `cache0`: the entry of `cache0` for the
address of the host when there is one, and else the outcome of the lookup. -/
def dnsAnswer (env : ReloadEnv) (cache0 : List (QString × QString)) (host : QString) : QString :=
  if (normalizedHost host).isEmpty then []
  else
    match dnsIpCandidate env (normalizedHost host) with
    | none => []
    | some ip =>
      match cache0.lookup ip with
      | some name => name
      | none => (freshLookup env ip).getD []

/-- The target that the last loop of `reloadHosts` makes of a target, during a
reload that started with the positive cache `cache0`. -/
def resolvedTarget (env : ReloadEnv) (cache0 : List (QString × QString)) (target : SshTarget) :
    SshTarget :=
  let h1 := if target.hostName.isEmpty then hostFromArguments target.sshArguments
    else target.hostName
  let h2 := if h1.isEmpty then target.defaultLabel else h1
  { target with hostName := h2, dnsName := dnsAnswer env cache0 h2 }

/-- Invariant of the two caches of a runner, used in the proofs, relative to
the positive cache `cache0` a reload started with: every address of the
failure set is one whose lookup fails, and the positive cache agrees with
`cache0` except for addresses that `cache0` lacks and whose lookup succeeded. -/
def DnsConsistent (env : ReloadEnv) (cache0 : List (QString × QString)) (s : Runner) : Prop :=
  (∀ ip ∈ s.dnsFailures, freshLookup env ip = none) ∧
  ∀ ip, s.dnsCache.lookup ip = cache0.lookup ip ∨
    (cache0.lookup ip = none ∧ (freshLookup env ip).isSome = true ∧
      s.dnsCache.lookup ip = freshLookup env ip)

/-- One event in the life of the two caches: `some host` is a call of
`resolveDnsNameForHost` on the host, `none` is `m_dnsFailures.clear()` at the
start of a reload. Nothing else in the runner writes to the caches. -/
def dnsStep (env : ReloadEnv) (s : Runner) (event : Option QString) : Runner :=
  match event with
  | some host => (resolveDnsNameForHost env s host).2
  | none => { s with dnsFailures := [] }


/-! ## The token score in the words of the specification -/

/-- The assignments of one iteration of the loop of `subsequenceScore`, for a
character that was found at the index `found`. -/
def subseqUpdate (st : SubseqState) (found : Int) : SubseqState :=
  { firstIndex := if st.firstIndex = -1 then found else st.firstIndex
    lastIndex := found
    previousIndex := found
    bestBlock := max st.bestBlock (if found = st.previousIndex + 1 then st.currentBlock + 1 else 1)
    currentBlock := if found = st.previousIndex + 1 then st.currentBlock + 1 else 1
    matched := st.matched + 1 }

/-- Specification side: the greedy match of a token in a text whose first
character has the position `k`. Each character of the token takes the first
position of the text that holds it after the position of the character before
it; `none` when some character finds no position. -/
def greedyFrom : Utf16 → Nat → Utf16 → Option (List Nat)
  | _, _, [] => some []
  | [], _, _ :: _ => none
  | t :: ts, k, c :: cs =>
    if t = c then (greedyFrom ts (k + 1) cs).map (fun ps => k :: ps)
    else greedyFrom ts (k + 1) (c :: cs)

/-- Specification side: the positions `i1 < ... < in` at which the characters
of the token match greedily in the text. -/
def greedyPositions (text token : Utf16) : Option (List Nat) :=
  greedyFrom text 0 token

/-- Specification side: the lengths of the maximal runs of consecutive numbers
of a list, in the order of the runs. -/
def runLengths : List Nat → List Nat
  | [] => []
  | [_] => [1]
  | a :: b :: rest =>
    match runLengths (b :: rest) with
    | [] => [1]
    | k :: ks => if b = a + 1 then (k + 1) :: ks else 1 :: k :: ks

/-- Specification side: the length of the longest run of consecutive
positions. -/
def longestRun (positions : List Nat) : Nat :=
  (runLengths positions).foldr max 0

/-- Specification side: the score of one token of `n` characters against a
text. A token that matches greedily at the positions `i1 < ... < in` scores
`clamp(0.45 + 0.35 * run / n + 0.20 * n / (in - i1 + 1) + boost, 0, 1)`, where
`run` is the longest run of consecutive positions and `boost` is 0.15 when
`i1 = 0` and 0 otherwise; a token with an unmatched character scores 0. -/
def specTokenScore (text token : Utf16) : ℚ :=
  match greedyPositions text token with
  | none => 0
  | some positions =>
    qBound 0
      (0.45 + 0.35 * ((longestRun positions : ℚ) / (token.length : ℚ))
        + 0.20 * ((token.length : ℚ) /
            ((positions.getLastD 0 : ℚ) - (positions.headD 0 : ℚ) + 1))
        + (if positions.headD 0 = 0 then 0.15 else 0)) 1


/-! # Theorems -/

/-! ## String primitives -/

theorem isEmpty_eq_false_of_ne_nil {α : Type} (s : List α) (h : s ≠ []) :
    s.isEmpty = false := by
  cases s with
  | nil => exact absurd rfl h
  | cons _ _ => rfl

theorem lastIndexOf_of_not_mem (s : QString) (c : Char) (h : c ∉ s) : lastIndexOf s c = -1 := by
  induction s with
  | nil => rfl
  | cons x xs ih =>
    have hx : x ≠ c := fun e => h (by simp [e])
    have hxs : c ∉ xs := fun e => h (by simp [e])
    simp [lastIndexOf, ih hxs, hx]

theorem lastIndexOf_append_sep (old h : QString) (c : Char) (hc : c ∉ h) :
    lastIndexOf (old ++ c :: h) c = old.length := by
  induction old with
  | nil => simp [lastIndexOf, lastIndexOf_of_not_mem h c hc]
  | cons x xs ih =>
    have e : lastIndexOf ((x :: xs) ++ c :: h) c =
        if 0 ≤ lastIndexOf (xs ++ c :: h) c then lastIndexOf (xs ++ c :: h) c + 1
        else if x = c then 0 else -1 := rfl
    rw [e, ih]
    have : (0 : Int) ≤ (xs.length : Int) := Int.ofNat_nonneg _
    simp [this]

theorem dropWhile_head_not {p : Char → Bool} {l : List Char} {x : Char} {ys : List Char}
    (h : l.dropWhile p = x :: ys) : p x = false := by
  induction l with
  | nil => simp at h
  | cons a l ih =>
    by_cases ha : p a = true
    · rw [List.dropWhile_cons_of_pos ha] at h
      exact ih h
    · rw [List.dropWhile_cons_of_neg ha] at h
      cases h
      simpa using ha

theorem trimmed_idem (s : QString) : trimmed (trimmed s) = trimmed s := by
  unfold trimmed
  have hpre : (s.dropWhile qIsSpace).rdropWhile qIsSpace <+: s.dropWhile qIsSpace :=
    List.rdropWhile_prefix _ _
  have h1 : ((s.dropWhile qIsSpace).rdropWhile qIsSpace).dropWhile qIsSpace
      = (s.dropWhile qIsSpace).rdropWhile qIsSpace := by
    cases hr : (s.dropWhile qIsSpace).rdropWhile qIsSpace with
    | nil => rfl
    | cons x r =>
      rw [hr] at hpre
      obtain ⟨k, hk⟩ := hpre
      have := dropWhile_head_not (p := qIsSpace) hk.symm
      rw [List.dropWhile_cons_of_neg (by simp [this])]
  rw [h1, List.rdropWhile_idempotent]

theorem isRegexSpace_false_of_not_space (c : Char) (h : qIsSpace c = false) :
    isRegexSpace c = false := by
  unfold qIsSpace at h
  unfold isRegexSpace
  simp only [Bool.or_eq_false_iff, Bool.and_eq_false_iff, beq_eq_false_iff_ne,
    decide_eq_false_iff_not] at h ⊢
  omega

theorem dropWhile_eq_self_of_head {p : Char → Bool} (s : List Char)
    (h : ∀ x ∈ s.head?, p x = false) : s.dropWhile p = s := by
  cases s with
  | nil => rfl
  | cons x xs =>
    have := h x (by simp)
    rw [List.dropWhile_cons_of_neg (by simp [this])]

theorem rdropWhile_eq_self_of_last {p : Char → Bool} (s : List Char)
    (h : ∀ x ∈ s.getLast?, p x = false) : s.rdropWhile p = s := by
  rw [List.rdropWhile_eq_self_iff]
  intro hl
  have := h (s.getLast hl) (List.getLast_mem_getLast? hl)
  simp [this]

theorem trimmed_eq_self (s : QString) (hhead : ∀ x ∈ s.head?, qIsSpace x = false)
    (hlast : ∀ x ∈ s.getLast?, qIsSpace x = false) : trimmed s = s := by
  unfold trimmed
  rw [dropWhile_eq_self_of_head s hhead, rdropWhile_eq_self_of_last s hlast]

theorem trimmed_spaces_append (ws s : QString) (hws : ∀ c ∈ ws, qIsSpace c = true) :
    trimmed (ws ++ s) = trimmed s := by
  unfold trimmed
  rw [List.dropWhile_append_of_pos hws]

theorem rdropWhile_append_keep {p : Char → Bool} (l1 l2 : List Char)
    (hlast : ∀ x ∈ l1.getLast?, p x = false) :
    (l1 ++ l2).rdropWhile p = l1 ++ l2.rdropWhile p := by
  induction l2 using List.reverseRecOn with
  | nil => simp [rdropWhile_eq_self_of_last l1 hlast]
  | append_singleton l x ih =>
    by_cases hx : p x = true
    · rw [← List.append_assoc, List.rdropWhile_concat_pos _ _ _ hx,
        List.rdropWhile_concat_pos _ _ _ hx, ih]
    · rw [← List.append_assoc, List.rdropWhile_concat_neg _ _ _ hx,
        List.rdropWhile_concat_neg _ _ _ hx, List.append_assoc]

theorem stripCommentFrom_no_hash (l : QString) (b : Bool) (h : chHash ∉ l) :
    stripCommentFrom l b = l := by
  induction l generalizing b with
  | nil => rfl
  | cons x xs ih =>
    have hx : x ≠ chHash := fun e => h (by simp [e])
    have hxs : chHash ∉ xs := fun e => h (by simp [e])
    simp [stripCommentFrom, hx, ih _ hxs]

theorem readLines_append_lf (l rest : QString) (h1 : chLF ∉ l) (h2 : chCR ∉ l) :
    readLines (l ++ chLF :: rest) = l :: readLines rest := by
  induction l with
  | nil => simp [readLines]
  | cons x xs ih =>
    have hx1 : x ≠ chLF := fun e => h1 (by simp [e])
    have hx2 : x ≠ chCR := fun e => h2 (by simp [e])
    have hxs1 : chLF ∉ xs := fun e => h1 (by simp [e])
    have hxs2 : chCR ∉ xs := fun e => h2 (by simp [e])
    simp [readLines, hx1, hx2, ih hxs1 hxs2]

theorem readLines_single (l : QString) (hne : l ≠ []) (h1 : chLF ∉ l) : readLines l = [l] := by
  induction l with
  | nil => exact absurd rfl hne
  | cons x xs ih =>
    have hx1 : x ≠ chLF := fun e => h1 (by simp [e])
    have hxs1 : chLF ∉ xs := fun e => h1 (by simp [e])
    have hhead : ¬ (x = chCR ∧ xs.head? = some chLF) := by
      rintro ⟨_, hh⟩
      exact hxs1 (List.mem_of_mem_head? hh)
    cases xs with
    | nil => simp [readLines, hx1]
    | cons y ys =>
      have := ih (by simp) hxs1
      simp only [readLines] at this ⊢
      simp only [hx1, hhead, if_false]
      rw [this]

theorem splitKeepEmpty_no_sep (isSep : Char → Bool) (l : QString)
    (h : ∀ c ∈ l, isSep c = false) : splitKeepEmpty isSep l = [l] := by
  induction l with
  | nil => rfl
  | cons x xs ih =>
    have hx := h x (List.mem_cons_self _ _)
    have hxs : ∀ c ∈ xs, isSep c = false := fun c hc => h c (List.mem_cons_of_mem _ hc)
    simp [splitKeepEmpty, hx, ih hxs]

theorem splitKeepEmpty_append_sep (isSep : Char → Bool) (l r : QString) (s : Char)
    (h : ∀ c ∈ l, isSep c = false) (hs : isSep s = true) :
    splitKeepEmpty isSep (l ++ s :: r) = l :: splitKeepEmpty isSep r := by
  induction l with
  | nil => simp [splitKeepEmpty, hs]
  | cons x xs ih =>
    have hx := h x (List.mem_cons_self _ _)
    have hxs : ∀ c ∈ xs, isSep c = false := fun c hc => h c (List.mem_cons_of_mem _ hc)
    simp [splitKeepEmpty, hx, ih hxs]


theorem indexOf_of_not_mem (s : QString) (c : Char) (h : c ∉ s) : indexOf s c = -1 := by
  induction s with
  | nil => rfl
  | cons x xs ih =>
    have hx : x ≠ c := fun e => h (by simp [e])
    have hxs : c ∉ xs := fun e => h (by simp [e])
    simp [indexOf, ih hxs, hx]

theorem indexOf_append_sep (l r : QString) (c : Char) (hc : c ∉ l) :
    indexOf (l ++ c :: r) c = l.length := by
  induction l with
  | nil => simp [indexOf]
  | cons x xs ih =>
    have hx : x ≠ c := fun e => hc (by simp [e])
    have hxs : c ∉ xs := fun e => hc (by simp [e])
    have e : indexOf ((x :: xs) ++ c :: r) c =
        if x = c then 0 else if indexOf (xs ++ c :: r) c < 0 then -1
          else indexOf (xs ++ c :: r) c + 1 := rfl
    rw [e, ih hxs, if_neg hx]
    have : ¬ ((xs.length : Int) < 0) := by omega
    simp [this]

/-! ## The option scanner -/

theorem scanFrom_append (l1 l2 : QStringList) (i : Nat) (st : ScanState) :
    scanFrom (l1 ++ l2) i st = scanFrom l2 (i + l1.length) (scanFrom l1 i st) := by
  induction l1 generalizing i st with
  | nil => simp [scanFrom]
  | cons a l ih =>
    show scanFrom (l ++ l2) (i + 1) (scanStep st i a) = _
    rw [ih, List.length_cons, scanFrom, show i + 1 + l.length = i + (l.length + 1) by omega]

theorem scanStep_value_option (o : Char) (ho : o ∈ optionsWithValue) (i : Nat) (c : Int) :
    scanStep ⟨false, false, c⟩ i ['-', o] = ⟨true, false, c⟩ := by
  simp only [optionsWithValue, List.mem_cons, List.mem_singleton, List.not_mem_nil, or_false] at ho
  rcases ho with rfl | rfl | rfl | rfl | rfl | rfl | rfl | rfl | rfl | rfl | rfl | rfl | rfl | rfl |
    rfl | rfl | rfl | rfl | rfl <;> rfl

theorem scanStep_consume (b : Bool) (c : Int) (i : Nat) (arg : QString) :
    scanStep ⟨true, b, c⟩ i arg = ⟨false, b, c⟩ := by
  simp [scanStep]

theorem scanFrom_option_pairs (opts : List (Char × QString))
    (hopts : ∀ p ∈ opts, p.1 ∈ optionsWithValue) (i : Nat) (c : Int) :
    scanFrom (opts.flatMap fun p => [['-', p.1], p.2]) i ⟨false, false, c⟩ = ⟨false, false, c⟩ := by
  induction opts generalizing i with
  | nil => rfl
  | cons p ps ih =>
    have hp : p.1 ∈ optionsWithValue := hopts p (List.mem_cons_self _ _)
    have hps : ∀ q ∈ ps, q.1 ∈ optionsWithValue := fun q hq => hopts q (List.mem_cons_of_mem _ hq)
    show scanFrom (['-', p.1] :: p.2 :: (ps.flatMap fun p => [['-', p.1], p.2])) i _ = _
    rw [scanFrom, scanFrom, scanStep_value_option p.1 hp, scanStep_consume, ih hps]

theorem scanStep_positional (b : Bool) (c : Int) (i : Nat) (arg : QString)
    (h : startsWithChar arg '-' = false) :
    scanStep ⟨false, b, c⟩ i arg = ⟨false, b, i⟩ := by
  have h2 : arg ≠ ['-', '-'] := by
    rintro rfl
    simp [startsWithChar] at h
  simp [scanStep, h, h2]

theorem applyUser_at_last (pre : QStringList) (h u : QString)
    (hidx : hostArgumentIndex (pre ++ [h]) = (pre.length : Int))
    (hne : h ≠ []) (htrim : trimmed h = h) (hat : '@' ∉ h) (hu : trimmed u ≠ []) :
    applyUserToArguments (pre ++ [h]) u = pre ++ [trimmed u ++ '@' :: h] := by
  unfold applyUserToArguments
  simp only [hidx]
  simp [isEmpty_eq_false_of_ne_nil _ hu, htrim, isEmpty_eq_false_of_ne_nil _ hne, hne,
    lastIndexOf_of_not_mem h _ hat]

/-! ## User substitution -/

/-- C1, evaluated on the code: `hostArgumentIndex` keeps the index of the LAST
positional token, so for the vector `host uptime` and the user `bob` it returns
1 and `applyUserToArguments` rewrites the remote command `uptime`, leaving the
first positional token `host` as it was. -/
theorem applyUser_rewrites_last_positional :
    hostArgumentIndex ["host".toList, "uptime".toList] = 1 ∧
    applyUserToArguments ["host".toList, "uptime".toList] "bob".toList
      = ["host".toList, "bob@uptime".toList] := by
  decide

/-- C2: for value-taking short options of the fixed table, each directly
followed by its value, and then one host token `h` that is non-empty, has no
surrounding whitespace, does not start with `-` and contains no `@`, and for a
non-blank user `u`, `applyUserToArguments` returns the same vector with the
host token replaced by `trimmed u ++ "@" ++ h`. -/
theorem applyUser_options_then_host (opts : List (Char × QString)) (h u : QString)
    (hopts : ∀ p ∈ opts, p.1 ∈ optionsWithValue)
    (hne : h ≠ []) (htrim : trimmed h = h) (hdash : startsWithChar h '-' = false)
    (hat : '@' ∉ h) (hu : trimmed u ≠ []) :
    applyUserToArguments ((opts.flatMap fun p => [['-', p.1], p.2]) ++ [h]) u
      = (opts.flatMap fun p => [['-', p.1], p.2]) ++ [trimmed u ++ '@' :: h] := by
  apply applyUser_at_last _ h u _ hne htrim hat hu
  unfold hostArgumentIndex
  rw [if_neg (by simp), scanFrom_append, scanFrom_option_pairs opts hopts, scanFrom,
    scanStep_positional _ _ _ _ hdash, scanFrom]
  simp

/-- Witness of C2: `-p 2222 host.example.com` with the user `bob`. -/
theorem applyUser_options_then_host_witness :
    (∀ p ∈ [('p', "2222".toList)], p.1 ∈ optionsWithValue) ∧
    "host.example.com".toList ≠ [] ∧
    trimmed "host.example.com".toList = "host.example.com".toList ∧
    startsWithChar "host.example.com".toList '-' = false ∧
    '@' ∉ "host.example.com".toList ∧
    trimmed "bob".toList ≠ [] ∧
    applyUserToArguments ["-p".toList, "2222".toList, "host.example.com".toList] "bob".toList
      = ["-p".toList, "2222".toList, "bob@host.example.com".toList] :=
  ⟨by decide, by decide, by decide, by decide, by decide, by decide,
    applyUser_options_then_host [('p', "2222".toList)] "host.example.com".toList "bob".toList
      (by decide) (by decide) (by decide) (by decide) (by decide) (by decide)⟩

theorem applyUser_of_trimmed_form (args : QStringList) (i : Nat) (old h u : QString)
    (hidx : hostArgumentIndex args = (i : Int))
    (htok : trimmed (args.getD i []) = old ++ '@' :: h)
    (hold : old ≠ []) (hat : '@' ∉ h) (hu : trimmed u ≠ []) :
    applyUserToArguments args u = args.set i (trimmed u ++ '@' :: h) := by
  have hlt : i < args.length := by
    by_contra hge
    rw [List.getD_eq_default _ _ (Nat.le_of_not_lt hge)] at htok
    exact absurd htok (by simp [trimmed])
  have hargs : args.isEmpty = false := by
    cases args with
    | nil => simp at hlt
    | cons _ _ => rfl
  have hpos : (0 : Int) < (old.length : Int) := by
    have := List.length_pos.2 hold
    omega
  have hdrop : midFrom (old ++ '@' :: h) ((old.length : Int) + 1) = h := by
    have : ((old.length : Int) + 1).toNat = old.length + 1 := by omega
    simp [midFrom, this]
  have htok2 : trimmed args[i] = old ++ '@' :: h := by
    rwa [List.getD_eq_getElem _ _ hlt] at htok
  have hnlt : ¬ ((i : Int) < 0 ∨ args.length ≤ i) := by omega
  unfold applyUserToArguments
  simp [hidx, isEmpty_eq_false_of_ne_nil _ hu, hargs, hlt, hnlt, htok2,
    lastIndexOf_append_sep old h _ hat, hpos, hdrop]

/-- C3: when the host argument (the token at `hostArgumentIndex`) has the
form `old@h` with `old` non-empty and no `@` in `h`, a non-blank user `u`
turns exactly that token into `trimmed u ++ "@" ++ h`: the old user is
replaced, and the result is not the stacked `u@old@h`. The host argument is
a trimmed token, as it is in every argument vector the function is called
with (the aliases of the parsers and the arguments of the manual entries are
trimmed before they are stored). -/
theorem applyUser_replaces_old_user (args : QStringList) (i : Nat) (old h u : QString)
    (hidx : hostArgumentIndex args = (i : Int))
    (htok : args.getD i [] = old ++ '@' :: h)
    (htrim : trimmed (args.getD i []) = args.getD i [])
    (hold : old ≠ []) (hat : '@' ∉ h) (hu : trimmed u ≠ []) :
    applyUserToArguments args u = args.set i (trimmed u ++ '@' :: h) ∧
    (applyUserToArguments args u).getD i [] = trimmed u ++ '@' :: h ∧
    (applyUserToArguments args u).getD i [] ≠ trimmed u ++ '@' :: (old ++ '@' :: h) := by
  have key := applyUser_of_trimmed_form args i old h u hidx (htrim.trans htok) hold hat hu
  have hlt : i < args.length := by
    by_contra hge
    rw [List.getD_eq_default _ _ (Nat.le_of_not_lt hge)] at htok
    cases old <;> simp at htok
  have hget : (applyUserToArguments args u).getD i [] = trimmed u ++ '@' :: h := by
    rw [key, List.getD_eq_getElem?_getD, List.getElem?_set_self hlt]
    rfl
  refine ⟨key, hget, ?_⟩
  rw [hget]
  intro e
  have hlen := congrArg List.length e
  simp only [List.length_append, List.length_cons] at hlen
  omega

/-- Witness of C3: `alice@host` with the user `bob`. -/
theorem applyUser_replaces_old_user_witness :
    hostArgumentIndex ["alice@host".toList] = ((0 : Nat) : Int) ∧
    ["alice@host".toList].getD 0 [] = "alice".toList ++ '@' :: "host".toList ∧
    trimmed (["alice@host".toList].getD 0 []) = ["alice@host".toList].getD 0 [] ∧
    "alice".toList ≠ [] ∧ '@' ∉ "host".toList ∧ trimmed "bob".toList ≠ [] ∧
    applyUserToArguments ["alice@host".toList] "bob".toList = ["bob@host".toList] :=
  ⟨by decide, by decide, by decide, by decide, by decide, by decide,
    (applyUser_replaces_old_user ["alice@host".toList] 0 "alice".toList "host".toList
      "bob".toList (by decide) (by decide) (by decide) (by decide) (by decide) (by decide)).1⟩

/-! ## Entry ids -/

theorem foldl_append_flatMap {α β : Type} (f : α → List β) (l : List α) (init : List β) :
    l.foldl (fun acc x => acc ++ f x) init = init ++ l.flatMap f := by
  induction l generalizing init with
  | nil => simp
  | cons a l ih => simp [ih, List.flatMap_cons]

theorem normalizedArguments_eq_map (arguments : QStringList) :
    normalizedArguments arguments = arguments.map trimmed := by
  unfold normalizedArguments
  rw [foldl_append_flatMap (fun arg => [trimmed arg])]
  induction arguments with
  | nil => rfl
  | cons a l ih => simpa [List.flatMap_cons] using ih

theorem toUtf8_append (a b : QString) : toUtf8 (a ++ b) = toUtf8 a ++ toUtf8 b := by
  simp [toUtf8, List.flatMap_append]

theorem entryIdBuffer_eq (arguments : QStringList) :
    entryIdBuffer arguments = (arguments.map trimmed).flatMap fun a => toUtf8 a ++ [0x1f] := by
  unfold entryIdBuffer
  rw [normalizedArguments_eq_map]
  have := foldl_append_flatMap (fun a => toUtf8 a ++ [0x1f]) (arguments.map trimmed) []
  simpa [List.append_assoc] using this


theorem char_eq_of_toNat_eq {c d : Char} (h : c.toNat = d.toNat) : c = d := by
  rw [← Char.ofNat_toNat c, ← Char.ofNat_toNat d, h]

theorem utf8EncodeChar_cancel (c d : Char) (x y : QByteArray)
    (h : utf8EncodeChar c ++ x = utf8EncodeChar d ++ y) : c = d ∧ x = y := by
  have key : c.toNat = d.toNat ∧ x = y := by
    unfold utf8EncodeChar at h
    split_ifs at h <;>
      simp only [List.cons_append, List.nil_append, List.cons.injEq] at h <;>
      first
        | (exfalso; omega)
        | exact ⟨by omega, by simp only [h]⟩
  exact ⟨char_eq_of_toNat_eq key.1, key.2⟩

theorem toUtf8_injective (a b : QString) (h : toUtf8 a = toUtf8 b) : a = b := by
  induction a generalizing b with
  | nil =>
    cases b with
    | nil => rfl
    | cons d ds =>
      exfalso
      have : utf8EncodeChar d ++ toUtf8 ds = [] := h.symm
      unfold utf8EncodeChar at this
      split_ifs at this <;> simp at this
  | cons c cs ih =>
    cases b with
    | nil =>
      exfalso
      have : utf8EncodeChar c ++ toUtf8 cs = [] := h
      unfold utf8EncodeChar at this
      split_ifs at this <;> simp at this
    | cons d ds =>
      have h2 : utf8EncodeChar c ++ toUtf8 cs = utf8EncodeChar d ++ toUtf8 ds := h
      obtain ⟨e1, e2⟩ := utf8EncodeChar_cancel c d _ _ h2
      rw [e1, ih ds e2]

theorem unitSep_of_mem_utf8EncodeChar (c : Char) (h : 0x1f ∈ utf8EncodeChar c) :
    c = chUnitSep := by
  apply char_eq_of_toNat_eq
  show c.toNat = 31
  unfold utf8EncodeChar at h
  split_ifs at h <;> simp at h <;> omega

theorem unitSep_not_mem_toUtf8 (s : QString) (h : chUnitSep ∉ s) : 0x1f ∉ toUtf8 s := by
  intro hm
  simp only [toUtf8, List.mem_flatMap] at hm
  obtain ⟨c, hc, hc2⟩ := hm
  exact h (unitSep_of_mem_utf8EncodeChar c hc2 ▸ hc)

theorem append_sep_cancel {α : Type} (l1 l2 r1 r2 : List α) (x : α) (h1 : x ∉ l1) (h2 : x ∉ l2)
    (h : l1 ++ x :: r1 = l2 ++ x :: r2) : l1 = l2 ∧ r1 = r2 := by
  induction l1 generalizing l2 with
  | nil =>
    cases l2 with
    | nil => simpa using h
    | cons b l2 =>
      exfalso
      simp only [List.nil_append, List.cons_append, List.cons.injEq] at h
      exact h2 (by simp [h.1])
  | cons a l1 ih =>
    cases l2 with
    | nil =>
      exfalso
      simp only [List.nil_append, List.cons_append, List.cons.injEq] at h
      exact h1 (by simp [h.1])
    | cons b l2 =>
      simp only [List.cons_append, List.cons.injEq] at h
      obtain ⟨e1, e2⟩ := ih l2 (fun m => h1 (List.mem_cons_of_mem _ m))
        (fun m => h2 (List.mem_cons_of_mem _ m)) h.2
      exact ⟨by rw [h.1, e1], e2⟩

theorem terminated_injective (a b : QStringList)
    (ha : ∀ x ∈ a, chUnitSep ∉ x) (hb : ∀ x ∈ b, chUnitSep ∉ x)
    (h : (a.flatMap fun s => toUtf8 s ++ [0x1f]) = b.flatMap fun s => toUtf8 s ++ [0x1f]) :
    a = b := by
  induction a generalizing b with
  | nil =>
    cases b with
    | nil => rfl
    | cons d ds => simp [List.flatMap_cons] at h
  | cons c cs ih =>
    cases b with
    | nil => simp [List.flatMap_cons] at h
    | cons d ds =>
      simp only [List.flatMap_cons, List.append_assoc, List.singleton_append] at h
      obtain ⟨e1, e2⟩ := append_sep_cancel _ _ _ _ _
        (unitSep_not_mem_toUtf8 c (ha c (List.mem_cons_self _ _)))
        (unitSep_not_mem_toUtf8 d (hb d (List.mem_cons_self _ _))) h
      rw [toUtf8_injective c d e1, ih ds (fun x hx => ha x (List.mem_cons_of_mem _ hx))
        (fun x hx => hb x (List.mem_cons_of_mem _ hx)) e2]

/-- C4 as stated fails: for the vector `a` the buffer handed to SHA-1 is the
two bytes 0x61 0x1f, not the single byte 0x61 of the joined form, and the id
`auto:4b4c...` is not `auto:` followed by the SHA-1 of the joined form. -/
theorem entryId_not_of_joined_counterexample :
    entryIdBuffer ["a".toList] = [0x61, 0x1f] ∧
    toUtf8 (List.intercalate [chUnitSep] (["a".toList].map trimmed)) = [0x61] ∧
    entryIdForArguments ["a".toList]
      = "auto:4b4cf078a3065cd34b2b38828e9f447fd5142ff1".toList ∧
    "auto:".toList ++
        toHex (sha1 (toUtf8 (List.intercalate [chUnitSep] (["a".toList].map trimmed))))
      = "auto:86f7e437faa5a7fce15d1ddcb9eaeaea377667b8".toList ∧
    entryIdForArguments ["a".toList] ≠
      "auto:".toList ++
        toHex (sha1 (toUtf8 (List.intercalate [chUnitSep] (["a".toList].map trimmed)))) := by
  decide!

/-- C4, amended: for every argument vector, `entryIdForArguments` returns
`auto:` followed by the lower-case hex SHA-1 of the UTF-8 encoding of the
trimmed arguments, each one FOLLOWED by U+001F (a terminator after every
argument, the last included). -/
theorem entryIdForArguments_eq_terminated (arguments : QStringList) :
    entryIdForArguments arguments =
      "auto:".toList ++
        toHex (sha1 (toUtf8 ((arguments.map trimmed).flatMap fun a => a ++ [chUnitSep]))) := by
  unfold entryIdForArguments
  rw [entryIdBuffer_eq]
  congr 3
  induction arguments.map trimmed with
  | nil => rfl
  | cons a l ih =>
    rw [List.flatMap_cons, List.flatMap_cons, toUtf8_append, toUtf8_append, ih]
    rfl

/-- C5: the id depends on the trimmed arguments only. It is unchanged when
every argument is trimmed first, and two vectors with the same trimmed
arguments (equal vectors in particular) get the same id. -/
theorem entryId_trim_invariant (arguments other : QStringList)
    (h : other.map trimmed = arguments.map trimmed) :
    entryIdForArguments (arguments.map trimmed) = entryIdForArguments arguments ∧
    entryIdForArguments other = entryIdForArguments arguments := by
  have key : ∀ l : QStringList, entryIdForArguments l
      = "auto:".toList ++ toHex (sha1 ((l.map trimmed).flatMap fun a => toUtf8 a ++ [0x1f])) := by
    intro l
    unfold entryIdForArguments
    rw [entryIdBuffer_eq]
  have hidem : (arguments.map trimmed).map trimmed = arguments.map trimmed := by
    rw [List.map_map]
    apply List.map_congr_left
    intro a _
    exact trimmed_idem a
  exact ⟨by rw [key, key, hidem], by rw [key, key, h]⟩

/-- Witness of C5: `a`, `b` and the padded ` a `, `b ` get the same id. -/
theorem entryId_trim_invariant_witness :
    [" a ".toList, "b ".toList].map trimmed = ["a".toList, "b".toList].map trimmed ∧
    entryIdForArguments [" a ".toList, "b ".toList]
      = entryIdForArguments ["a".toList, "b".toList] :=
  ⟨by decide,
    (entryId_trim_invariant ["a".toList, "b".toList] [" a ".toList, "b ".toList]
      (by decide)).2⟩

/-- C6 as stated fails: the one-argument vector whose argument is `a`, U+001F,
`b` and the two-argument vector `a`, `b` have different trimmed forms and the
same buffer, hence the same id. -/
theorem entryIdBuffer_separator_collision_counterexample :
    [['a', chUnitSep, 'b']].map trimmed ≠ ["a".toList, "b".toList].map trimmed ∧
    entryIdBuffer [['a', chUnitSep, 'b']] = entryIdBuffer ["a".toList, "b".toList] ∧
    entryIdForArguments [['a', chUnitSep, 'b']]
      = entryIdForArguments ["a".toList, "b".toList] := by
  decide!

/-- C6, amended: for two argument vectors whose trimmed arguments contain no
U+001F character and whose trimmed forms are different lists, the byte buffers
that `entryIdForArguments` feeds to SHA-1 are different. -/
theorem entryIdBuffer_injective (a b : QStringList)
    (ha : ∀ x ∈ a, chUnitSep ∉ trimmed x) (hb : ∀ x ∈ b, chUnitSep ∉ trimmed x)
    (hne : a.map trimmed ≠ b.map trimmed) :
    entryIdBuffer a ≠ entryIdBuffer b := by
  intro h
  rw [entryIdBuffer_eq, entryIdBuffer_eq] at h
  apply hne
  apply terminated_injective _ _ _ _ h
  · intro x hx
    obtain ⟨y, hy, rfl⟩ := List.mem_map.1 hx
    exact ha y hy
  · intro x hx
    obtain ⟨y, hy, rfl⟩ := List.mem_map.1 hx
    exact hb y hy

/-- Witness of the amended C6: the vectors `a`, `b` and `ab`. -/
theorem entryIdBuffer_injective_witness :
    (∀ x ∈ ["a".toList, "b".toList], chUnitSep ∉ trimmed x) ∧
    (∀ x ∈ ["ab".toList], chUnitSep ∉ trimmed x) ∧
    ["a".toList, "b".toList].map trimmed ≠ ["ab".toList].map trimmed ∧
    entryIdBuffer ["a".toList, "b".toList] ≠ entryIdBuffer ["ab".toList] :=
  ⟨by decide, by decide, by decide,
    entryIdBuffer_injective ["a".toList, "b".toList] ["ab".toList]
      (by decide) (by decide) (by decide)⟩

/-! ## The config parser -/

theorem mem_of_getLast_append (l v : List Char) (hv : v ≠ []) (x : Char)
    (hx : x ∈ (l ++ v).getLast?) : x ∈ v := by
  rw [List.getLast?_append_of_ne_nil _ hv] at hx
  exact List.mem_of_mem_getLast? hx

theorem mem_of_head_append (k r : List Char) (hk : k ≠ []) (x : Char)
    (hx : x ∈ (k ++ r).head?) : x ∈ k := by
  cases k with
  | nil => exact absurd rfl hk
  | cons a ks =>
    simp only [List.cons_append, List.head?_cons, Option.mem_def, Option.some.injEq] at hx
    simp [← hx]

theorem configLine_parts (ws kw v : QString) (hws : ∀ c ∈ ws, qIsSpace c = true)
    (hkw : kw ≠ []) (hkwc : ∀ c ∈ kw, qIsSpace c = false ∧ c ≠ chHash)
    (hv : v ≠ []) (hvc : ∀ c ∈ v, qIsSpace c = false ∧ c ≠ chHash) :
    trimmed (stripComment (ws ++ (kw ++ ' ' :: v))) = kw ++ ' ' :: v ∧
    splitSkipEmpty isRegexSpace (kw ++ ' ' :: v) = [kw, v] := by
  constructor
  · have hhash : chHash ∉ ws ++ (kw ++ ' ' :: v) := by
      intro hm
      rcases List.mem_append.1 hm with hm | hm
      · exact absurd (hws _ hm) (by decide)
      · rcases List.mem_append.1 hm with hm | hm
        · exact (hkwc _ hm).2 rfl
        · rcases List.mem_cons.1 hm with hm | hm
          · exact absurd hm (by decide)
          · exact (hvc _ hm).2 rfl
    rw [stripComment, stripCommentFrom_no_hash _ _ hhash, trimmed_spaces_append _ _ hws]
    apply trimmed_eq_self
    · intro x hx
      exact (hkwc x (mem_of_head_append kw _ hkw x hx)).1
    · intro x hx
      have e : kw ++ ' ' :: v = (kw ++ [' ']) ++ v := by simp
      rw [e] at hx
      exact (hvc x (mem_of_getLast_append _ v hv x hx)).1
  · unfold splitSkipEmpty
    rw [splitKeepEmpty_append_sep isRegexSpace kw v ' '
        (fun c hc => isRegexSpace_false_of_not_space c (hkwc c hc).1) (by decide),
      splitKeepEmpty_no_sep isRegexSpace v
        (fun c hc => isRegexSpace_false_of_not_space c (hvc c hc).1)]
    simp [hkw, hv]

theorem configLine_host (acc : ConfigState × Discovery) (ws v : QString)
    (hws : ∀ c ∈ ws, qIsSpace c = true)
    (hv : v ≠ []) (hvc : ∀ c ∈ v, qIsSpace c = false ∧ c ≠ chHash) :
    configLine acc (ws ++ ("Host".toList ++ ' ' :: v))
      = (⟨[v], [], []⟩, commitConfigState acc.1 acc.2) := by
  obtain ⟨e1, e2⟩ := configLine_parts ws "Host".toList v hws (by decide) (by decide) hv hvc
  unfold configLine
  rw [e1, e2]
  have : ("Host".toList ++ ' ' :: v).isEmpty = false := rfl
  rw [this]
  rfl

theorem configLine_hostname (acc : ConfigState × Discovery) (ws v : QString)
    (hws : ∀ c ∈ ws, qIsSpace c = true)
    (hv : v ≠ []) (hvc : ∀ c ∈ v, qIsSpace c = false ∧ c ≠ chHash) :
    configLine acc (ws ++ ("HostName".toList ++ ' ' :: v))
      = ({ acc.1 with hostname := v }, acc.2) := by
  obtain ⟨e1, e2⟩ := configLine_parts ws "HostName".toList v hws (by decide) (by decide) hv hvc
  unfold configLine
  rw [e1, e2]
  have : ("HostName".toList ++ ' ' :: v).isEmpty = false := rfl
  rw [this]
  rfl

theorem configLine_user (acc : ConfigState × Discovery) (ws v : QString)
    (hws : ∀ c ∈ ws, qIsSpace c = true)
    (hv : v ≠ []) (hvc : ∀ c ∈ v, qIsSpace c = false ∧ c ≠ chHash) :
    configLine acc (ws ++ ("User".toList ++ ' ' :: v))
      = ({ acc.1 with user := v }, acc.2) := by
  obtain ⟨e1, e2⟩ := configLine_parts ws "User".toList v hws (by decide) (by decide) hv hvc
  unfold configLine
  rw [e1, e2]
  have : ("User".toList ++ ' ' :: v).isEmpty = false := rfl
  rw [this]
  rfl


/-- C7: for an alias `a`, a host name `h` and a user `u` that are non-empty and
free of whitespace and `#`, with no `*` or `?` in `a`, the config text
`Host a`, `  HostName h`, `  User u` (three lines) yields exactly one host: alias
`a`, arguments `[a]`, id `entryIdForArguments [a]`, hostName `h`, userName `u`,
origin Config. -/
theorem parseConfigFile_single_stanza (a h u : QString)
    (ha : a ≠ []) (hac : ∀ c ∈ a, qIsSpace c = false ∧ c ≠ chHash)
    (hglob : '*' ∉ a ∧ '?' ∉ a)
    (hh : h ≠ []) (hhc : ∀ c ∈ h, qIsSpace c = false ∧ c ≠ chHash)
    (hu : u ≠ []) (huc : ∀ c ∈ u, qIsSpace c = false ∧ c ≠ chHash) :
    (parseConfigFile
        (some ("Host ".toList ++ a ++ chLF ::
          ("  HostName ".toList ++ h ++ chLF :: ("  User ".toList ++ u ++ [chLF]))))
        ⟨[], []⟩).out
      = [⟨entryIdForArguments [a], a, (u ++ '@' :: h) ++ " in SSH config".toList, [a], h, u,
          EntryOrigin.Config⟩] := by
  have nolf : ∀ (k v : QString), (∀ c ∈ k, qIsSpace c = false ∨ c = ' ') →
      (∀ c ∈ v, qIsSpace c = false ∧ c ≠ chHash) → chLF ∉ k ++ v ∧ chCR ∉ k ++ v := by
    intro k v hk hv
    constructor <;> intro hm <;> rcases List.mem_append.1 hm with hm | hm
    · rcases hk _ hm with e | e
      · exact absurd e (by decide)
      · exact absurd e (by decide)
    · exact absurd (hv _ hm).1 (by decide)
    · rcases hk _ hm with e | e
      · exact absurd e (by decide)
      · exact absurd e (by decide)
    · exact absurd (hv _ hm).1 (by decide)
  obtain ⟨l1a, l1b⟩ := nolf "Host ".toList a (by decide) hac
  obtain ⟨l2a, l2b⟩ := nolf "  HostName ".toList h (by decide) hhc
  obtain ⟨l3a, l3b⟩ := nolf "  User ".toList u (by decide) huc
  have hlines : readLines ("Host ".toList ++ a ++ chLF ::
      ("  HostName ".toList ++ h ++ chLF :: ("  User ".toList ++ u ++ [chLF])))
      = ["Host ".toList ++ a, "  HostName ".toList ++ h, "  User ".toList ++ u] := by
    rw [readLines_append_lf _ _ l1a l1b, readLines_append_lf _ _ l2a l2b,
      readLines_append_lf _ _ l3a l3b]
    rfl
  have e1 : "Host ".toList ++ a = [] ++ ("Host".toList ++ ' ' :: a) := rfl
  have e2 : "  HostName ".toList ++ h = "  ".toList ++ ("HostName".toList ++ ' ' :: h) := rfl
  have e3 : "  User ".toList ++ u = "  ".toList ++ ("User".toList ++ ' ' :: u) := rfl
  unfold parseConfigFile
  simp only [hlines, List.foldl_cons, List.foldl_nil]
  rw [e1, e2, e3, configLine_host _ _ _ (by decide) ha hac,
    configLine_hostname _ _ _ (by decide) hh hhc, configLine_user _ _ _ (by decide) hu huc]
  have ta : trimmed a = a := by
    apply trimmed_eq_self
    · intro x hx
      exact (hac x (List.mem_of_mem_head? hx)).1
    · intro x hx
      exact (hac x (List.mem_of_mem_getLast? hx)).1
  simp [commitConfigState, commitAlias, ta, ha, hh, hu, hglob.1, hglob.2, containsChar,
    configDescription]

/-- Witness of C7: `a = foo`, `h = foo.example.com`, `u = alice`. -/
theorem parseConfigFile_single_stanza_witness :
    "foo".toList ≠ [] ∧ (∀ c ∈ "foo".toList, qIsSpace c = false ∧ c ≠ chHash) ∧
    ('*' ∉ "foo".toList ∧ '?' ∉ "foo".toList) ∧
    "foo.example.com".toList ≠ [] ∧
    (∀ c ∈ "foo.example.com".toList, qIsSpace c = false ∧ c ≠ chHash) ∧
    "alice".toList ≠ [] ∧ (∀ c ∈ "alice".toList, qIsSpace c = false ∧ c ≠ chHash) ∧
    (parseConfigFile (some "Host foo\n  HostName foo.example.com\n  User alice\n".toList)
        ⟨[], []⟩).out
      = [⟨entryIdForArguments ["foo".toList], "foo".toList,
          "alice@foo.example.com in SSH config".toList, ["foo".toList],
          "foo.example.com".toList, "alice".toList, EntryOrigin.Config⟩] :=
  ⟨by decide, by decide, by decide, by decide, by decide, by decide, by decide,
    parseConfigFile_single_stanza "foo".toList "foo.example.com".toList "alice".toList
      (by decide) (by decide) (by decide) (by decide) (by decide) (by decide) (by decide)⟩

theorem commitAlias_plain (state : ConfigState) (d : Discovery) (rawAlias : QString)
    (hd : ∀ x ∈ d.out, x.hostAlias ≠ [] ∧ '*' ∉ x.hostAlias ∧ '?' ∉ x.hostAlias) :
    ∀ x ∈ (commitAlias state d rawAlias).out,
      x.hostAlias ≠ [] ∧ '*' ∉ x.hostAlias ∧ '?' ∉ x.hostAlias := by
  unfold commitAlias
  by_cases h1 : (List.isEmpty (trimmed rawAlias) || containsChar (trimmed rawAlias) '*' ||
      containsChar (trimmed rawAlias) '?') = true
  · rw [if_pos h1]
    exact hd
  · rw [if_neg h1]
    by_cases h2 : decide (entryIdForArguments [trimmed rawAlias] ∈ d.seenIds) = true
    · rw [if_pos h2]
      exact hd
    · rw [if_neg h2]
      intro x hx
      rcases List.mem_append.1 hx with hx | hx
      · exact hd x hx
      · rw [List.mem_singleton] at hx
        subst hx
        simp only [Bool.or_eq_true, not_or, Bool.not_eq_true, containsChar,
          decide_eq_false_iff_not, List.isEmpty_iff, decide_eq_true_eq] at h1
        exact ⟨h1.1.1, h1.1.2, h1.2⟩

theorem foldl_commitAlias_plain (state : ConfigState) (l : QStringList) (d : Discovery)
    (hd : ∀ x ∈ d.out, x.hostAlias ≠ [] ∧ '*' ∉ x.hostAlias ∧ '?' ∉ x.hostAlias) :
    ∀ x ∈ (l.foldl (commitAlias state) d).out,
      x.hostAlias ≠ [] ∧ '*' ∉ x.hostAlias ∧ '?' ∉ x.hostAlias := by
  induction l generalizing d with
  | nil => exact hd
  | cons a l ih => exact ih _ (commitAlias_plain state d a hd)

theorem commitConfigState_plain (state : ConfigState) (d : Discovery)
    (hd : ∀ x ∈ d.out, x.hostAlias ≠ [] ∧ '*' ∉ x.hostAlias ∧ '?' ∉ x.hostAlias) :
    ∀ x ∈ (commitConfigState state d).out,
      x.hostAlias ≠ [] ∧ '*' ∉ x.hostAlias ∧ '?' ∉ x.hostAlias := by
  unfold commitConfigState
  split_ifs
  · exact hd
  · exact foldl_commitAlias_plain state _ d hd

theorem configLine_plain (acc : ConfigState × Discovery) (rawLine : QString)
    (hd : ∀ x ∈ acc.2.out, x.hostAlias ≠ [] ∧ '*' ∉ x.hostAlias ∧ '?' ∉ x.hostAlias) :
    ∀ x ∈ (configLine acc rawLine).2.out,
      x.hostAlias ≠ [] ∧ '*' ∉ x.hostAlias ∧ '?' ∉ x.hostAlias := by
  unfold configLine
  split_ifs <;> first | exact hd | exact commitConfigState_plain _ _ hd

theorem foldl_configLine_plain (l : List QString) (acc : ConfigState × Discovery)
    (hd : ∀ x ∈ acc.2.out, x.hostAlias ≠ [] ∧ '*' ∉ x.hostAlias ∧ '?' ∉ x.hostAlias) :
    ∀ x ∈ (l.foldl configLine acc).2.out,
      x.hostAlias ≠ [] ∧ '*' ∉ x.hostAlias ∧ '?' ∉ x.hostAlias := by
  induction l generalizing acc with
  | nil => exact hd
  | cons a l ih => exact ih _ (configLine_plain acc a hd)

/-- C8: no host emitted by the config parser has an alias that is empty or
contains `*` or `?`, whatever the config text. -/
theorem parseConfigFile_no_glob_alias (text : QString) (x : DiscoveredHost)
    (hx : x ∈ (parseConfigFile (some text) ⟨[], []⟩).out) :
    x.hostAlias ≠ [] ∧ '*' ∉ x.hostAlias ∧ '?' ∉ x.hostAlias := by
  refine commitConfigState_plain _ _ (foldl_configLine_plain _ _ ?_) x hx
  intro y hy
  simp at hy

/-- Witness of C8: the stanza `Host *.internal web` emits the plain alias `web`
and nothing for the pattern `*.internal`. -/
theorem parseConfigFile_no_glob_alias_witness :
    (parseConfigFile (some "Host *.internal web\n".toList) ⟨[], []⟩).out
      = [⟨"auto:675193c9df9db263741c0ddab9da4608163ebeb4".toList, "web".toList,
          "SSH config entry".toList, ["web".toList], "web".toList, [], EntryOrigin.Config⟩] ∧
    "web".toList ≠ [] ∧ '*' ∉ "web".toList ∧ '?' ∉ "web".toList :=
  ⟨by decide!,
    parseConfigFile_no_glob_alias "Host *.internal web\n".toList
      ⟨"auto:675193c9df9db263741c0ddab9da4608163ebeb4".toList, "web".toList,
        "SSH config entry".toList, ["web".toList], "web".toList, [], EntryOrigin.Config⟩
      (by decide!)⟩

/-! ## The known_hosts parser -/

theorem stripCommentFrom_append_exists (l r : QString) (b : Bool) (h : chHash ∉ l) :
    ∃ b2, stripCommentFrom (l ++ r) b = l ++ stripCommentFrom r b2 := by
  induction l generalizing b with
  | nil => exact ⟨b, rfl⟩
  | cons x xs ih =>
    have hx : x ≠ chHash := fun e => h (by simp [e])
    have hxs : chHash ∉ xs := fun e => h (by simp [e])
    by_cases hq : x = chQuote
    · obtain ⟨b2, e⟩ := ih (!b) hxs
      exact ⟨b2, by simp [stripCommentFrom, hq, e]⟩
    · obtain ⟨b2, e⟩ := ih b hxs
      exact ⟨b2, by simp [stripCommentFrom, hq, hx, e]⟩

theorem hostsField_of_field (field tail : QString) (hne : field ≠ [])
    (hsp : ' ' ∉ field) (htail : tail = [] ∨ ∃ t, tail = ' ' :: t) :
    hostsField (field ++ tail) = field := by
  unfold hostsField
  rcases htail with e | ⟨t, e⟩
  · subst e
    simp [indexOf_of_not_mem field ' ' hsp]
  · subst e
    have hpos : (0 : Int) < (field.length : Int) := by
      have := List.length_pos.2 hne
      omega
    rw [indexOf_append_sep field t ' ' hsp, if_pos hpos]
    simp [left]

theorem knownHostsLine_field (d : Discovery) (field rest : QString) (hne : field ≠ [])
    (hc : ∀ c ∈ field, qIsSpace c = false ∧ c ≠ chHash)
    (hbar : startsWithChar field '|' = false) :
    knownHostsLine d (field ++ ' ' :: rest)
      = (splitSkipEmpty (fun c => c == ',') field).foldl knownHostsToken d := by
  have hhash : chHash ∉ field := fun hm => (hc _ hm).2 rfl
  obtain ⟨b2, e⟩ := stripCommentFrom_append_exists field (' ' :: rest) false hhash
  have e2 : ∃ r2, stripComment (field ++ ' ' :: rest) = field ++ ' ' :: r2 := by
    refine ⟨stripCommentFrom rest b2, ?_⟩
    rw [stripComment, e]
    simp [stripCommentFrom, show (' ' : Char) ≠ chQuote by decide,
      show (' ' : Char) ≠ chHash by decide]
  obtain ⟨r2, e3⟩ := e2
  have hhead : ∀ x ∈ (field ++ ' ' :: r2).head?, qIsSpace x = false :=
    fun x hx => (hc x (mem_of_head_append field _ hne x hx)).1
  have hlast : ∀ x ∈ field.getLast?, qIsSpace x = false :=
    fun x hx => (hc x (List.mem_of_mem_getLast? hx)).1
  have e4 : trimmed (field ++ ' ' :: r2) = field ++ (' ' :: r2).rdropWhile qIsSpace := by
    unfold trimmed
    rw [dropWhile_eq_self_of_head _ hhead, rdropWhile_append_keep field _ hlast]
  have htail : (' ' :: r2).rdropWhile qIsSpace = [] ∨
      ∃ t, (' ' :: r2).rdropWhile qIsSpace = ' ' :: t := by
    have hpre : (' ' :: r2).rdropWhile qIsSpace <+: ' ' :: r2 := List.rdropWhile_prefix _ _
    cases hr : (' ' :: r2).rdropWhile qIsSpace with
    | nil => exact Or.inl rfl
    | cons y ys =>
      rw [hr] at hpre
      obtain ⟨k, hk⟩ := hpre
      simp only [List.cons_append, List.cons.injEq] at hk
      exact Or.inr ⟨ys, by rw [hk.1]⟩
  have hsp : ' ' ∉ field := fun hm => absurd (hc _ hm).1 (by decide)
  have hne2 : (field ++ (' ' :: r2).rdropWhile qIsSpace).isEmpty = false := by
    cases field with
    | nil => exact absurd rfl hne
    | cons _ _ => rfl
  have hbar2 : startsWithChar (field ++ (' ' :: r2).rdropWhile qIsSpace) '|' = false := by
    cases field with
    | nil => exact absurd rfl hne
    | cons _ _ => exact hbar
  unfold knownHostsLine
  rw [e3, e4, hne2, hbar2, hostsField_of_field field _ hne hsp htail]
  simp


theorem knownHostsToken_no_user (d : Discovery) (tok : QString) (hne : tok ≠ [])
    (hc : ∀ c ∈ tok, qIsSpace c = false ∧ c ≠ '@') :
    knownHostsToken d tok = knownHostsEmit d tok [] := by
  have ht : trimmed tok = tok :=
    trimmed_eq_self tok (fun x hx => (hc x (List.mem_of_mem_head? hx)).1)
      (fun x hx => (hc x (List.mem_of_mem_getLast? hx)).1)
  have hat : '@' ∉ tok := fun hm => (hc _ hm).2 rfl
  unfold knownHostsToken
  rw [ht, isEmpty_eq_false_of_ne_nil _ hne, lastIndexOf_of_not_mem tok _ hat]
  simp

theorem hostName_of_plain (p : QString) (ht : trimmed p = p)
    (hbr : startsWithChar p '[' = false) : hostNameFromKnownHostsEntry p = p := by
  simp [hostNameFromKnownHostsEntry, ht, hbr]

theorem hostName_of_bracketed (h tail : QString) (hne : h ≠ []) (hc : ']' ∉ h)
    (ht : trimmed ('[' :: (h ++ ']' :: tail)) = '[' :: (h ++ ']' :: tail)) :
    hostNameFromKnownHostsEntry ('[' :: (h ++ ']' :: tail)) = h := by
  have hidx : indexOf ('[' :: (h ++ ']' :: tail)) ']' = (h.length : Int) + 1 := by
    have e : indexOf ('[' :: (h ++ ']' :: tail)) ']' =
        if '[' = ']' then 0 else if indexOf (h ++ ']' :: tail) ']' < 0 then -1
          else indexOf (h ++ ']' :: tail) ']' + 1 := rfl
    rw [e, indexOf_append_sep h tail ']' hc]
    have : ¬ ((h.length : Int) < 0) := by omega
    simp [this]
  have hpos : (1 : Int) < (h.length : Int) + 1 := by
    have := List.length_pos.2 hne
    omega
  unfold hostNameFromKnownHostsEntry
  rw [ht, hidx]
  simp [startsWithChar, hpos, mid]

/-- C9 as stated fails: the line `10.0.0.1,[bastion]:2222 ssh-ed25519 AAAA...`
yields two hosts, and the alias and the argument of the second are the whole
token `[bastion]:2222`; only its `hostName` is `bastion`. -/
theorem parseKnownHosts_keeps_bracket_port_counterexample :
    (parseKnownHosts (some "10.0.0.1,[bastion]:2222 ssh-ed25519 AAAA...".toList) ⟨[], []⟩).out
      = [⟨"auto:31dd873cee81d1c6c6f40c542f3b2f2962342777".toList, "10.0.0.1".toList,
          "known_hosts entry".toList, ["10.0.0.1".toList], "10.0.0.1".toList, [],
          EntryOrigin.KnownHosts⟩,
         ⟨"auto:c9ba46d6ede75ba3ec2ef5ab024e9ba12ccb0785".toList, "[bastion]:2222".toList,
          "known_hosts entry".toList, ["[bastion]:2222".toList], "bastion".toList, [],
          EntryOrigin.KnownHosts⟩] ∧
    ((parseKnownHosts (some "10.0.0.1,[bastion]:2222 ssh-ed25519 AAAA...".toList)
        ⟨[], []⟩).out.map fun x => x.hostAlias) ≠ ["10.0.0.1".toList, "bastion".toList] := by
  decide!

/-- C9, amended: for a known_hosts line whose host field is `p,[h]:port`, with
a plain token `p` and a bracketed token, the parser emits two hosts with origin
KnownHosts. The first has alias, argument and hostName `p`. The second keeps
the whole token `[h]:port` as alias and as argument; the brackets and the port
are stripped in its `hostName` only, which is `h`. The two ids are assumed to
differ (no SHA-1 collision between the two tokens). -/
theorem parseKnownHosts_plain_and_bracketed (p h port rest : QString)
    (hp : p ≠ []) (hpc : ∀ c ∈ p, qIsSpace c = false ∧ c ≠ ',' ∧ c ≠ '@' ∧ c ≠ chHash)
    (hpbar : startsWithChar p '|' = false) (hpbr : startsWithChar p '[' = false)
    (hh : h ≠ [])
    (hhc : ∀ c ∈ h, qIsSpace c = false ∧ c ≠ ',' ∧ c ≠ '@' ∧ c ≠ chHash ∧ c ≠ ']')
    (hportc : ∀ c ∈ port, qIsSpace c = false ∧ c ≠ ',' ∧ c ≠ '@' ∧ c ≠ chHash ∧ c ≠ ']')
    (hrest : chLF ∉ rest)
    (hid : entryIdForArguments [p] ≠ entryIdForArguments ['[' :: (h ++ ']' :: ':' :: port)]) :
    (parseKnownHosts (some ((p ++ ',' :: '[' :: (h ++ ']' :: ':' :: port)) ++ ' ' :: rest))
        ⟨[], []⟩).out
      = [⟨entryIdForArguments [p], p, "known_hosts entry".toList, [p], p, [],
          EntryOrigin.KnownHosts⟩,
         ⟨entryIdForArguments ['[' :: (h ++ ']' :: ':' :: port)],
          '[' :: (h ++ ']' :: ':' :: port), "known_hosts entry".toList,
          ['[' :: (h ++ ']' :: ':' :: port)], h, [], EntryOrigin.KnownHosts⟩] := by
  -- the characters of the bracketed token
  have htc : ∀ c ∈ '[' :: (h ++ ']' :: ':' :: port),
      qIsSpace c = false ∧ c ≠ ',' ∧ c ≠ '@' ∧ c ≠ chHash := by
    intro c hc
    rcases List.mem_cons.1 hc with e | hc
    · subst e; decide
    · rcases List.mem_append.1 hc with hc | hc
      · exact ⟨(hhc c hc).1, (hhc c hc).2.1, (hhc c hc).2.2.1, (hhc c hc).2.2.2.1⟩
      · rcases List.mem_cons.1 hc with e | hc
        · subst e; decide
        · rcases List.mem_cons.1 hc with e | hc
          · subst e; decide
          · exact ⟨(hportc c hc).1, (hportc c hc).2.1, (hportc c hc).2.2.1,
              (hportc c hc).2.2.2.1⟩
  have hfc : ∀ c ∈ p ++ ',' :: '[' :: (h ++ ']' :: ':' :: port),
      qIsSpace c = false ∧ c ≠ chHash := by
    intro c hc
    rcases List.mem_append.1 hc with hc | hc
    · exact ⟨(hpc c hc).1, (hpc c hc).2.2.2⟩
    · rcases List.mem_cons.1 hc with e | hc
      · subst e; decide
      · exact ⟨(htc c hc).1, (htc c hc).2.2.2⟩
  have hfne : p ++ ',' :: '[' :: (h ++ ']' :: ':' :: port) ≠ [] := by
    cases p with
    | nil => exact absurd rfl hp
    | cons _ _ => simp
  have hfbar : startsWithChar (p ++ ',' :: '[' :: (h ++ ']' :: ':' :: port)) '|' = false := by
    cases p with
    | nil => exact absurd rfl hp
    | cons _ _ => exact hpbar
  have hnolf : chLF ∉ (p ++ ',' :: '[' :: (h ++ ']' :: ':' :: port)) ++ ' ' :: rest := by
    intro hm
    rcases List.mem_append.1 hm with hm | hm
    · exact absurd (hfc _ hm).1 (by decide)
    · rcases List.mem_cons.1 hm with e | hm
      · exact absurd e (by decide)
      · exact hrest hm
  have hsplit : splitSkipEmpty (fun c => c == ',')
      (p ++ ',' :: '[' :: (h ++ ']' :: ':' :: port)) = [p, '[' :: (h ++ ']' :: ':' :: port)] := by
    unfold splitSkipEmpty
    rw [splitKeepEmpty_append_sep _ p _ ','
        (fun c hc => by simpa using (hpc c hc).2.1) (by decide),
      splitKeepEmpty_no_sep _ _ (fun c hc => by simpa using (htc c hc).2.1)]
    simp [hp]
  -- the bracketed token does not end with the closing bracket
  have hends : endsWithChar ('[' :: (h ++ ']' :: ':' :: port)) ']' = false := by
    have e : '[' :: (h ++ ']' :: ':' :: port) = ('[' :: (h ++ [']'])) ++ (':' :: port) := by simp
    unfold endsWithChar
    rw [e, List.getLast?_append_of_ne_nil _ (by simp)]
    cases hl : (':' :: port).getLast? with
    | none => rfl
    | some x =>
      rcases List.mem_cons.1 (List.mem_of_mem_getLast? hl) with e | hx
      · subst e; decide
      · simpa using (hportc x hx).2.2.2.2
  have htt : trimmed ('[' :: (h ++ ']' :: ':' :: port)) = '[' :: (h ++ ']' :: ':' :: port) :=
    trimmed_eq_self _ (fun x hx => (htc x (List.mem_of_mem_head? hx)).1)
      (fun x hx => (htc x (List.mem_of_mem_getLast? hx)).1)
  have htp : trimmed p = p :=
    trimmed_eq_self _ (fun x hx => (hpc x (List.mem_of_mem_head? hx)).1)
      (fun x hx => (hpc x (List.mem_of_mem_getLast? hx)).1)
  unfold parseKnownHosts
  simp only [readLines_single _ (by simp) hnolf, List.foldl_cons, List.foldl_nil]
  rw [knownHostsLine_field _ _ _ hfne hfc hfbar, hsplit]
  simp only [List.foldl_cons, List.foldl_nil]
  rw [knownHostsToken_no_user _ p hp (fun c hc => ⟨(hpc c hc).1, (hpc c hc).2.2.1⟩),
    knownHostsToken_no_user _ _ (by simp) (fun c hc => ⟨(htc c hc).1, (htc c hc).2.2.1⟩)]
  simp [knownHostsEmit, hpbr, hends, hostName_of_plain p htp hpbr,
    hostName_of_bracketed h (':' :: port) hh (fun hm => (hhc _ hm).2.2.2.2 rfl) htt,
    Ne.symm hid]

/-- Witness of the amended C9: the line
`10.0.0.1,[bastion]:2222 ssh-ed25519 AAAA...`. -/
theorem parseKnownHosts_plain_and_bracketed_witness :
    (parseKnownHosts (some "10.0.0.1,[bastion]:2222 ssh-ed25519 AAAA...".toList) ⟨[], []⟩).out
      = [⟨entryIdForArguments ["10.0.0.1".toList], "10.0.0.1".toList,
          "known_hosts entry".toList, ["10.0.0.1".toList], "10.0.0.1".toList, [],
          EntryOrigin.KnownHosts⟩,
         ⟨entryIdForArguments ["[bastion]:2222".toList], "[bastion]:2222".toList,
          "known_hosts entry".toList, ["[bastion]:2222".toList], "bastion".toList, [],
          EntryOrigin.KnownHosts⟩] :=
  parseKnownHosts_plain_and_bracketed "10.0.0.1".toList "bastion".toList "2222".toList
    "ssh-ed25519 AAAA...".toList (by decide) (by decide) (by decide) (by decide) (by decide)
    (by decide) (by decide) (by decide) (by decide!)

/-- C10, evaluated on the code: the known_hosts lines `[] ssh-ed25519 AAAA` and
`user@[] ssh-ed25519 AAAA` are not skipped. The bracket strip leaves the empty
string and no emptiness test follows it, so a host with the empty alias and
the argument vector holding the empty string is emitted. -/
theorem parseKnownHosts_emits_empty_alias :
    (parseKnownHosts (some "[] ssh-ed25519 AAAA\n".toList) ⟨[], []⟩).out
      = [⟨"auto:953efe8f531a5a87f6d2d5a65b78b05e55599abc".toList, [],
          "known_hosts entry".toList, [[]], [], [], EntryOrigin.KnownHosts⟩] ∧
    (parseKnownHosts (some "user@[] ssh-ed25519 AAAA\n".toList) ⟨[], []⟩).out
      = [⟨"auto:953efe8f531a5a87f6d2d5a65b78b05e55599abc".toList, [],
          "known_hosts entry".toList, [[]], [], "user".toList, EntryOrigin.KnownHosts⟩] := by
  decide!

/-! ## Duplicate suppression -/

theorem wellFormed_push (d : Discovery) (x : DiscoveredHost) (hd : d.WellFormed)
    (hnew : x.id ∉ d.seenIds) (hid : x.id = entryIdForArguments x.arguments) :
    Discovery.WellFormed ⟨d.out ++ [x], x.id :: d.seenIds⟩ := by
  obtain ⟨h1, h2, h3⟩ := hd
  refine ⟨?_, ?_, ?_⟩
  · show ((d.out ++ [x]).map fun y => y.id).Nodup
    rw [List.map_append, List.nodup_append]
    refine ⟨h1, by simp, ?_⟩
    intro a ha hb
    simp only [List.map_cons, List.map_nil, List.mem_singleton] at hb
    obtain ⟨y, hy, rfl⟩ := List.mem_map.1 ha
    exact hnew (hb ▸ h2 y hy)
  · intro y hy
    rcases List.mem_append.1 hy with hy | hy
    · exact List.mem_cons_of_mem _ (h2 y hy)
    · rw [List.mem_singleton] at hy
      subst hy
      exact List.mem_cons_self _ _
  · intro y hy
    rcases List.mem_append.1 hy with hy | hy
    · exact h3 y hy
    · rw [List.mem_singleton] at hy
      subst hy
      exact hid

theorem commitAlias_extends (state : ConfigState) (d : Discovery) (rawAlias : QString) :
    (d.WellFormed → (commitAlias state d rawAlias).WellFormed) ∧
    d.out <+: (commitAlias state d rawAlias).out := by
  unfold commitAlias
  by_cases h1 : (List.isEmpty (trimmed rawAlias) || containsChar (trimmed rawAlias) '*' ||
      containsChar (trimmed rawAlias) '?') = true
  · rw [if_pos h1]
    exact ⟨id, List.prefix_refl _⟩
  · rw [if_neg h1]
    by_cases h2 : decide (entryIdForArguments [trimmed rawAlias] ∈ d.seenIds) = true
    · rw [if_pos h2]
      exact ⟨id, List.prefix_refl _⟩
    · rw [if_neg h2]
      refine ⟨fun hd => wellFormed_push d _ hd (by simpa using h2) rfl, List.prefix_append _ _⟩

theorem knownHostsEmit_extends (d : Discovery) (candidate userName : QString) :
    (d.WellFormed → (knownHostsEmit d candidate userName).WellFormed) ∧
    d.out <+: (knownHostsEmit d candidate userName).out := by
  have key : ∀ cleaned : QString,
      (d.WellFormed →
        (if decide (entryIdForArguments [cleaned] ∈ d.seenIds) then d
          else (⟨d.out ++ [⟨entryIdForArguments [cleaned], cleaned, "known_hosts entry".toList,
            [cleaned], hostNameFromKnownHostsEntry cleaned, userName,
            EntryOrigin.KnownHosts⟩], entryIdForArguments [cleaned] :: d.seenIds⟩ :
            Discovery)).WellFormed) ∧
      d.out <+:
        (if decide (entryIdForArguments [cleaned] ∈ d.seenIds) then d
          else (⟨d.out ++ [⟨entryIdForArguments [cleaned], cleaned, "known_hosts entry".toList,
            [cleaned], hostNameFromKnownHostsEntry cleaned, userName,
            EntryOrigin.KnownHosts⟩], entryIdForArguments [cleaned] :: d.seenIds⟩ :
            Discovery)).out := by
    intro cleaned
    by_cases h2 : decide (entryIdForArguments [cleaned] ∈ d.seenIds) = true
    · rw [if_pos h2]
      exact ⟨id, List.prefix_refl _⟩
    · rw [if_neg h2]
      exact ⟨fun hd => wellFormed_push d _ hd (by simpa using h2) rfl, List.prefix_append _ _⟩
  exact key _

theorem knownHostsToken_extends (d : Discovery) (host : QString) :
    (d.WellFormed → (knownHostsToken d host).WellFormed) ∧
    d.out <+: (knownHostsToken d host).out := by
  unfold knownHostsToken
  split_ifs
  · exact ⟨id, List.prefix_refl _⟩
  · exact ⟨id, List.prefix_refl _⟩
  · exact knownHostsEmit_extends _ _ _
  · exact knownHostsEmit_extends _ _ _

theorem foldl_extends {α : Type} (step : Discovery → α → Discovery)
    (hstep : ∀ d a, (d.WellFormed → (step d a).WellFormed) ∧ d.out <+: (step d a).out)
    (l : List α) (d : Discovery) :
    (d.WellFormed → (l.foldl step d).WellFormed) ∧ d.out <+: (l.foldl step d).out := by
  induction l generalizing d with
  | nil => exact ⟨id, List.prefix_refl _⟩
  | cons a l ih =>
    obtain ⟨h1, h2⟩ := hstep d a
    obtain ⟨h3, h4⟩ := ih (step d a)
    exact ⟨fun hd => h3 (h1 hd), h2.trans h4⟩

theorem commitConfigState_extends (state : ConfigState) (d : Discovery) :
    (d.WellFormed → (commitConfigState state d).WellFormed) ∧
    d.out <+: (commitConfigState state d).out := by
  unfold commitConfigState
  split_ifs
  · exact ⟨id, List.prefix_refl _⟩
  · exact foldl_extends _ (commitAlias_extends state) _ d

theorem configLine_wellFormed (acc : ConfigState × Discovery) (rawLine : QString)
    (hd : acc.2.WellFormed) : (configLine acc rawLine).2.WellFormed := by
  unfold configLine
  split_ifs <;> first | exact hd | exact (commitConfigState_extends _ _).1 hd

theorem foldl_configLine_wellFormed (l : List QString) (acc : ConfigState × Discovery)
    (hd : acc.2.WellFormed) : (l.foldl configLine acc).2.WellFormed := by
  induction l generalizing acc with
  | nil => exact hd
  | cons a l ih => exact ih _ (configLine_wellFormed acc a hd)

theorem parseConfigFile_wellFormed (file : Option QString) :
    (parseConfigFile file ⟨[], []⟩).WellFormed := by
  have h0 : Discovery.WellFormed ⟨[], []⟩ := ⟨by simp, by simp, by simp⟩
  cases file with
  | none => exact h0
  | some text =>
    exact (commitConfigState_extends _ _).1 (foldl_configLine_wellFormed _ _ h0)

theorem knownHostsLine_extends (d : Discovery) (rawLine : QString) :
    (d.WellFormed → (knownHostsLine d rawLine).WellFormed) ∧
    d.out <+: (knownHostsLine d rawLine).out := by
  unfold knownHostsLine
  split_ifs
  · exact ⟨id, List.prefix_refl _⟩
  · exact ⟨id, List.prefix_refl _⟩
  · exact foldl_extends _ knownHostsToken_extends _ d

theorem parseKnownHosts_extends (file : Option QString) (d : Discovery) :
    (d.WellFormed → (parseKnownHosts file d).WellFormed) ∧
    d.out <+: (parseKnownHosts file d).out := by
  cases file with
  | none => exact ⟨id, List.prefix_refl _⟩
  | some text => exact foldl_extends _ knownHostsLine_extends _ d

theorem commitAlias_origin (state : ConfigState) (d : Discovery) (rawAlias : QString)
    (hd : ∀ x ∈ d.out, x.origin = EntryOrigin.Config) :
    ∀ x ∈ (commitAlias state d rawAlias).out, x.origin = EntryOrigin.Config := by
  unfold commitAlias
  by_cases h1 : (List.isEmpty (trimmed rawAlias) || containsChar (trimmed rawAlias) '*' ||
      containsChar (trimmed rawAlias) '?') = true
  · rw [if_pos h1]
    exact hd
  · rw [if_neg h1]
    by_cases h2 : decide (entryIdForArguments [trimmed rawAlias] ∈ d.seenIds) = true
    · rw [if_pos h2]
      exact hd
    · rw [if_neg h2]
      intro x hx
      rcases List.mem_append.1 hx with hx | hx
      · exact hd x hx
      · rw [List.mem_singleton] at hx
        subst hx
        rfl

theorem parseConfigFile_origin (file : Option QString) :
    ∀ x ∈ (parseConfigFile file ⟨[], []⟩).out, x.origin = EntryOrigin.Config := by
  have hfold : ∀ (state : ConfigState) (l : QStringList) (d : Discovery),
      (∀ x ∈ d.out, x.origin = EntryOrigin.Config) →
      ∀ x ∈ (l.foldl (commitAlias state) d).out, x.origin = EntryOrigin.Config := by
    intro state l
    induction l with
    | nil => exact fun d hd => hd
    | cons a l ih => exact fun d hd => ih _ (commitAlias_origin state d a hd)
  have hcommit : ∀ (state : ConfigState) (d : Discovery),
      (∀ x ∈ d.out, x.origin = EntryOrigin.Config) →
      ∀ x ∈ (commitConfigState state d).out, x.origin = EntryOrigin.Config := by
    intro state d hd
    unfold commitConfigState
    split_ifs
    · exact hd
    · exact hfold state _ d hd
  have hline : ∀ (acc : ConfigState × Discovery) (rawLine : QString),
      (∀ x ∈ acc.2.out, x.origin = EntryOrigin.Config) →
      ∀ x ∈ (configLine acc rawLine).2.out, x.origin = EntryOrigin.Config := by
    intro acc rawLine hd
    unfold configLine
    split_ifs <;> first | exact hd | exact hcommit _ _ hd
  have hlines : ∀ (l : List QString) (acc : ConfigState × Discovery),
      (∀ x ∈ acc.2.out, x.origin = EntryOrigin.Config) →
      ∀ x ∈ (l.foldl configLine acc).2.out, x.origin = EntryOrigin.Config := by
    intro l
    induction l with
    | nil => exact fun acc hd => hd
    | cons a l ih => exact fun acc hd => ih _ (hline acc a hd)
  cases file with
  | none => intro x hx; simp [parseConfigFile] at hx
  | some text =>
    exact hcommit _ _ (hlines _ _ (by intro x hx; simp at hx))

theorem filter_eq_singleton_of_unique {α : Type} (p : α → Bool) (l : List α) (x : α)
    (hnd : l.Nodup) (hx : x ∈ l) (hp : ∀ y ∈ l, p y = true ↔ y = x) :
    l.filter p = [x] := by
  induction l with
  | nil => simp at hx
  | cons a l ih =>
    rw [List.nodup_cons] at hnd
    by_cases ha : a = x
    · subst ha
      have hpa : p a = true := (hp a (List.mem_cons_self _ _)).2 rfl
      rw [List.filter_cons_of_pos hpa]
      congr 1
      rw [List.filter_eq_nil_iff]
      intro y hy hpy
      have := (hp y (List.mem_cons_of_mem _ hy)).1 hpy
      exact hnd.1 (this ▸ hy)
    · have hpa : ¬ p a = true := fun h => ha ((hp a (List.mem_cons_self _ _)).1 h)
      rw [List.filter_cons_of_neg hpa]
      have hx2 : x ∈ l := by
        rcases List.mem_cons.1 hx with e | e
        · exact absurd e.symm ha
        · exact e
      exact ih hnd.2 hx2 (fun y hy => hp y (List.mem_cons_of_mem _ hy))

/-- C11: for every config file and known_hosts file (present or not), the hosts
returned by `discoverHosts` have pairwise distinct ids, and every host `x` the
config parser emits is the one and only host of the result with the argument
vector of `x`: it appears exactly once, with origin Config and with the
hostName and userName the config parser gave it, whether or not known_hosts
produces the same argument vector. -/
theorem discoverHosts_distinct_config_wins (config knownHosts : Option QString) :
    ((discoverHosts config knownHosts).map fun y => y.id).Nodup ∧
    ∀ x ∈ (parseConfigFile config ⟨[], []⟩).out,
      x.origin = EntryOrigin.Config ∧
      (discoverHosts config knownHosts).filter (fun y => decide (y.arguments = x.arguments))
        = [x] := by
  obtain ⟨hwf, hpre⟩ := parseKnownHosts_extends knownHosts (parseConfigFile config ⟨[], []⟩)
  obtain ⟨h1, h2, h3⟩ := hwf (parseConfigFile_wellFormed config)
  refine ⟨h1, ?_⟩
  intro x hx
  have hxin : x ∈ discoverHosts config knownHosts := hpre.subset hx
  refine ⟨parseConfigFile_origin config x hx, ?_⟩
  apply filter_eq_singleton_of_unique _ _ _ (List.Nodup.of_map _ h1) hxin
  intro y hy
  rw [decide_eq_true_eq]
  constructor
  · intro hargs
    have hid : y.id = x.id := by rw [h3 y hy, h3 x hxin, hargs]
    exact List.inj_on_of_nodup_map h1 hy hxin hid
  · rintro rfl
    rfl

/-- Witness of C11: the alias `web` is declared in the config and listed in
known_hosts; the result holds it once, as the config entry. -/
theorem discoverHosts_distinct_config_wins_witness :
    discoverHosts (some "Host web\n  HostName web.example.com\n  User alice\n".toList)
        (some "web,10.0.0.7 ssh-ed25519 AAAA\n".toList)
      = [⟨entryIdForArguments ["web".toList], "web".toList,
          "alice@web.example.com in SSH config".toList, ["web".toList],
          "web.example.com".toList, "alice".toList, EntryOrigin.Config⟩,
         ⟨entryIdForArguments ["10.0.0.7".toList], "10.0.0.7".toList,
          "known_hosts entry".toList, ["10.0.0.7".toList], "10.0.0.7".toList, [],
          EntryOrigin.KnownHosts⟩] ∧
    (discoverHosts (some "Host web\n  HostName web.example.com\n  User alice\n".toList)
        (some "web,10.0.0.7 ssh-ed25519 AAAA\n".toList)).filter
        (fun y => decide (y.arguments = ["web".toList]))
      = [⟨entryIdForArguments ["web".toList], "web".toList,
          "alice@web.example.com in SSH config".toList, ["web".toList],
          "web.example.com".toList, "alice".toList, EntryOrigin.Config⟩] :=
  ⟨by decide!,
    ((discoverHosts_distinct_config_wins
      (some "Host web\n  HostName web.example.com\n  User alice\n".toList)
      (some "web,10.0.0.7 ssh-ed25519 AAAA\n".toList)).2
      ⟨entryIdForArguments ["web".toList], "web".toList,
        "alice@web.example.com in SSH config".toList, ["web".toList],
        "web.example.com".toList, "alice".toList, EntryOrigin.Config⟩ (by decide!)).2⟩

/-! ## Fuzzy scoring -/

theorem qBound_mem_unit (x : ℚ) : 0 ≤ qBound 0 x 1 ∧ qBound 0 x 1 ≤ 1 := by
  unfold qBound
  exact ⟨le_max_left _ _, max_le (by norm_num) (min_le_left _ _)⟩

theorem qBound_eq_self (x : ℚ) (h0 : 0 ≤ x) (h1 : x ≤ 1) : qBound 0 x 1 = x := by
  unfold qBound
  rw [min_eq_right h1, max_eq_right h0]

theorem length_le_of_startsWithStr (s p : Utf16) (h : startsWithStr s p = true) :
    p.length ≤ s.length := by
  unfold startsWithStr at h
  exact (List.isPrefixOf_iff_prefix.1 h).length_le

theorem length_le_of_containsStr (s p : Utf16) (h : containsStr s p = true) :
    p.length ≤ s.length := by
  induction s with
  | nil =>
    cases p with
    | nil => simp
    | cons _ _ => simp [containsStr] at h
  | cons c cs ih =>
    simp only [containsStr, Bool.or_eq_true] at h
    rcases h with h | h
    · exact (List.isPrefixOf_iff_prefix.1 h).length_le
    · exact Nat.le_succ_of_le (ih h)

theorem proximity_mem_unit (p s : Utf16) (hs : s ≠ []) (hle : p.length ≤ s.length) :
    (0 : ℚ) ≤ (p.length : ℚ) / (s.length : ℚ) ∧ (p.length : ℚ) / (s.length : ℚ) ≤ 1 := by
  have hpos : (0 : ℚ) < (s.length : ℚ) := by
    exact_mod_cast List.length_pos.2 hs
  constructor
  · exact div_nonneg (by exact_mod_cast Nat.zero_le _) hpos.le
  · rw [div_le_one hpos]
    exact_mod_cast hle

theorem computeFuzzyScore_mem_unit (fold : Char → Char) (candidate pattern : QString) :
    0 ≤ computeFuzzyScore fold candidate pattern ∧
    computeFuzzyScore fold candidate pattern ≤ 1 := by
  constructor
  · unfold computeFuzzyScore
    split_ifs <;> first | exact le_refl _ | exact zero_le_one | exact (qBound_mem_unit _).1
  · unfold computeFuzzyScore
    split_ifs <;> first | exact le_refl _ | exact zero_le_one | exact (qBound_mem_unit _).2

/-- C12: for every candidate and pattern (and every case folding), the score,
computed over exact rationals, lies in the closed interval from 0 to 1, and it
is 0 whenever the candidate or the pattern is empty after normalization. -/
theorem computeFuzzyScore_range (fold : Char → Char) (candidate pattern : QString) :
    0 ≤ computeFuzzyScore fold candidate pattern ∧
    computeFuzzyScore fold candidate pattern ≤ 1 ∧
    (normalized fold candidate = [] ∨ normalized fold pattern = [] →
      computeFuzzyScore fold candidate pattern = 0) := by
  refine ⟨(computeFuzzyScore_mem_unit fold candidate pattern).1,
    (computeFuzzyScore_mem_unit fold candidate pattern).2, ?_⟩
  intro h
  unfold computeFuzzyScore
  rw [if_pos]
  rcases h with h | h <;> simp [h]

/-- Witness of C12: a blank pattern scores 0. -/
theorem computeFuzzyScore_range_witness :
    normalized Char.toLower "   ".toList = [] ∧
    computeFuzzyScore Char.toLower "web".toList "   ".toList = 0 :=
  ⟨by decide, (computeFuzzyScore_range Char.toLower "web".toList "   ".toList).2.2
    (Or.inr (by decide))⟩

/-- C13: when candidate and pattern are equal and non-empty after
normalization, the score is exactly 1. -/
theorem computeFuzzyScore_equal (fold : Char → Char) (candidate pattern : QString)
    (heq : normalized fold candidate = normalized fold pattern)
    (hne : normalized fold candidate ≠ []) :
    computeFuzzyScore fold candidate pattern = 1 := by
  have h1 : (normalized fold candidate).isEmpty = false := isEmpty_eq_false_of_ne_nil _ hne
  have h2 : (normalized fold pattern).isEmpty = false :=
    isEmpty_eq_false_of_ne_nil _ (heq ▸ hne)
  unfold computeFuzzyScore
  simp [h1, h2, heq]

/-- Witness of C13: `abc` against `abc`, and a candidate that differs from the
pattern in case and whitespace only. -/
theorem computeFuzzyScore_equal_witness :
    computeFuzzyScore Char.toLower "abc".toList "abc".toList = 1 ∧
    normalized Char.toLower "  Web   Server ".toList = normalized Char.toLower "web server".toList ∧
    computeFuzzyScore Char.toLower "  Web   Server ".toList "web server".toList = 1 :=
  ⟨computeFuzzyScore_equal Char.toLower "abc".toList "abc".toList (by decide) (by decide),
    by decide,
    computeFuzzyScore_equal Char.toLower "  Web   Server ".toList "web server".toList
      (by decide) (by decide)⟩

/-- C14: when the normalized forms are non-empty and different and the
normalized candidate starts with the normalized pattern, the score is
0.8 + 0.2 * len(pattern) / len(candidate), lengths of the normalized strings
as `QString::size()` counts them (in `QChar`s), and lies between 0.8 and 1. -/
theorem computeFuzzyScore_startsWith (fold : Char → Char) (candidate pattern : QString)
    (hc : normalized fold candidate ≠ []) (hp : normalized fold pattern ≠ [])
    (hne : normalized fold candidate ≠ normalized fold pattern)
    (hstart : startsWithStr (normalized fold candidate) (normalized fold pattern) = true) :
    computeFuzzyScore fold candidate pattern
      = 0.8 + 0.2 * (((normalized fold pattern).length : ℚ) /
          ((normalized fold candidate).length : ℚ)) ∧
    0.8 ≤ computeFuzzyScore fold candidate pattern ∧
    computeFuzzyScore fold candidate pattern ≤ 1 := by
  obtain ⟨r0, r1⟩ := proximity_mem_unit _ _ hc (length_le_of_startsWithStr _ _ hstart)
  have key : computeFuzzyScore fold candidate pattern
      = 0.8 + 0.2 * (((normalized fold pattern).length : ℚ) /
          ((normalized fold candidate).length : ℚ)) := by
    unfold computeFuzzyScore
    rw [if_neg (by simp [hc, hp]), if_neg hne, if_pos hstart]
    apply qBound_eq_self
    · linarith
    · linarith
  rw [key]
  exact ⟨rfl, by linarith, by linarith⟩

/-- Witness of C14: `abcdef` against `abc` scores 0.9, and so does the
candidate U+1F600 `a` `b` against the pattern U+1F600, whose sizes are 4 and
2 `QChar`s. -/
theorem computeFuzzyScore_startsWith_witness :
    computeFuzzyScore Char.toLower "abcdef".toList "abc".toList = 0.9 ∧
    computeFuzzyScore Char.toLower [Char.ofNat 0x1F600, 'a', 'b'] [Char.ofNat 0x1F600]
      = 0.9 := by
  constructor
  · have h := (computeFuzzyScore_startsWith Char.toLower "abcdef".toList "abc".toList
      (by decide) (by decide) (by decide) (by decide)).1
    rw [h]
    have e1 : (normalized Char.toLower "abc".toList).length = 3 := by decide
    have e2 : (normalized Char.toLower "abcdef".toList).length = 6 := by decide
    rw [e1, e2]
    norm_num
  · have h := (computeFuzzyScore_startsWith Char.toLower [Char.ofNat 0x1F600, 'a', 'b']
      [Char.ofNat 0x1F600] (by decide) (by decide) (by decide) (by decide)).1
    rw [h]
    have e1 : (normalized Char.toLower [Char.ofNat 0x1F600]).length = 2 := by decide
    have e2 : (normalized Char.toLower [Char.ofNat 0x1F600, 'a', 'b']).length = 4 := by
      decide
    rw [e1, e2]
    norm_num

/-- C15: when the normalized forms are non-empty and the normalized candidate
contains the normalized pattern without starting with it, the score is
0.6 + 0.2 * len(pattern) / len(candidate), lengths as `QString::size()`
counts them (in `QChar`s), and lies between 0.6 and 0.8. -/
theorem computeFuzzyScore_substring (fold : Char → Char) (candidate pattern : QString)
    (hc : normalized fold candidate ≠ []) (hp : normalized fold pattern ≠ [])
    (hcontains : containsStr (normalized fold candidate) (normalized fold pattern) = true)
    (hstart : startsWithStr (normalized fold candidate) (normalized fold pattern) = false) :
    computeFuzzyScore fold candidate pattern
      = 0.6 + 0.2 * (((normalized fold pattern).length : ℚ) /
          ((normalized fold candidate).length : ℚ)) ∧
    0.6 ≤ computeFuzzyScore fold candidate pattern ∧
    computeFuzzyScore fold candidate pattern ≤ 0.8 := by
  obtain ⟨r0, r1⟩ := proximity_mem_unit _ _ hc (length_le_of_containsStr _ _ hcontains)
  have hne : normalized fold candidate ≠ normalized fold pattern := by
    intro e
    rw [e] at hstart
    have : startsWithStr (normalized fold pattern) (normalized fold pattern) = true :=
      List.isPrefixOf_iff_prefix.2 (List.prefix_refl _)
    rw [this] at hstart
    exact absurd hstart (by decide)
  have key : computeFuzzyScore fold candidate pattern
      = 0.6 + 0.2 * (((normalized fold pattern).length : ℚ) /
          ((normalized fold candidate).length : ℚ)) := by
    unfold computeFuzzyScore
    rw [if_neg (by simp [hc, hp]), if_neg hne, if_neg (by simp [hstart]), if_pos hcontains]
    apply qBound_eq_self
    · linarith
    · linarith
  rw [key]
  exact ⟨rfl, by linarith, by linarith⟩

/-- Witness of C15: `xabcx` against `abc` scores 0.72, and the candidate
U+1F680 space `prod`, of size 7 `QChar`s, against `prod` scores
0.6 + 0.2 * 4 / 7. -/
theorem computeFuzzyScore_substring_witness :
    computeFuzzyScore Char.toLower "xabcx".toList "abc".toList = 0.72 ∧
    computeFuzzyScore Char.toLower (Char.ofNat 0x1F680 :: " prod".toList) "prod".toList
      = 0.6 + 0.2 * (4 / 7) := by
  constructor
  · have h := (computeFuzzyScore_substring Char.toLower "xabcx".toList "abc".toList
      (by decide) (by decide) (by decide) (by decide)).1
    rw [h]
    have e1 : (normalized Char.toLower "abc".toList).length = 3 := by decide
    have e2 : (normalized Char.toLower "xabcx".toList).length = 5 := by decide
    rw [e1, e2]
    norm_num
  · have h := (computeFuzzyScore_substring Char.toLower
      (Char.ofNat 0x1F680 :: " prod".toList) "prod".toList
      (by decide) (by decide) (by decide) (by decide)).1
    rw [h]
    have e1 : (normalized Char.toLower "prod".toList).length = 4 := by decide
    have e2 : (normalized Char.toLower (Char.ofNat 0x1F680 :: " prod".toList)).length = 7 := by
      decide
    rw [e1, e2]
    norm_num

/-! ## Query matching -/

theorem matchTarget_append (fold : Char → Char) (searchPattern pattern explicitUser : QString)
    (results : List QueryMatch) (target : SshTarget) :
    matchTarget fold searchPattern pattern explicitUser results target
      = results ++ matchTarget fold searchPattern pattern explicitUser [] target := by
  unfold matchTarget
  simp only []
  split_ifs <;> simp

theorem foldl_matchTarget (fold : Char → Char) (searchPattern pattern explicitUser : QString)
    (targets : List SshTarget) (results : List QueryMatch) :
    targets.foldl (matchTarget fold searchPattern pattern explicitUser) results
      = results ++
        targets.flatMap (matchTarget fold searchPattern pattern explicitUser []) := by
  induction targets generalizing results with
  | nil => simp
  | cons t ts ih =>
    rw [List.foldl_cons, ih, matchTarget_append, List.flatMap_cons, List.append_assoc]

theorem runnerMatch_eq_flatMap (fold : Char → Char) (targets : List SshTarget)
    (query : QString) (hq : startsWithFold fold (trimmed query) "ssh".toList = true) :
    runnerMatch fold targets query
      = targets.flatMap
          (matchTarget fold (querySearchPattern query) (queryPattern query)
            (queryExplicitUser query) []) := by
  unfold runnerMatch
  rw [hq]
  cases targets with
  | nil => rfl
  | cons t ts =>
    rw [foldl_matchTarget]
    rfl

/-- C17 as stated fails: on the snapshot `aweb`, `web` (in label order) the query
`ssh web` produces the result for `aweb` with relevance 3/4 first and the result
for `web` with relevance 1 after it. -/
theorem runnerMatch_not_descending_counterexample :
    querySearchPattern "ssh web".toList ≠ [] ∧
    (runnerMatch Char.toLower
        [⟨"1".toList, "aweb".toList, "aweb".toList, [], ["aweb".toList], "aweb".toList, [], [],
          EntryOrigin.Config, false⟩,
         ⟨"2".toList, "web".toList, "web".toList, [], ["web".toList], "web".toList, [], [],
          EntryOrigin.Config, false⟩]
        "ssh web".toList).map (fun m => (m.text, m.relevance))
      = [("aweb".toList, (3 : ℚ) / 4), ("web".toList, 1)] ∧
    (3 : ℚ) / 4 < 1 := by
  refine ⟨by decide, by decide!, by norm_num⟩

/-- C17, amended: `match` produces its results in the order of the target
snapshot, whatever their relevances are. The ids and texts of the results are,
in the same order, those of a selection of the targets, so with a snapshot that
reload has sorted by label the results come in label order; every result
carries its relevance and the ranking by relevance is left to the caller. -/
theorem runnerMatch_in_snapshot_order (fold : Char → Char) (targets : List SshTarget)
    (query : QString) :
    ((runnerMatch fold targets query).map fun m => (m.id, m.text)).Sublist
      (targets.map fun t => (t.id, t.label)) := by
  by_cases hq : startsWithFold fold (trimmed query) "ssh".toList = true
  · rw [runnerMatch_eq_flatMap fold targets query hq]
    induction targets with
    | nil => exact List.Sublist.slnil
    | cons t ts ih =>
      rw [List.flatMap_cons, List.map_append, List.map_cons]
      have hone : ((matchTarget fold (querySearchPattern query) (queryPattern query)
          (queryExplicitUser query) [] t).map fun m => (m.id, m.text)).Sublist
          [(t.id, t.label)] := by
        unfold matchTarget
        simp only []
        split_ifs <;> first | exact List.nil_sublist _ | exact List.Sublist.refl _
      exact List.Sublist.append hone ih
  · have hq2 : startsWithFold fold (trimmed query) "ssh".toList = false := by
      simpa using hq
    unfold runnerMatch
    rw [hq2]
    exact List.nil_sublist _

/-! ## The DNS caches across a reload -/

theorem mem_of_lookup_eq_some (l : List (QString × QString)) (k v : QString)
    (h : l.lookup k = some v) : (k, v) ∈ l := by
  induction l with
  | nil => simp [List.lookup] at h
  | cons p ps ih =>
    obtain ⟨a, b⟩ := p
    by_cases hk : k = a
    · subst hk
      simp [List.lookup] at h
      simp [h]
    · have hb : (k == a) = false := by simpa using hk
      simp only [List.lookup, hb] at h
      exact List.mem_cons_of_mem _ (ih h)

theorem hashValue_mem_of_isSome (l : List (QString × QString)) (k : QString)
    (h : (l.lookup k).isSome = true) : (k, hashValue l k) ∈ l := by
  cases hl : l.lookup k with
  | none => rw [hl] at h; exact absurd h (by decide)
  | some v =>
    have : hashValue l k = v := by simp [hashValue, hl]
    rw [this]
    exact mem_of_lookup_eq_some l k v hl

theorem resolveDnsNameForHost_provenance (env : ReloadEnv) (r0 r : Runner) (host : QString)
    (hinv : ∀ p ∈ r.dnsCache, p ∈ r0.dnsCache ∨
      ∃ ip name, env.fromName ip = some name ∧ p.2 = cleanedAnswer name) :
    ((resolveDnsNameForHost env r host).1 = [] ∨
      (∃ ip, (ip, (resolveDnsNameForHost env r host).1) ∈ r0.dnsCache) ∨
      ∃ ip name, env.fromName ip = some name ∧
        (resolveDnsNameForHost env r host).1 = cleanedAnswer name) ∧
    ∀ p ∈ (resolveDnsNameForHost env r host).2.dnsCache, p ∈ r0.dnsCache ∨
      ∃ ip name, env.fromName ip = some name ∧ p.2 = cleanedAnswer name := by
  unfold resolveDnsNameForHost
  split_ifs with h1
  · exact ⟨Or.inl rfl, hinv⟩
  · cases hc : dnsIpCandidate env (normalizedHost host) with
    | none => exact ⟨Or.inl rfl, hinv⟩
    | some ip =>
      simp only []
      split_ifs with h2 h3
      · refine ⟨Or.inr ?_, hinv⟩
        rcases hinv _ (hashValue_mem_of_isSome _ _ h2) with h | h
        · exact Or.inl ⟨ip, h⟩
        · exact Or.inr h
      · exact ⟨Or.inl rfl, hinv⟩
      · cases hf : env.fromName ip with
        | none => exact ⟨Or.inl rfl, hinv⟩
        | some name =>
          simp only []
          split_ifs
          · exact ⟨Or.inl rfl, hinv⟩
          · exact ⟨Or.inl rfl, hinv⟩
          · refine ⟨Or.inr (Or.inr ⟨ip, name, hf, rfl⟩), ?_⟩
            intro p hp
            rcases List.mem_cons.1 hp with e | hp
            · exact Or.inr ⟨ip, name, hf, by rw [e]⟩
            · exact hinv p hp

theorem foldl_resolveTarget_provenance (env : ReloadEnv) (r0 : Runner)
    (targets : List SshTarget) (acc : List SshTarget × Runner)
    (hdone : ∀ t ∈ acc.1, t.dnsName = [] ∨ (∃ ip, (ip, t.dnsName) ∈ r0.dnsCache) ∨
      ∃ ip name, env.fromName ip = some name ∧ t.dnsName = cleanedAnswer name)
    (hinv : ∀ p ∈ acc.2.dnsCache, p ∈ r0.dnsCache ∨
      ∃ ip name, env.fromName ip = some name ∧ p.2 = cleanedAnswer name) :
    ∀ t ∈ (targets.foldl (resolveTarget env) acc).1,
      t.dnsName = [] ∨ (∃ ip, (ip, t.dnsName) ∈ r0.dnsCache) ∨
      ∃ ip name, env.fromName ip = some name ∧ t.dnsName = cleanedAnswer name := by
  induction targets generalizing acc with
  | nil => exact hdone
  | cons t ts ih =>
    rw [List.foldl_cons]
    apply ih
    · intro x hx
      unfold resolveTarget at hx
      simp only [] at hx
      rcases List.mem_append.1 hx with hx | hx
      · exact hdone x hx
      · rw [List.mem_singleton] at hx
        subst hx
        exact (resolveDnsNameForHost_provenance env r0 acc.2 _ hinv).1
    · exact (resolveDnsNameForHost_provenance env r0 acc.2 _ hinv).2

theorem mem_of_mem_insertByLabel (cmp : QString → QString → Int) (t x : SshTarget)
    (l : List SshTarget) (h : x ∈ insertByLabel cmp t l) : x = t ∨ x ∈ l := by
  induction l with
  | nil =>
    simp only [insertByLabel, List.mem_singleton] at h
    exact Or.inl h
  | cons y ys ih =>
    unfold insertByLabel at h
    split_ifs at h
    · rcases List.mem_cons.1 h with e | h
      · exact Or.inr (by simp [e])
      · rcases ih h with e | e
        · exact Or.inl e
        · exact Or.inr (List.mem_cons_of_mem _ e)
    · rcases List.mem_cons.1 h with e | h
      · exact Or.inl e
      · exact Or.inr h

theorem mem_of_mem_sortByLabel (cmp : QString → QString → Int) (x : SshTarget)
    (l : List SshTarget) (h : x ∈ sortByLabel cmp l) : x ∈ l := by
  induction l with
  | nil =>
    simp [sortByLabel] at h
  | cons t ts ih =>
    rcases mem_of_mem_insertByLabel cmp t x _ h with e | e
    · simp [e]
    · exact List.mem_cons_of_mem _ (ih e)

theorem reloadHosts_targets (env : ReloadEnv) (r : Runner)
    (hhome : env.homePath.isEmpty = false) :
    (reloadHosts env r).targets
      = sortByLabel env.localeAwareCompare
          ((env.manualEntries.foldl mergeManualEntry
              (((discoverHosts env.configFile env.knownHostsFile).map
                  (targetOfDiscovered env.customUsernames)).map
                  (applyCustomLabel env.customLabels),
                ((discoverHosts env.configFile env.knownHostsFile).map
                  fun host => host.id).reverse)).1.foldl
            (resolveTarget env) ([], { r with dnsFailures := [] })).1 := by
  unfold reloadHosts
  rw [hhome]
  rfl

/-! ## The launch chain -/

theorem firstSuccess_cons (step : Bool × List LaunchEvent)
    (rest : List (Bool × List LaunchEvent)) :
    firstSuccess (step :: rest) = thenTry step (firstSuccess rest) := rfl

theorem firstSuccess_single (b : Bool) (events : List LaunchEvent) :
    firstSuccess [(b, events)] = events := by
  cases b <;> simp [firstSuccess]

theorem run_eq_firstSuccess (env : LaunchEnv) (r : Runner) (arguments : QStringList)
    (hne : arguments ≠ []) :
    run env r arguments = firstSuccess (launchChain env r arguments) := by
  unfold run launchChain
  rw [show arguments.isEmpty = false from List.isEmpty_eq_false.2 hne]
  rw [firstSuccess_cons, firstSuccess_cons, firstSuccess_cons, firstSuccess_cons,
    firstSuccess_cons, firstSuccess_cons, firstSuccess_cons, firstSuccess_cons,
    firstSuccess_cons, firstSuccess_cons, firstSuccess_cons, firstSuccess_cons,
    firstSuccess_cons, firstSuccess_cons, firstSuccess_cons, firstSuccess_cons,
    firstSuccess_cons, firstSuccess_cons, firstSuccess_cons, firstSuccess_single]
  rfl

theorem step_sound_of_find_start (env : LaunchEnv) (program : QString) (args : QStringList)
    (s : Bool × List LaunchEvent)
    (hs : s = (false, [LaunchEvent.findExecutable program]) ∨
      s = (env.startDetached (env.findExecutable program) args,
        [LaunchEvent.findExecutable program,
          LaunchEvent.startDetached (env.findExecutable program) args])) :
    (s.1 = false → ∀ ev ∈ s.2, ev.started env = false) ∧
    (s.1 = true → ∃ pre ev, s.2 = pre ++ [ev] ∧ ev.started env = true ∧
      ∀ e ∈ pre, e.started env = false) := by
  rcases hs with rfl | rfl
  · refine ⟨fun _ ev hev => ?_, fun h => by simp at h⟩
    rw [List.mem_singleton] at hev
    subst hev
    rfl
  · constructor
    · intro h ev hev
      simp only [List.mem_cons, List.mem_singleton, List.not_mem_nil, or_false] at hev
      rcases hev with rfl | rfl
      · rfl
      · exact h
    · intro h
      refine ⟨[LaunchEvent.findExecutable program], _, rfl, h, ?_⟩
      intro e he
      rw [List.mem_singleton] at he
      subst he
      rfl

theorem step_sound_nil (env : LaunchEnv) :
    (((false, []) : Bool × List LaunchEvent).1 = false →
      ∀ ev ∈ ((false, []) : Bool × List LaunchEvent).2, ev.started env = false) ∧
    (((false, []) : Bool × List LaunchEvent).1 = true → ∃ pre ev,
      ((false, []) : Bool × List LaunchEvent).2 = pre ++ [ev] ∧ ev.started env = true ∧
      ∀ e ∈ pre, e.started env = false) :=
  ⟨fun _ ev hev => by simp at hev, fun h => by simp at h⟩

theorem ite_sound (env : LaunchEnv) (c : Prop) [Decidable c] (a b : Bool × List LaunchEvent)
    (ha : (a.1 = false → ∀ ev ∈ a.2, ev.started env = false) ∧
      (a.1 = true → ∃ pre ev, a.2 = pre ++ [ev] ∧ ev.started env = true ∧
        ∀ e ∈ pre, e.started env = false))
    (hb : (b.1 = false → ∀ ev ∈ b.2, ev.started env = false) ∧
      (b.1 = true → ∃ pre ev, b.2 = pre ++ [ev] ∧ ev.started env = true ∧
        ∀ e ∈ pre, e.started env = false)) :
    ((if c then a else b).1 = false → ∀ ev ∈ (if c then a else b).2, ev.started env = false) ∧
    ((if c then a else b).1 = true → ∃ pre ev, (if c then a else b).2 = pre ++ [ev] ∧
      ev.started env = true ∧ ∀ e ∈ pre, e.started env = false) := by
  by_cases h : c
  · rw [if_pos h]
    exact ha
  · rw [if_neg h]
    exact hb

theorem launchWithDashE_sound (env : LaunchEnv) (program : QString)
    (sshArgs extraArgs : QStringList) :
    ((launchWithDashE env program sshArgs extraArgs).1 = false →
      ∀ ev ∈ (launchWithDashE env program sshArgs extraArgs).2, ev.started env = false) ∧
    ((launchWithDashE env program sshArgs extraArgs).1 = true → ∃ pre ev,
      (launchWithDashE env program sshArgs extraArgs).2 = pre ++ [ev] ∧
      ev.started env = true ∧ ∀ e ∈ pre, e.started env = false) := by
  apply step_sound_of_find_start env program
    (extraArgs ++ ["-e".toList] ++ ["ssh".toList] ++ sshArgs)
  unfold launchWithDashE
  by_cases h : (env.findExecutable program).isEmpty = true
  · rw [if_pos h]
    exact Or.inl rfl
  · rw [if_neg h]
    exact Or.inr rfl

theorem launchWithDoubleDash_sound (env : LaunchEnv) (program : QString)
    (sshArgs extraArgs : QStringList) :
    ((launchWithDoubleDash env program sshArgs extraArgs).1 = false →
      ∀ ev ∈ (launchWithDoubleDash env program sshArgs extraArgs).2, ev.started env = false) ∧
    ((launchWithDoubleDash env program sshArgs extraArgs).1 = true → ∃ pre ev,
      (launchWithDoubleDash env program sshArgs extraArgs).2 = pre ++ [ev] ∧
      ev.started env = true ∧ ∀ e ∈ pre, e.started env = false) := by
  apply step_sound_of_find_start env program
    (extraArgs ++ ["--".toList] ++ ["ssh".toList] ++ sshArgs)
  unfold launchWithDoubleDash
  by_cases h : (env.findExecutable program).isEmpty = true
  · rw [if_pos h]
    exact Or.inl rfl
  · rw [if_neg h]
    exact Or.inr rfl

theorem launchWithCustomDescriptor_sound (env : LaunchEnv) (descriptor : QString)
    (sshArgs : QStringList) :
    ((launchWithCustomDescriptor env descriptor sshArgs).1 = false →
      ∀ ev ∈ (launchWithCustomDescriptor env descriptor sshArgs).2, ev.started env = false) ∧
    ((launchWithCustomDescriptor env descriptor sshArgs).1 = true → ∃ pre ev,
      (launchWithCustomDescriptor env descriptor sshArgs).2 = pre ++ [ev] ∧
      ev.started env = true ∧ ∀ e ∈ pre, e.started env = false) := by
  unfold launchWithCustomDescriptor
  apply ite_sound env _ _ _ (step_sound_nil env)
  cases splitCommand descriptor with
  | nil => exact step_sound_nil env
  | cons program parts =>
    apply step_sound_of_find_start env program (parts ++ ["ssh".toList] ++ sshArgs)
    simp only []
    by_cases h : (env.findExecutable program).isEmpty = true
    · rw [if_pos h]
      exact Or.inl rfl
    · rw [if_neg h]
      exact Or.inr rfl

theorem launchPreferredTerminal_sound (env : LaunchEnv) (r : Runner)
    (arguments : QStringList) :
    ((launchPreferredTerminal env r arguments).1 = false →
      ∀ ev ∈ (launchPreferredTerminal env r arguments).2, ev.started env = false) ∧
    ((launchPreferredTerminal env r arguments).1 = true → ∃ pre ev,
      (launchPreferredTerminal env r arguments).2 = pre ++ [ev] ∧
      ev.started env = true ∧ ∀ e ∈ pre, e.started env = false) := by
  unfold launchPreferredTerminal
  exact ite_sound env _ _ _ (step_sound_nil env)
    (ite_sound env _ _ _ (launchWithCustomDescriptor_sound _ _ _)
    (ite_sound env _ _ _ (launchWithDashE_sound _ _ _ _)
    (ite_sound env _ _ _ (launchWithDoubleDash_sound _ _ _ _)
    (ite_sound env _ _ _ (launchWithDoubleDash_sound _ _ _ _)
    (ite_sound env _ _ _ (launchWithDashE_sound _ _ _ _)
    (ite_sound env _ _ _ (launchWithDashE_sound _ _ _ _)
    (ite_sound env _ _ _ (launchWithDashE_sound _ _ _ _)
      (launchWithCustomDescriptor_sound _ _ _))))))))

theorem firstSuccess_sound (env : LaunchEnv) (steps : List (Bool × List LaunchEvent))
    (hsteps : ∀ s ∈ steps,
      (s.1 = false → ∀ ev ∈ s.2, ev.started env = false) ∧
      (s.1 = true → ∃ pre ev, s.2 = pre ++ [ev] ∧ ev.started env = true ∧
        ∀ e ∈ pre, e.started env = false)) :
    (∀ ev ∈ firstSuccess steps, ev.started env = false) ∨
    ∃ pre ev, firstSuccess steps = pre ++ [ev] ∧ ev.started env = true ∧
      ∀ e ∈ pre, e.started env = false := by
  induction steps with
  | nil => exact Or.inl (fun ev hev => by simp [firstSuccess] at hev)
  | cons s rest ih =>
    obtain ⟨hf, ht⟩ := hsteps s (List.mem_cons_self _ _)
    have ih2 := ih (fun x hx => hsteps x (List.mem_cons_of_mem _ hx))
    unfold firstSuccess
    by_cases hs : s.1 = true
    · rw [if_pos hs]
      exact Or.inr (ht hs)
    · rw [if_neg hs]
      have hnone := hf (by simpa using hs)
      rcases ih2 with h | ⟨pre, ev, e1, e2, e3⟩
      · left
        intro ev hev
        rcases List.mem_append.1 hev with hev | hev
        · exact hnone ev hev
        · exact h ev hev
      · right
        refine ⟨s.2 ++ pre, ev, by rw [e1, List.append_assoc], e2, ?_⟩
        intro e he
        rcases List.mem_append.1 he with he | he
        · exact hnone e he
        · exact e3 e he

theorem launchChain_sound (env : LaunchEnv) (r : Runner) (arguments : QStringList) :
    ∀ s ∈ launchChain env r arguments,
      (s.1 = false → ∀ ev ∈ s.2, ev.started env = false) ∧
      (s.1 = true → ∃ pre ev, s.2 = pre ++ [ev] ∧ ev.started env = true ∧
        ∀ e ∈ pre, e.started env = false) := by
  intro s hs
  unfold launchChain at hs
  simp only [List.mem_cons, List.mem_singleton, List.not_mem_nil, or_false] at hs
  rcases hs with rfl | rfl | rfl | rfl | rfl | rfl | rfl | rfl | rfl | rfl | rfl | rfl | rfl |
    rfl | rfl | rfl | rfl | rfl | rfl | rfl
  · exact launchPreferredTerminal_sound _ _ _
  · exact launchWithCustomDescriptor_sound _ _ _
  · exact launchWithCustomDescriptor_sound _ _ _
  · exact launchWithDashE_sound _ _ _ _
  · exact launchWithDoubleDash_sound _ _ _ _
  · exact launchWithDoubleDash_sound _ _ _ _
  all_goals first
    | exact launchWithDashE_sound _ _ _ _
    | skip
  constructor
  · intro h ev hev
    rw [List.mem_singleton] at hev
    subst hev
    exact h
  · intro h
    exact ⟨[], _, rfl, h, fun e he => by simp at he⟩

/-- C20: for every non-empty argument vector and every outcome of the two
oracles, `run` attempts the steps of the chain in the order preferred terminal,
`SSH_HELPER_TERMINAL`, `TERMINAL`, konsole, gnome-terminal, kgx,
x-terminal-emulator, kitty, alacritty, tilix, xfce4-terminal, lxterminal,
qterminal, terminator, mate-terminal, wezterm, urxvt, sakura, xterm, bare ssh,
and stops at the first step that succeeds. So either no call starts a process,
or exactly one does and it is the last call `run` makes. -/
theorem run_first_success (env : LaunchEnv) (r : Runner) (arguments : QStringList)
    (hne : arguments ≠ []) :
    run env r arguments = firstSuccess (launchChain env r arguments) ∧
    ((∀ ev ∈ run env r arguments, ev.started env = false) ∨
      ∃ pre ev, run env r arguments = pre ++ [ev] ∧ ev.started env = true ∧
        ∀ e ∈ pre, e.started env = false) := by
  refine ⟨run_eq_firstSuccess env r arguments hne, ?_⟩
  rw [run_eq_firstSuccess env r arguments hne]
  exact firstSuccess_sound env _ (launchChain_sound env r arguments)

/-- Witness of C20: only xterm is installed; the chain looks up every terminal
before it in order and ends with the start of xterm. -/
theorem run_first_success_witness :
    ["host".toList] ≠ [] ∧
    run
        { findExecutable := fun p => if p == "xterm".toList then "/usr/bin/xterm".toList else [],
          startDetached := fun _ _ => true, sshHelperTerminal := [], terminal := [] }
        Runner.initial ["host".toList]
      = firstSuccess
          (launchChain
            { findExecutable :=
                fun p => if p == "xterm".toList then "/usr/bin/xterm".toList else [],
              startDetached := fun _ _ => true, sshHelperTerminal := [], terminal := [] }
            Runner.initial ["host".toList]) ∧
    ((∀ ev ∈ run
          { findExecutable :=
              fun p => if p == "xterm".toList then "/usr/bin/xterm".toList else [],
            startDetached := fun _ _ => true, sshHelperTerminal := [], terminal := [] }
          Runner.initial ["host".toList],
        ev.started
          { findExecutable :=
              fun p => if p == "xterm".toList then "/usr/bin/xterm".toList else [],
            startDetached := fun _ _ => true, sshHelperTerminal := [], terminal := [] }
          = false) ∨
      ∃ pre ev,
        run
          { findExecutable :=
              fun p => if p == "xterm".toList then "/usr/bin/xterm".toList else [],
            startDetached := fun _ _ => true, sshHelperTerminal := [], terminal := [] }
          Runner.initial ["host".toList] = pre ++ [ev] ∧
        ev.started
          { findExecutable :=
              fun p => if p == "xterm".toList then "/usr/bin/xterm".toList else [],
            startDetached := fun _ _ => true, sshHelperTerminal := [], terminal := [] }
          = true ∧
        ∀ e ∈ pre, e.started
          { findExecutable :=
              fun p => if p == "xterm".toList then "/usr/bin/xterm".toList else [],
            startDetached := fun _ _ => true, sshHelperTerminal := [], terminal := [] }
          = false) :=
  ⟨by decide,
    run_first_success
      { findExecutable := fun p => if p == "xterm".toList then "/usr/bin/xterm".toList else [],
        startDetached := fun _ _ => true, sshHelperTerminal := [], terminal := [] }
      Runner.initial ["host".toList] (by decide)⟩

theorem thenTry_of_false (step : Bool × List LaunchEvent) (rest : List LaunchEvent)
    (h : step.1 = false) : thenTry step rest = step.2 ++ rest := by
  simp [thenTry, h]

theorem launchWithDashE_unresolved (env : LaunchEnv) (program : QString)
    (sshArgs extraArgs : QStringList) (h : env.findExecutable program = []) :
    launchWithDashE env program sshArgs extraArgs
      = (false, [LaunchEvent.findExecutable program]) := by
  simp [launchWithDashE, h]

theorem launchWithDoubleDash_unresolved (env : LaunchEnv) (program : QString)
    (sshArgs extraArgs : QStringList) (h : env.findExecutable program = []) :
    launchWithDoubleDash env program sshArgs extraArgs
      = (false, [LaunchEvent.findExecutable program]) := by
  simp [launchWithDoubleDash, h]

/-- C19 as stated fails: with xterm the only installed terminal, no environment
descriptor and the preferred id `konsole`, `run` starts xterm alone, but the
konsole launch is attempted twice: once as the preferred step and once as the
konsole step of the fixed list. -/
theorem run_preferred_konsole_twice_counterexample :
    run
        { findExecutable := fun p => if p == "xterm".toList then "/usr/bin/xterm".toList else [],
          startDetached := fun _ _ => true, sshHelperTerminal := [], terminal := [] }
        { Runner.initial with preferredTerminalId := "konsole".toList } ["host".toList]
      = [LaunchEvent.findExecutable "konsole".toList,
         LaunchEvent.findExecutable "konsole".toList,
         LaunchEvent.findExecutable "gnome-terminal".toList,
         LaunchEvent.findExecutable "kgx".toList,
         LaunchEvent.findExecutable "x-terminal-emulator".toList,
         LaunchEvent.findExecutable "kitty".toList,
         LaunchEvent.findExecutable "alacritty".toList,
         LaunchEvent.findExecutable "tilix".toList,
         LaunchEvent.findExecutable "xfce4-terminal".toList,
         LaunchEvent.findExecutable "lxterminal".toList,
         LaunchEvent.findExecutable "qterminal".toList,
         LaunchEvent.findExecutable "terminator".toList,
         LaunchEvent.findExecutable "mate-terminal".toList,
         LaunchEvent.findExecutable "wezterm".toList,
         LaunchEvent.findExecutable "urxvt".toList,
         LaunchEvent.findExecutable "sakura".toList,
         LaunchEvent.findExecutable "xterm".toList,
         LaunchEvent.startDetached "/usr/bin/xterm".toList
           ["-hold".toList, "-e".toList, "ssh".toList, "host".toList]] ∧
    (run
        { findExecutable := fun p => if p == "xterm".toList then "/usr/bin/xterm".toList else [],
          startDetached := fun _ _ => true, sshHelperTerminal := [], terminal := [] }
        { Runner.initial with preferredTerminalId := "konsole".toList }
        ["host".toList]).count (LaunchEvent.findExecutable "konsole".toList) = 2 := by
  decide

/-- C19, amended: when the preferred step fails (its executable is
unresolvable), both environment descriptors are unset, no terminal of the
fixed list before xterm is resolvable, and xterm is resolvable and starts,
`run` makes the calls of the preferred step, then looks up each terminal of the
fixed list once, in order, and starts xterm with `-hold -e ssh <args>`; that is
the only process started. The lookups of the fixed list come on top of the
preferred step, so a preferred id that also occurs in the list, such as
`konsole`, is attempted twice. -/
theorem run_only_xterm (env : LaunchEnv) (r : Runner) (arguments : QStringList)
    (hne : arguments ≠ [])
    (hpref : (launchPreferredTerminal env r arguments).1 = false)
    (henv1 : env.sshHelperTerminal = []) (henv2 : env.terminal = [])
    (hfind : ∀ p ∈ ["konsole".toList, "gnome-terminal".toList, "kgx".toList,
      "x-terminal-emulator".toList] ++ dashETerminals, env.findExecutable p = [])
    (hxterm : env.findExecutable "xterm".toList ≠ [])
    (hstart : env.startDetached (env.findExecutable "xterm".toList)
      (["-hold".toList, "-e".toList, "ssh".toList] ++ arguments) = true) :
    run env r arguments
      = (launchPreferredTerminal env r arguments).2 ++
        ((["konsole".toList, "gnome-terminal".toList, "kgx".toList,
            "x-terminal-emulator".toList] ++ dashETerminals ++ ["xterm".toList]).map
            LaunchEvent.findExecutable ++
          [LaunchEvent.startDetached (env.findExecutable "xterm".toList)
            (["-hold".toList, "-e".toList, "ssh".toList] ++ arguments)]) ∧
    (run env r arguments).filter (fun ev => ev.started env)
      = [LaunchEvent.startDetached (env.findExecutable "xterm".toList)
          (["-hold".toList, "-e".toList, "ssh".toList] ++ arguments)] := by
  have key : run env r arguments
      = (launchPreferredTerminal env r arguments).2 ++
        ((["konsole".toList, "gnome-terminal".toList, "kgx".toList,
            "x-terminal-emulator".toList] ++ dashETerminals ++ ["xterm".toList]).map
            LaunchEvent.findExecutable ++
          [LaunchEvent.startDetached (env.findExecutable "xterm".toList)
            (["-hold".toList, "-e".toList, "ssh".toList] ++ arguments)]) := by
    have hc : ∀ a : QStringList, launchWithCustomDescriptor env [] a = (false, []) :=
      fun _ => rfl
    have hx : launchWithDashE env "xterm".toList arguments ["-hold".toList]
        = (true, [LaunchEvent.findExecutable "xterm".toList,
            LaunchEvent.startDetached (env.findExecutable "xterm".toList)
              (["-hold".toList, "-e".toList, "ssh".toList] ++ arguments)]) := by
      unfold launchWithDashE
      rw [if_neg (by simpa using hxterm)]
      exact Prod.ext hstart rfl
    unfold run
    rw [show arguments.isEmpty = false from List.isEmpty_eq_false.2 hne]
    simp only [Bool.false_eq_true, if_false, dashETerminals, List.foldr, henv1, henv2, hc]
    rw [thenTry_of_false _ _ hpref, thenTry_of_false _ _ rfl, thenTry_of_false _ _ rfl,
      launchWithDashE_unresolved env "konsole".toList _ _ (hfind _ (by decide)),
      launchWithDoubleDash_unresolved env "gnome-terminal".toList _ _ (hfind _ (by decide)),
      launchWithDoubleDash_unresolved env "kgx".toList _ _ (hfind _ (by decide)),
      launchWithDashE_unresolved env "x-terminal-emulator".toList _ _ (hfind _ (by decide)),
      launchWithDashE_unresolved env "kitty".toList _ _ (hfind _ (by decide)),
      launchWithDashE_unresolved env "alacritty".toList _ _ (hfind _ (by decide)),
      launchWithDashE_unresolved env "tilix".toList _ _ (hfind _ (by decide)),
      launchWithDashE_unresolved env "xfce4-terminal".toList _ _ (hfind _ (by decide)),
      launchWithDashE_unresolved env "lxterminal".toList _ _ (hfind _ (by decide)),
      launchWithDashE_unresolved env "qterminal".toList _ _ (hfind _ (by decide)),
      launchWithDashE_unresolved env "terminator".toList _ _ (hfind _ (by decide)),
      launchWithDashE_unresolved env "mate-terminal".toList _ _ (hfind _ (by decide)),
      launchWithDashE_unresolved env "wezterm".toList _ _ (hfind _ (by decide)),
      launchWithDashE_unresolved env "urxvt".toList _ _ (hfind _ (by decide)),
      launchWithDashE_unresolved env "sakura".toList _ _ (hfind _ (by decide)), hx]
    rfl
  refine ⟨key, ?_⟩
  rw [key, List.filter_append, List.filter_append]
  have h1 : (launchPreferredTerminal env r arguments).2.filter (fun ev => ev.started env) = [] := by
    rw [List.filter_eq_nil_iff]
    intro ev hev
    rw [(launchPreferredTerminal_sound env r arguments).1 hpref ev hev]
    exact Bool.false_ne_true
  have h2 : ∀ l : QStringList,
      (l.map LaunchEvent.findExecutable).filter (fun ev => ev.started env) = [] := by
    intro l
    rw [List.filter_eq_nil_iff]
    intro ev hev
    obtain ⟨p, _, rfl⟩ := List.mem_map.1 hev
    exact Bool.false_ne_true
  rw [h1, h2, List.nil_append, List.nil_append]
  exact List.filter_cons_of_pos hstart

/-- Witness of the amended C19: xterm is the only installed terminal and the
preferred id is `konsole`. -/
theorem run_only_xterm_witness :
    ["host".toList] ≠ [] ∧
    (run
        { findExecutable := fun p => if p == "xterm".toList then "/usr/bin/xterm".toList else [],
          startDetached := fun _ _ => true, sshHelperTerminal := [], terminal := [] }
        { Runner.initial with preferredTerminalId := "konsole".toList }
        ["host".toList]).filter
        (fun ev => ev.started
          { findExecutable :=
              fun p => if p == "xterm".toList then "/usr/bin/xterm".toList else [],
            startDetached := fun _ _ => true, sshHelperTerminal := [], terminal := [] })
      = [LaunchEvent.startDetached "/usr/bin/xterm".toList
          ["-hold".toList, "-e".toList, "ssh".toList, "host".toList]] :=
  ⟨by decide,
    (run_only_xterm
      { findExecutable := fun p => if p == "xterm".toList then "/usr/bin/xterm".toList else [],
        startDetached := fun _ _ => true, sshHelperTerminal := [], terminal := [] }
      { Runner.initial with preferredTerminalId := "konsole".toList } ["host".toList]
      (by decide) (by decide) (by decide) (by decide) (by decide) (by decide) (by decide)).2⟩


/-! ## The two scanners agree -/

theorem scanStep_hostScanStep (s1 : ScanState) (s2 : HostScanState) (i : Nat) (a : QString)
    (hc : s1.consumeNext = s2.consumeNext) (ha : s1.afterDoubleDash = s2.afterDoubleDash) :
    (scanStep s1 i a).consumeNext = (hostScanStep s2 a).consumeNext ∧
    (scanStep s1 i a).afterDoubleDash = (hostScanStep s2 a).afterDoubleDash ∧
    (((scanStep s1 i a).candidateIndex = s1.candidateIndex ∧
        (hostScanStep s2 a).candidate = s2.candidate) ∨
      ((scanStep s1 i a).candidateIndex = (i : Int) ∧ (hostScanStep s2 a).candidate = a)) := by
  obtain ⟨c1, a1, k1⟩ := s1
  obtain ⟨c2, a2, k2⟩ := s2
  simp only at hc ha
  subst hc ha
  unfold scanStep hostScanStep
  simp only []
  split_ifs <;> simp

theorem scan_agree (l pre : QStringList) (s1 : ScanState) (s2 : HostScanState)
    (hc : s1.consumeNext = s2.consumeNext) (ha : s1.afterDoubleDash = s2.afterDoubleDash)
    (hlt : s1.candidateIndex < (pre.length : Int))
    (hcand : s2.candidate =
      if 0 ≤ s1.candidateIndex then (pre ++ l).getD s1.candidateIndex.toNat [] else []) :
    (scanFrom l pre.length s1).candidateIndex < ((pre ++ l).length : Int) ∧
    (l.foldl hostScanStep s2).candidate =
      if 0 ≤ (scanFrom l pre.length s1).candidateIndex then
        (pre ++ l).getD (scanFrom l pre.length s1).candidateIndex.toNat [] else [] := by
  induction l generalizing pre s1 s2 with
  | nil =>
    simp only [scanFrom, List.foldl_nil, List.append_nil] at hcand ⊢
    exact ⟨hlt, hcand⟩
  | cons a l ih =>
    have e : pre ++ a :: l = (pre ++ [a]) ++ l := by simp
    have elen : (pre ++ [a]).length = pre.length + 1 := by simp
    obtain ⟨h1, h2, h3⟩ := scanStep_hostScanStep s1 s2 pre.length a hc ha
    have key := ih (pre ++ [a]) (scanStep s1 pre.length a) (hostScanStep s2 a) h1 h2
    rw [elen] at key
    rw [e]
    show (scanFrom l (pre.length + 1) (scanStep s1 pre.length a)).candidateIndex < _ ∧
      (l.foldl hostScanStep (hostScanStep s2 a)).candidate = _
    apply key
    · rcases h3 with ⟨h, _⟩ | ⟨h, _⟩
      · rw [h]; push_cast; omega
      · rw [h]; push_cast; omega
    · rcases h3 with ⟨h, h'⟩ | ⟨h, h'⟩
      · rw [h, h', hcand, e]
      · rw [h, h']
        have : (0 : Int) ≤ (pre.length : Int) := by omega
        rw [if_pos this, Int.toNat_ofNat, List.getD_eq_getElem?_getD, List.append_assoc,
          List.getElem?_append_right (le_refl _)]
        simp

/-- C30: the two scanners agree. `hostFromArguments` returns the token at the
index `hostArgumentIndex` returns when that index is not negative, and the
empty string when it is -1; the index is -1 or a position of the list. -/
theorem hostFromArguments_eq_token_at_index (args : QStringList) :
    (hostArgumentIndex args = -1 ∨
      (0 ≤ hostArgumentIndex args ∧ hostArgumentIndex args < (args.length : Int))) ∧
    hostFromArguments args =
      if 0 ≤ hostArgumentIndex args then args.getD (hostArgumentIndex args).toNat [] else [] := by
  cases args with
  | nil => exact ⟨Or.inl (by decide), by decide⟩
  | cons a l =>
    have key := scan_agree (a :: l) [] ⟨false, false, -1⟩ ⟨false, false, []⟩ rfl rfl
      (by simp) (by simp)
    simp only [List.length_nil, List.nil_append] at key
    have e1 : hostArgumentIndex (a :: l) = (scanFrom (a :: l) 0 ⟨false, false, -1⟩).candidateIndex := by
      simp [hostArgumentIndex]
    have e2 : hostFromArguments (a :: l)
        = ((a :: l).foldl hostScanStep ⟨false, false, []⟩).candidate := by
      simp [hostFromArguments]
    rw [e1, e2]
    refine ⟨?_, key.2⟩
    have hge : ∀ (l : QStringList) (i : Nat) (s : ScanState), -1 ≤ s.candidateIndex →
        -1 ≤ (scanFrom l i s).candidateIndex := by
      intro l
      induction l with
      | nil => intro i s h; exact h
      | cons b l ih =>
        intro i s h
        apply ih
        obtain ⟨_, _, h3⟩ := scanStep_hostScanStep s ⟨s.consumeNext, s.afterDoubleDash, []⟩ i b rfl rfl
        rcases h3 with ⟨h', _⟩ | ⟨h', _⟩
        · rw [h']; exact h
        · rw [h']; omega
    have := hge (a :: l) 0 ⟨false, false, -1⟩ (by simp)
    have := key.1
    omega


/-! ## Character reads of the scanners -/

theorem scanStepReads_bounds (st : ScanState) (arg : QString) (p : Nat)
    (h : p ∈ scanStepReads st arg) : p = 1 ∧ (2 ≤ arg.length ∨ arg = "-".toList) := by
  unfold scanStepReads at h
  have hlen : ∀ a : QString, (!st.afterDoubleDash && startsWithChar a '-') = true →
      2 ≤ a.length ∨ a = "-".toList := by
    intro a ha
    match a, ha with
    | [], ha => simp [startsWithChar] at ha
    | [c], ha =>
      right
      simp [startsWithChar] at ha
      simp [ha.2]
    | _ :: _ :: _, _ => left; simp
  split_ifs at h with h1 h2 h3 h4 h5
  all_goals first
    | (exfalso; simp at h; done)
    | exact ⟨by simpa using h, hlen arg h3⟩

theorem hostScanStepReads_bounds (st : HostScanState) (arg : QString) (p : Nat)
    (h : p ∈ hostScanStepReads st arg) : p = 1 ∧ (2 ≤ arg.length ∨ arg = "-".toList) :=
  scanStepReads_bounds ⟨st.consumeNext, st.afterDoubleDash, -1⟩ arg p h

theorem scanReads_bounds (l : QStringList) (i : Nat) (st : ScanState) (x : QString × Nat)
    (h : x ∈ scanReads l i st) : x.2 = 1 ∧ (2 ≤ x.1.length ∨ x.1 = "-".toList) := by
  induction l generalizing i st with
  | nil => simp [scanReads] at h
  | cons a l ih =>
    unfold scanReads at h
    rcases List.mem_append.1 h with h | h
    · obtain ⟨p, hp, rfl⟩ := List.mem_map.1 h
      exact scanStepReads_bounds st a p hp
    · exact ih _ _ h

theorem hostScanReads_bounds (l : QStringList) (st : HostScanState) (x : QString × Nat)
    (h : x ∈ hostScanReads l st) : x.2 = 1 ∧ (2 ≤ x.1.length ∨ x.1 = "-".toList) := by
  induction l generalizing st with
  | nil => simp [hostScanReads] at h
  | cons a l ih =>
    unfold hostScanReads at h
    rcases List.mem_append.1 h with h | h
    · obtain ⟨p, hp, rfl⟩ := List.mem_map.1 h
      exact hostScanStepReads_bounds st a p hp
    · exact ih _ h

/-- C27 fails on the code for the token `-`: on the argument list that
consists of the single token `-` (length 1) both scanners call `arg.at(1)`,
a position that is not below the length of the token. Every other read is
inside its token: each read is at position 1, and its token either has at
least two characters or is the token `-`. The empty token is never read. -/
theorem scanner_reads_past_single_dash :
    hostArgumentIndexReads ["-".toList] = [("-".toList, 1)] ∧
    hostFromArgumentsReads ["-".toList] = [("-".toList, 1)] ∧
    ("-".toList).length = 1 ∧
    ∀ (args : QStringList) (x : QString × Nat),
      x ∈ hostArgumentIndexReads args ∨ x ∈ hostFromArgumentsReads args →
      x.2 = 1 ∧ (x.2 < x.1.length ∨ x.1 = "-".toList) := by
  refine ⟨by decide, by decide, by decide, ?_⟩
  intro args x h
  have key : x.2 = 1 ∧ (2 ≤ x.1.length ∨ x.1 = "-".toList) := by
    rcases h with h | h
    · unfold hostArgumentIndexReads at h
      split_ifs at h
      · simp at h
      · exact scanReads_bounds _ _ _ x h
    · unfold hostFromArgumentsReads at h
      split_ifs at h
      · simp at h
      · exact hostScanReads_bounds _ _ x h
  obtain ⟨h1, h2⟩ := key
  refine ⟨h1, ?_⟩
  rcases h2 with h2 | h2
  · left; omega
  · right; exact h2

/-! ## The reload timer -/

theorem advanceTo_pending (env : ReloadEnv) (now d : Nat) (s : TimedRunner)
    (hd : s.deadline = some d) (h : now < d) : advanceTo env now s = s := by
  unfold advanceTo
  rw [hd]
  simp only []
  rw [if_neg (by omega)]

theorem notifyAt_pending (env : ReloadEnv) (now d : Nat) (s : TimedRunner)
    (hd : s.deadline = some d) (h : now < d) :
    (notifyAt env s now).deadline = some d ∧ (notifyAt env s now).runner.loaded = false := by
  unfold notifyAt
  rw [advanceTo_pending env now d s hd h]
  simp [scheduleReload, hd]

theorem notifyAt_idle (env : ReloadEnv) (now : Nat) (s : TimedRunner)
    (hd : s.deadline = none) :
    (notifyAt env s now).deadline = some (now + 250) ∧
      (notifyAt env s now).runner.loaded = false := by
  unfold notifyAt advanceTo
  rw [hd]
  simp [scheduleReload, hd, reloadInterval]

theorem foldl_notifyAt_pending (env : ReloadEnv) (d : Nat) (ts : List Nat) (s : TimedRunner)
    (hd : s.deadline = some d) (hl : s.runner.loaded = false) (h : ∀ u ∈ ts, u < d) :
    (ts.foldl (notifyAt env) s).deadline = some d ∧
      (ts.foldl (notifyAt env) s).runner.loaded = false := by
  induction ts generalizing s with
  | nil => exact ⟨hd, hl⟩
  | cons u ts ih =>
    rw [List.foldl_cons]
    have hu := notifyAt_pending env u d s hd (h u (List.mem_cons_self _ _))
    exact ih _ hu.1 hu.2 (fun v hv => h v (List.mem_cons_of_mem _ hv))

/-- C21 as stated fails: a notification that arrives while the timer is
pending does not reset the deadline. After notifications at 0 ms and at
100 ms the timer fires at 250 ms, 250 ms after the first notification, and
not at 350 ms; at 250 ms the reload runs although the last notification is
only 150 ms old. -/
theorem scheduleReload_keeps_deadline_counterexample :
    ([0, 100].foldl
      (notifyAt ⟨"/home/u".toList, none, none, [], [], [], ⟨[], []⟩, fun _ => false,
        fun _ => none, fun _ _ => 0⟩)
      ⟨Runner.initial, none⟩).deadline = some 250 ∧
    ([0, 100].foldl
      (notifyAt ⟨"/home/u".toList, none, none, [], [], [], ⟨[], []⟩, fun _ => false,
        fun _ => none, fun _ _ => 0⟩)
      ⟨Runner.initial, none⟩).deadline ≠ some (100 + 250) ∧
    (advanceTo ⟨"/home/u".toList, none, none, [], [], [], ⟨[], []⟩, fun _ => false,
        fun _ => none, fun _ _ => 0⟩ 250
      ([0, 100].foldl
        (notifyAt ⟨"/home/u".toList, none, none, [], [], [], ⟨[], []⟩, fun _ => false,
          fun _ => none, fun _ _ => 0⟩)
        ⟨Runner.initial, none⟩)).runner.loaded = true := by
  decide

/-- C21, amended: every change notification marks the snapshot stale, and it
starts the debounce timer only when the timer is not pending. For a burst of
notifications that begins at the time `t` with the timer idle and whose later
notifications all arrive before `t + 250`, the snapshot is stale after the
burst and the timer fires at `t + 250`, which is 250 ms after the first
notification of the burst; when it fires the hosts are reloaded and the
timer is idle again. -/
theorem scheduleReload_debounce (env : ReloadEnv) (s : TimedRunner) (t : Nat) (ts : List Nat)
    (hidle : s.deadline = none) (hburst : ∀ u ∈ ts, u < t + 250) :
    ((t :: ts).foldl (notifyAt env) s).runner.loaded = false ∧
    ((t :: ts).foldl (notifyAt env) s).deadline = some (t + 250) ∧
    (advanceTo env (t + 250) ((t :: ts).foldl (notifyAt env) s)).runner.loaded = true ∧
    (advanceTo env (t + 250) ((t :: ts).foldl (notifyAt env) s)).deadline = none := by
  rw [List.foldl_cons]
  have h0 := notifyAt_idle env t s hidle
  have h1 := foldl_notifyAt_pending env (t + 250) ts _ h0.1 h0.2 hburst
  refine ⟨h1.2, h1.1, ?_, ?_⟩
  · unfold advanceTo
    rw [h1.1]
    simp only []
    rw [if_pos (le_refl _)]
    simp only [timerTimeout]
    unfold reloadHosts
    split_ifs <;> rfl
  · unfold advanceTo
    rw [h1.1]
    simp only []
    rw [if_pos (le_refl _)]
    rfl

/-- Witness of the amended C21: notifications at 0, 100 and 200 ms on the
idle runner leave the snapshot stale and the timer due at 250 ms. -/
theorem scheduleReload_debounce_witness :
    (∀ u ∈ [100, 200], u < 0 + 250) ∧
    ([0, 100, 200].foldl
      (notifyAt ⟨"/home/u".toList, none, none, [], [], [], ⟨[], []⟩, fun _ => false,
        fun _ => none, fun _ _ => 0⟩)
      ⟨Runner.initial, none⟩).runner.loaded = false ∧
    ([0, 100, 200].foldl
      (notifyAt ⟨"/home/u".toList, none, none, [], [], [], ⟨[], []⟩, fun _ => false,
        fun _ => none, fun _ _ => 0⟩)
      ⟨Runner.initial, none⟩).deadline = some (0 + 250) :=
  ⟨by decide,
    (scheduleReload_debounce
      ⟨"/home/u".toList, none, none, [], [], [], ⟨[], []⟩, fun _ => false,
        fun _ => none, fun _ _ => 0⟩
      ⟨Runner.initial, none⟩ 0 [100, 200] rfl (by decide)).1,
    (scheduleReload_debounce
      ⟨"/home/u".toList, none, none, [], [], [], ⟨[], []⟩, fun _ => false,
        fun _ => none, fun _ _ => 0⟩
      ⟨Runner.initial, none⟩ 0 [100, 200] rfl (by decide)).2.1⟩


/-! ## The reload: shape of the snapshot -/

theorem lookup_cons_self (k v : QString) (l : List (QString × QString)) :
    List.lookup k ((k, v) :: l) = some v := by
  simp [List.lookup]

theorem lookup_cons_ne (k a v : QString) (l : List (QString × QString)) (h : k ≠ a) :
    List.lookup k ((a, v) :: l) = List.lookup k l := by
  have hb : (k == a) = false := by simpa using h
  simp [List.lookup, hb]

theorem resolveDnsNameForHost_answer (env : ReloadEnv) (cache0 : List (QString × QString))
    (s : Runner) (host : QString) (hs : DnsConsistent env cache0 s) :
    (resolveDnsNameForHost env s host).1 = dnsAnswer env cache0 host ∧
    DnsConsistent env cache0 (resolveDnsNameForHost env s host).2 := by
  unfold resolveDnsNameForHost dnsAnswer
  by_cases h1 : (normalizedHost host).isEmpty = true
  · rw [if_pos h1, if_pos h1]
    exact ⟨rfl, hs⟩
  · rw [if_neg h1, if_neg h1]
    cases hc : dnsIpCandidate env (normalizedHost host) with
    | none => exact ⟨rfl, hs⟩
    | some ip =>
      simp only []
      obtain ⟨hf, hcache⟩ := hs
      by_cases h2 : (s.dnsCache.lookup ip).isSome = true
      · rw [if_pos h2]
        refine ⟨?_, hf, hcache⟩
        rcases hcache ip with e | ⟨e0, _, e⟩
        · rw [← e]
          unfold hashValue
          cases hl : s.dnsCache.lookup ip with
          | none => rw [hl] at h2; exact absurd h2 (by decide)
          | some v => rfl
        · rw [e0]
          unfold hashValue
          rw [e]
      · rw [if_neg h2]
        have hnone : s.dnsCache.lookup ip = none := by
          cases hl : s.dnsCache.lookup ip with
          | none => rfl
          | some v => rw [hl] at h2; exact absurd rfl h2
        have h0 : cache0.lookup ip = none := by
          rcases hcache ip with e | ⟨e0, _, _⟩
          · rw [← e]; exact hnone
          · exact e0
        rw [h0]
        simp only []
        by_cases h3 : ip ∈ s.dnsFailures
        · rw [if_pos h3]
          refine ⟨?_, hf, hcache⟩
          rw [hf ip h3]
          rfl
        · rw [if_neg h3]
          have hfail : ∀ failures : List QString, freshLookup env ip = none →
              DnsConsistent env cache0 { s with dnsFailures := ip :: s.dnsFailures } := by
            intro _ hnone2
            refine ⟨?_, hcache⟩
            intro x hx
            rcases List.mem_cons.1 hx with e | hx
            · rw [e]; exact hnone2
            · exact hf x hx
          unfold freshLookup
          cases hn : env.fromName ip with
          | none =>
            refine ⟨rfl, hfail [] ?_⟩
            unfold freshLookup
            rw [hn]
          | some hostName =>
            simp only []
            by_cases h4 : (cleanedAnswer hostName).isEmpty = true ∨ cleanedAnswer hostName = ip
            · rw [if_pos h4, if_pos h4]
              refine ⟨rfl, hfail [] ?_⟩
              unfold freshLookup
              rw [hn]
              simp only []
              rw [if_pos h4]
            · rw [if_neg h4, if_neg h4]
              by_cases h5 : env.setAddress (cleanedAnswer hostName) = true
              · rw [if_pos h5, if_pos h5]
                refine ⟨rfl, hfail [] ?_⟩
                unfold freshLookup
                rw [hn]
                simp only []
                rw [if_neg h4, if_pos h5]
              · rw [if_neg h5, if_neg h5]
                have hfresh : freshLookup env ip = some (cleanedAnswer hostName) := by
                  unfold freshLookup
                  rw [hn]
                  simp only []
                  rw [if_neg h4, if_neg h5]
                refine ⟨rfl, hf, ?_⟩
                intro x
                show List.lookup x ((ip, cleanedAnswer hostName) :: s.dnsCache) = _ ∨ _
                by_cases hx : x = ip
                · subst hx
                  right
                  rw [lookup_cons_self, hfresh]
                  exact ⟨h0, rfl, rfl⟩
                · rw [lookup_cons_ne x ip _ _ hx]
                  exact hcache x

theorem foldl_resolveTarget_eq_map (env : ReloadEnv) (cache0 : List (QString × QString))
    (targets : List SshTarget) (acc : List SshTarget × Runner)
    (hs : DnsConsistent env cache0 acc.2) :
    (targets.foldl (resolveTarget env) acc).1 = acc.1 ++ targets.map (resolvedTarget env cache0) ∧
    DnsConsistent env cache0 (targets.foldl (resolveTarget env) acc).2 := by
  induction targets generalizing acc with
  | nil => simpa using hs
  | cons t ts ih =>
    rw [List.foldl_cons]
    have hstep : (resolveTarget env acc t).1 = acc.1 ++ [resolvedTarget env cache0 t] ∧
        DnsConsistent env cache0 (resolveTarget env acc t).2 := by
      unfold resolveTarget resolvedTarget
      simp only []
      obtain ⟨h1, h2⟩ := resolveDnsNameForHost_answer env cache0 acc.2
        (if (if t.hostName.isEmpty then hostFromArguments t.sshArguments
            else t.hostName).isEmpty then t.defaultLabel
          else (if t.hostName.isEmpty then hostFromArguments t.sshArguments else t.hostName)) hs
      exact ⟨by rw [h1], h2⟩
    obtain ⟨h1, h2⟩ := ih (resolveTarget env acc t) hstep.2
    refine ⟨?_, h2⟩
    rw [h1, hstep.1]
    simp

theorem dnsConsistent_start (env : ReloadEnv) (r : Runner) :
    DnsConsistent env r.dnsCache { r with dnsFailures := [] } :=
  ⟨by intro ip hip; simp at hip, fun _ => Or.inl rfl⟩

theorem insertByLabel_perm (cmp : QString → QString → Int) (t : SshTarget)
    (l : List SshTarget) : (insertByLabel cmp t l).Perm (t :: l) := by
  induction l with
  | nil => exact List.Perm.refl _
  | cons x xs ih =>
    unfold insertByLabel
    split_ifs
    · exact ((List.Perm.cons x ih).trans (List.Perm.swap t x xs))
    · exact List.Perm.refl _

theorem sortByLabel_perm (cmp : QString → QString → Int) (l : List SshTarget) :
    (sortByLabel cmp l).Perm l := by
  induction l with
  | nil => exact List.Perm.refl _
  | cons t ts ih =>
    exact (insertByLabel_perm cmp t _).trans (List.Perm.cons t ih)

theorem discoverHosts_ids_nodup (config knownHosts : Option QString) :
    ((discoverHosts config knownHosts).map fun y => y.id).Nodup :=
  ((parseKnownHosts_extends knownHosts (parseConfigFile config ⟨[], []⟩)).1
    (parseConfigFile_wellFormed config)).1

theorem applyCustomLabel_id (customLabels : List (QString × QString)) (t : SshTarget) :
    (applyCustomLabel customLabels t).id = t.id := by
  unfold applyCustomLabel
  split_ifs <;> rfl

theorem overwriteExisting_ids (entry : SshTarget) (l : List SshTarget) :
    (overwriteExisting entry l).map (fun t => t.id) = l.map (fun t => t.id) := by
  induction l with
  | nil => rfl
  | cons x xs ih =>
    unfold overwriteExisting
    split_ifs
    · rfl
    · rw [List.map_cons, List.map_cons, ih]

/-- The invariant of the manual merge: the targets have pairwise distinct ids,
and `m_seenIds` holds exactly their ids. -/
theorem mergeManualEntry_invariant (acc : List SshTarget × List QString) (manual : ManualEntry)
    (hnd : (acc.1.map fun t => t.id).Nodup)
    (hseen : ∀ x, x ∈ acc.2 ↔ x ∈ acc.1.map fun t => t.id) :
    ((mergeManualEntry acc manual).1.map fun t => t.id).Nodup ∧
    ∀ x, x ∈ (mergeManualEntry acc manual).2 ↔
      x ∈ (mergeManualEntry acc manual).1.map fun t => t.id := by
  unfold mergeManualEntry
  by_cases h1 : (manual.id.isEmpty || manual.arguments.isEmpty) = true
  · rw [if_pos h1]
    exact ⟨hnd, hseen⟩
  · rw [if_neg h1]
    by_cases h2 : manual.id ∈ acc.2
    · rw [if_pos h2]
      show ((overwriteExisting (targetOfManual manual) acc.1).map fun t => t.id).Nodup ∧
        ∀ x, x ∈ acc.2 ↔ x ∈ (overwriteExisting (targetOfManual manual) acc.1).map fun t => t.id
      rw [overwriteExisting_ids]
      exact ⟨hnd, hseen⟩
    · rw [if_neg h2]
      show ((acc.1 ++ [targetOfManual manual]).map fun t => t.id).Nodup ∧
        ∀ x, x ∈ manual.id :: acc.2 ↔ x ∈ (acc.1 ++ [targetOfManual manual]).map fun t => t.id
      rw [List.map_append]
      constructor
      · rw [List.nodup_append]
        refine ⟨hnd, by simp, ?_⟩
        intro a ha hb
        simp only [List.map_cons, List.map_nil, List.mem_singleton] at hb
        apply h2
        rw [hseen]
        rw [hb] at ha
        exact ha
      · intro x
        have e : (targetOfManual manual).id = manual.id := rfl
        rw [List.mem_cons, List.mem_append, hseen x, List.map_cons, List.map_nil,
          List.mem_singleton, e]
        exact Or.comm

theorem foldl_mergeManualEntry_invariant (manuals : List ManualEntry)
    (acc : List SshTarget × List QString)
    (hnd : (acc.1.map fun t => t.id).Nodup)
    (hseen : ∀ x, x ∈ acc.2 ↔ x ∈ acc.1.map fun t => t.id) :
    ((manuals.foldl mergeManualEntry acc).1.map fun t => t.id).Nodup ∧
    ∀ x, x ∈ (manuals.foldl mergeManualEntry acc).2 ↔
      x ∈ (manuals.foldl mergeManualEntry acc).1.map fun t => t.id := by
  induction manuals generalizing acc with
  | nil => exact ⟨hnd, hseen⟩
  | cons m ms ih =>
    obtain ⟨h1, h2⟩ := mergeManualEntry_invariant acc m hnd hseen
    exact ih _ h1 h2

theorem built_invariant (env : ReloadEnv) :
    ((((discoverHosts env.configFile env.knownHostsFile).map
        (targetOfDiscovered env.customUsernames)).map
        (applyCustomLabel env.customLabels)).map fun t => t.id).Nodup ∧
    ∀ x, x ∈ ((discoverHosts env.configFile env.knownHostsFile).map fun host => host.id).reverse ↔
      x ∈ (((discoverHosts env.configFile env.knownHostsFile).map
        (targetOfDiscovered env.customUsernames)).map
        (applyCustomLabel env.customLabels)).map fun t => t.id := by
  have e : ((((discoverHosts env.configFile env.knownHostsFile).map
        (targetOfDiscovered env.customUsernames)).map
        (applyCustomLabel env.customLabels)).map fun t => t.id)
      = (discoverHosts env.configFile env.knownHostsFile).map fun host => host.id := by
    rw [List.map_map, List.map_map]
    apply List.map_congr_left
    intro a _
    simp only [Function.comp]
    rw [applyCustomLabel_id]
    rfl
  rw [e]
  exact ⟨discoverHosts_ids_nodup _ _, fun x => List.mem_reverse⟩

theorem resolvedTarget_id (env : ReloadEnv) (cache0 : List (QString × QString))
    (t : SshTarget) : (resolvedTarget env cache0 t).id = t.id := rfl

/-- The snapshot of a reload, with the last loop written as a map. -/
theorem reloadHosts_targets_eq_map (env : ReloadEnv) (r : Runner)
    (hhome : env.homePath.isEmpty = false) :
    (reloadHosts env r).targets
      = sortByLabel env.localeAwareCompare
          ((env.manualEntries.foldl mergeManualEntry
              (((discoverHosts env.configFile env.knownHostsFile).map
                  (targetOfDiscovered env.customUsernames)).map
                  (applyCustomLabel env.customLabels),
                ((discoverHosts env.configFile env.knownHostsFile).map
                  fun host => host.id).reverse)).1.map (resolvedTarget env r.dnsCache)) := by
  rw [reloadHosts_targets env r hhome,
    (foldl_resolveTarget_eq_map env r.dnsCache _ ([], { r with dnsFailures := [] })
      (dnsConsistent_start env r)).1]
  rfl

theorem reloadHosts_ids_nodup (env : ReloadEnv) (r : Runner) :
    ((reloadHosts env r).targets.map fun t => t.id).Nodup := by
  by_cases hhome : env.homePath.isEmpty = true
  · have e : (reloadHosts env r).targets = [] := by
      unfold reloadHosts
      rw [if_pos hhome]
    rw [e]
    exact List.nodup_nil
  · rw [reloadHosts_targets_eq_map env r (by simpa using hhome)]
    refine ((sortByLabel_perm _ _).map _).nodup_iff.2 ?_
    rw [List.map_map]
    exact (foldl_mergeManualEntry_invariant env.manualEntries _ (built_invariant env).1
      (built_invariant env).2).1

/-- C28: after every reload, whatever the registry held before, no two targets
of the snapshot share an id (the list of the ids of the targets has no
duplicate); this includes inputs whose manual entries repeat an id or reuse
the id of a discovered host. -/
theorem reloadHosts_ids_distinct (env : ReloadEnv) (r : Runner) :
    ((reloadHosts env r).targets.map fun t => t.id).Nodup :=
  reloadHosts_ids_nodup env r


/-! ## The reload: idempotence -/

theorem dnsAnswer_congr (env : ReloadEnv) (cache0 cache1 : List (QString × QString))
    (h : ∀ ip, cache1.lookup ip = cache0.lookup ip ∨
      (cache0.lookup ip = none ∧ (freshLookup env ip).isSome = true ∧
        cache1.lookup ip = freshLookup env ip))
    (host : QString) : dnsAnswer env cache1 host = dnsAnswer env cache0 host := by
  unfold dnsAnswer
  split_ifs
  · rfl
  · cases hc : dnsIpCandidate env (normalizedHost host) with
    | none => rfl
    | some ip =>
      simp only []
      rcases h ip with e | ⟨e0, hsome, e1⟩
      · rw [e]
      · rw [e0, e1]
        cases hf : freshLookup env ip with
        | none => simp [hf] at hsome
        | some v => rfl

theorem reloadHosts_dnsCache (env : ReloadEnv) (r : Runner) :
    ∀ ip, (reloadHosts env r).dnsCache.lookup ip = r.dnsCache.lookup ip ∨
      (r.dnsCache.lookup ip = none ∧ (freshLookup env ip).isSome = true ∧
        (reloadHosts env r).dnsCache.lookup ip = freshLookup env ip) := by
  by_cases hhome : env.homePath.isEmpty = true
  · have e : (reloadHosts env r).dnsCache = r.dnsCache := by
      unfold reloadHosts
      rw [if_pos hhome]
    rw [e]
    exact fun _ => Or.inl rfl
  · have e : (reloadHosts env r).dnsCache
        = ((env.manualEntries.foldl mergeManualEntry
              (((discoverHosts env.configFile env.knownHostsFile).map
                  (targetOfDiscovered env.customUsernames)).map
                  (applyCustomLabel env.customLabels),
                ((discoverHosts env.configFile env.knownHostsFile).map
                  fun host => host.id).reverse)).1.foldl
            (resolveTarget env) ([], { r with dnsFailures := [] })).2.dnsCache := by
      unfold reloadHosts
      rw [if_neg hhome]
    rw [e]
    exact (foldl_resolveTarget_eq_map env r.dnsCache _ ([], { r with dnsFailures := [] })
      (dnsConsistent_start env r)).2.2

/-- C23: a reload is idempotent. For every registry state and every input (the
two files, the persisted settings and the answers of the lookup service), a
second reload over the same input right after the first leaves the list of
targets as the first reload produced it. -/
theorem reloadHosts_idempotent (env : ReloadEnv) (r : Runner) :
    (reloadHosts env (reloadHosts env r)).targets = (reloadHosts env r).targets := by
  by_cases hhome : env.homePath.isEmpty = true
  · have e : ∀ s : Runner, (reloadHosts env s).targets = [] := by
      intro s
      unfold reloadHosts
      rw [if_pos hhome]
    rw [e, e]
  · have hh : env.homePath.isEmpty = false := by simpa using hhome
    rw [reloadHosts_targets_eq_map env (reloadHosts env r) hh, reloadHosts_targets_eq_map env r hh]
    congr 1
    apply List.map_congr_left
    intro t _
    unfold resolvedTarget
    simp only []
    rw [dnsAnswer_congr env r.dnsCache (reloadHosts env r).dnsCache (reloadHosts_dnsCache env r)]

/-! ## The DNS caches across a reload: what is kept -/

theorem dnsAnswer_of_cached (env : ReloadEnv) (cache0 : List (QString × QString))
    (host ip name : QString) (hhost : (normalizedHost host).isEmpty = false)
    (hip : dnsIpCandidate env (normalizedHost host) = some ip)
    (hcache : cache0.lookup ip = some name) : dnsAnswer env cache0 host = name := by
  unfold dnsAnswer
  rw [if_neg (by rw [hhost]; decide), hip]
  simp only []
  rw [hcache]

theorem reloadHosts_failures_irrelevant (env : ReloadEnv) (r : Runner)
    (failures : List QString) (hhome : env.homePath.isEmpty = false) :
    reloadHosts env { r with dnsFailures := failures } = reloadHosts env r := by
  have hne : ¬ env.homePath.isEmpty = true := by rw [hhome]; decide
  unfold reloadHosts
  simp only [if_neg hne]

theorem reloadHosts_dnsFailures (env : ReloadEnv) (r : Runner)
    (hhome : env.homePath.isEmpty = false) :
    ∀ ip ∈ (reloadHosts env r).dnsFailures, freshLookup env ip = none := by
  have e : (reloadHosts env r).dnsFailures
      = ((env.manualEntries.foldl mergeManualEntry
            (((discoverHosts env.configFile env.knownHostsFile).map
                (targetOfDiscovered env.customUsernames)).map
                (applyCustomLabel env.customLabels),
              ((discoverHosts env.configFile env.knownHostsFile).map
                fun host => host.id).reverse)).1.foldl
          (resolveTarget env) ([], { r with dnsFailures := [] })).2.dnsFailures := by
    unfold reloadHosts
    rw [if_neg (by rw [hhome]; decide)]
  rw [e]
  exact (foldl_resolveTarget_eq_map env r.dnsCache _ ([], { r with dnsFailures := [] })
    (dnsConsistent_start env r)).2.1

/-- C18 as stated fails: the positive cache is not emptied. With the entry
`10.0.0.1 -> stale.example.org` cached before the reload and a lookup service
that fails for every address, the reload gives the target `10.0.0.1` the DNS
name `stale.example.org`; it comes from the old entry, not from a lookup of
this reload. The failure set is emptied and the old failure entry is gone. -/
theorem reloadHosts_keeps_positive_cache_counterexample :
    (reloadHosts
        { homePath := "/home/u".toList, configFile := some "Host 10.0.0.1\n".toList,
          knownHostsFile := none, customLabels := [], customUsernames := [],
          manualEntries := [], terminalPreference := ⟨[], []⟩,
          setAddress := fun s => s == "10.0.0.1".toList,
          fromName := fun _ => none,
          localeAwareCompare := fun _ _ => 0 }
        { Runner.initial with
          dnsCache := [("10.0.0.1".toList, "stale.example.org".toList)],
          dnsFailures := ["10.9.9.9".toList] }).targets.map (fun t => (t.label, t.dnsName))
      = [("10.0.0.1".toList, "stale.example.org".toList)] ∧
    (reloadHosts
        { homePath := "/home/u".toList, configFile := some "Host 10.0.0.1\n".toList,
          knownHostsFile := none, customLabels := [], customUsernames := [],
          manualEntries := [], terminalPreference := ⟨[], []⟩,
          setAddress := fun s => s == "10.0.0.1".toList,
          fromName := fun _ => none,
          localeAwareCompare := fun _ _ => 0 }
        { Runner.initial with
          dnsCache := [("10.0.0.1".toList, "stale.example.org".toList)],
          dnsFailures := ["10.9.9.9".toList] }).dnsFailures = [] := by
  decide!

/-- C18, amended: a reload never empties the positive DNS cache. Every entry
cached before the reload is still cached after it, and a target whose address
was cached before gets the cached name; every non-empty `dnsName` of the new
snapshot is the cleaned answer of the lookup service for some address or the
value of an entry cached before. A reload that finds the home directory
empties the negative (failure) cache only: the failures recorded before have
no influence on the state it leaves, and the failure set it leaves holds only
addresses whose lookup fails. A reload that does not find the home directory
returns early and leaves both caches as they were. -/
theorem reloadHosts_dns_caches (env : ReloadEnv) (r : Runner) :
    (∀ ip name, r.dnsCache.lookup ip = some name →
      (reloadHosts env r).dnsCache.lookup ip = some name) ∧
    (∀ t ∈ (reloadHosts env r).targets, ∀ ip name,
      (normalizedHost t.hostName).isEmpty = false →
      dnsIpCandidate env (normalizedHost t.hostName) = some ip →
      r.dnsCache.lookup ip = some name → t.dnsName = name) ∧
    (∀ t ∈ (reloadHosts env r).targets, t.dnsName ≠ [] →
      (∃ ip, (ip, t.dnsName) ∈ r.dnsCache) ∨
      ∃ ip name, env.fromName ip = some name ∧ t.dnsName = cleanedAnswer name) ∧
    (∀ failures : List QString,
      (reloadHosts env { r with dnsFailures := failures }).targets
        = (reloadHosts env r).targets) ∧
    (env.homePath.isEmpty = false →
      (∀ failures : List QString,
        reloadHosts env { r with dnsFailures := failures } = reloadHosts env r) ∧
      ∀ ip ∈ (reloadHosts env r).dnsFailures, freshLookup env ip = none) ∧
    (env.homePath.isEmpty = true →
      (reloadHosts env r).dnsCache = r.dnsCache ∧
      (reloadHosts env r).dnsFailures = r.dnsFailures) := by
  refine ⟨?_, ?_, ?_, ?_, ?_, ?_⟩
  · intro ip name h
    rcases reloadHosts_dnsCache env r ip with e | ⟨e0, _, _⟩
    · rw [e, h]
    · rw [e0] at h
      exact absurd h (by simp)
  · intro t ht ip name hhost hip hcache
    by_cases hhome : env.homePath.isEmpty = true
    · have e : (reloadHosts env r).targets = [] := by
        unfold reloadHosts
        rw [if_pos hhome]
      rw [e] at ht
      simp at ht
    · rw [reloadHosts_targets_eq_map env r (by simpa using hhome)] at ht
      have hmem := (sortByLabel_perm _ _).mem_iff.1 ht
      obtain ⟨t0, _, rfl⟩ := List.mem_map.1 hmem
      exact dnsAnswer_of_cached env r.dnsCache _ ip name hhost hip hcache
  · intro t ht hne
    by_cases hhome : env.homePath.isEmpty = true
    · have e : (reloadHosts env r).targets = [] := by
        unfold reloadHosts
        rw [if_pos hhome]
      rw [e] at ht
      simp at ht
    · rw [reloadHosts_targets env r (by simpa using hhome)] at ht
      have hmem := mem_of_mem_sortByLabel _ _ _ ht
      rcases foldl_resolveTarget_provenance env r _ ([], { r with dnsFailures := [] })
          (by intro x hx; simp at hx) (fun p hp => Or.inl hp) t hmem with h | h
      · exact absurd h hne
      · exact h
  · intro failures
    unfold reloadHosts
    split_ifs <;> rfl
  · intro hhome
    exact ⟨fun failures => reloadHosts_failures_irrelevant env r failures hhome,
      reloadHosts_dnsFailures env r hhome⟩
  · intro hhome
    unfold reloadHosts
    rw [if_pos hhome]
    exact ⟨rfl, rfl⟩

/-- Witness of the amended C18: the entry `10.0.0.1 -> stale.example.org` is
cached before the reload, the address `10.9.9.9` is in the failure set, and
the lookup service fails for every address. After the reload the entry is
still cached, the target `10.0.0.1` carries the cached name, and the state
is the one a reload without the old failure leaves. -/
theorem reloadHosts_dns_caches_witness :
    (reloadHosts
        { homePath := "/home/u".toList, configFile := some "Host 10.0.0.1\n".toList,
          knownHostsFile := none, customLabels := [], customUsernames := [],
          manualEntries := [], terminalPreference := ⟨[], []⟩,
          setAddress := fun s => s == "10.0.0.1".toList,
          fromName := fun _ => none,
          localeAwareCompare := fun _ _ => 0 }
        { Runner.initial with
          dnsCache := [("10.0.0.1".toList, "stale.example.org".toList)],
          dnsFailures := ["10.9.9.9".toList] }).dnsCache.lookup "10.0.0.1".toList
      = some "stale.example.org".toList ∧
    (reloadHosts
        { homePath := "/home/u".toList, configFile := some "Host 10.0.0.1\n".toList,
          knownHostsFile := none, customLabels := [], customUsernames := [],
          manualEntries := [], terminalPreference := ⟨[], []⟩,
          setAddress := fun s => s == "10.0.0.1".toList,
          fromName := fun _ => none,
          localeAwareCompare := fun _ _ => 0 }
        { Runner.initial with
          dnsCache := [("10.0.0.1".toList, "stale.example.org".toList)],
          dnsFailures := ["10.9.9.9".toList] }).targets.map (fun t => (t.hostName, t.dnsName))
      = [("10.0.0.1".toList, "stale.example.org".toList)] ∧
    reloadHosts
        { homePath := "/home/u".toList, configFile := some "Host 10.0.0.1\n".toList,
          knownHostsFile := none, customLabels := [], customUsernames := [],
          manualEntries := [], terminalPreference := ⟨[], []⟩,
          setAddress := fun s => s == "10.0.0.1".toList,
          fromName := fun _ => none,
          localeAwareCompare := fun _ _ => 0 }
        { { Runner.initial with
            dnsCache := [("10.0.0.1".toList, "stale.example.org".toList)],
            dnsFailures := ["10.9.9.9".toList] } with dnsFailures := [] }
      = reloadHosts
        { homePath := "/home/u".toList, configFile := some "Host 10.0.0.1\n".toList,
          knownHostsFile := none, customLabels := [], customUsernames := [],
          manualEntries := [], terminalPreference := ⟨[], []⟩,
          setAddress := fun s => s == "10.0.0.1".toList,
          fromName := fun _ => none,
          localeAwareCompare := fun _ _ => 0 }
        { Runner.initial with
          dnsCache := [("10.0.0.1".toList, "stale.example.org".toList)],
          dnsFailures := ["10.9.9.9".toList] } :=
  ⟨(reloadHosts_dns_caches
      { homePath := "/home/u".toList, configFile := some "Host 10.0.0.1\n".toList,
        knownHostsFile := none, customLabels := [], customUsernames := [],
        manualEntries := [], terminalPreference := ⟨[], []⟩,
        setAddress := fun s => s == "10.0.0.1".toList,
        fromName := fun _ => none,
        localeAwareCompare := fun _ _ => 0 }
      { Runner.initial with
        dnsCache := [("10.0.0.1".toList, "stale.example.org".toList)],
        dnsFailures := ["10.9.9.9".toList] }).1 "10.0.0.1".toList "stale.example.org".toList
      (by decide),
    by decide!,
    ((reloadHosts_dns_caches
      { homePath := "/home/u".toList, configFile := some "Host 10.0.0.1\n".toList,
        knownHostsFile := none, customLabels := [], customUsernames := [],
        manualEntries := [], terminalPreference := ⟨[], []⟩,
        setAddress := fun s => s == "10.0.0.1".toList,
        fromName := fun _ => none,
        localeAwareCompare := fun _ _ => 0 }
      { Runner.initial with
        dnsCache := [("10.0.0.1".toList, "stale.example.org".toList)],
        dnsFailures := ["10.9.9.9".toList] }).2.2.2.2.1 (by decide)).1 []⟩

/-! ## The reload: manual entries -/

theorem overwriteExisting_hit (entry : SshTarget) (l : List SshTarget)
    (h : entry.id ∈ l.map fun t => t.id) :
    ∃ t ∈ overwriteExisting entry l, t.id = entry.id ∧ t.label = entry.label ∧
      t.description = entry.description ∧ t.sshArguments = entry.sshArguments ∧
      t.isManual = true := by
  induction l with
  | nil => simp at h
  | cons x xs ih =>
    unfold overwriteExisting
    by_cases hx : x.id = entry.id
    · rw [if_pos hx]
      exact ⟨_, List.mem_cons_self _ _, hx, rfl, rfl, rfl, rfl⟩
    · rw [if_neg hx]
      have h2 : entry.id ∈ xs.map fun t => t.id := by
        rw [List.map_cons, List.mem_cons] at h
        rcases h with e | e
        · exact absurd e.symm hx
        · exact e
      obtain ⟨t, ht, hp⟩ := ih h2
      exact ⟨t, List.mem_cons_of_mem _ ht, hp⟩

theorem overwriteExisting_other (entry t : SshTarget) (l : List SshTarget)
    (hne : t.id ≠ entry.id) (h : t ∈ l) : t ∈ overwriteExisting entry l := by
  induction l with
  | nil => simp at h
  | cons x xs ih =>
    unfold overwriteExisting
    by_cases hx : x.id = entry.id
    · rw [if_pos hx]
      rcases List.mem_cons.1 h with e | e
      · rw [e] at hne; exact absurd hx hne
      · exact List.mem_cons_of_mem _ e
    · rw [if_neg hx]
      rcases List.mem_cons.1 h with e | e
      · rw [e]; exact List.mem_cons_self _ _
      · exact List.mem_cons_of_mem _ (ih e)

theorem mergeManualEntry_other (acc : List SshTarget × List QString) (x : ManualEntry)
    (t : SshTarget) (hne : x.id ≠ t.id) (h : t ∈ acc.1) : t ∈ (mergeManualEntry acc x).1 := by
  unfold mergeManualEntry
  split_ifs
  · exact h
  · exact overwriteExisting_other _ t _ (fun e => hne e.symm) h
  · exact List.mem_append_left _ h

theorem foldl_mergeManualEntry_other (post : List ManualEntry)
    (acc : List SshTarget × List QString) (t : SshTarget)
    (hne : ∀ x ∈ post, x.id ≠ t.id) (h : t ∈ acc.1) :
    t ∈ (post.foldl mergeManualEntry acc).1 := by
  induction post generalizing acc with
  | nil => exact h
  | cons x xs ih =>
    rw [List.foldl_cons]
    exact ih _ (fun y hy => hne y (List.mem_cons_of_mem _ hy))
      (mergeManualEntry_other acc x t (hne x (List.mem_cons_self _ _)) h)

theorem mergeManualEntry_own (acc : List SshTarget × List QString) (m : ManualEntry)
    (hseen : ∀ x, x ∈ acc.2 ↔ x ∈ acc.1.map fun t => t.id)
    (hid : m.id ≠ []) (hargs : m.arguments ≠ []) :
    ∃ t ∈ (mergeManualEntry acc m).1, t.id = m.id ∧ t.label = (targetOfManual m).label ∧
      t.description = (targetOfManual m).description ∧ t.sshArguments = m.arguments ∧
      t.isManual = true := by
  unfold mergeManualEntry
  have h1 : ¬ (m.id.isEmpty || m.arguments.isEmpty) = true := by
    have e1 : m.id.isEmpty = false := by cases h : m.id with
      | nil => exact absurd h hid
      | cons _ _ => rfl
    have e2 : m.arguments.isEmpty = false := by cases h : m.arguments with
      | nil => exact absurd h hargs
      | cons _ _ => rfl
    rw [e1, e2]
    decide
  rw [if_neg h1]
  by_cases h2 : m.id ∈ acc.2
  · rw [if_pos h2]
    exact overwriteExisting_hit (targetOfManual m) acc.1 ((hseen _).1 h2)
  · rw [if_neg h2]
    exact ⟨targetOfManual m, List.mem_append_right _ (List.mem_singleton_self _),
      rfl, rfl, rfl, rfl, rfl⟩

theorem reloadHosts_manual_last (env : ReloadEnv) (r : Runner)
    (before after : List ManualEntry) (m : ManualEntry)
    (hhome : env.homePath.isEmpty = false)
    (hm : env.manualEntries = before ++ m :: after)
    (hid : m.id ≠ []) (hargs : m.arguments ≠ [])
    (hlast : ∀ x ∈ after, x.id ≠ m.id) :
    ∃ t, (reloadHosts env r).targets.filter (fun t => decide (t.id = m.id)) = [t] ∧
      t.label = (if m.name.isEmpty then m.id else m.name) ∧
      t.description =
        (if m.description.isEmpty then "Manual entry".toList else m.description) ∧
      t.sshArguments = m.arguments ∧ t.isManual = true := by
  have hnd := reloadHosts_ids_nodup env r
  rw [reloadHosts_targets_eq_map env r hhome] at hnd ⊢
  rw [hm, List.foldl_append, List.foldl_cons] at hnd ⊢
  obtain ⟨_, hseen⟩ := foldl_mergeManualEntry_invariant before
    (((discoverHosts env.configFile env.knownHostsFile).map
        (targetOfDiscovered env.customUsernames)).map
        (applyCustomLabel env.customLabels),
      ((discoverHosts env.configFile env.knownHostsFile).map
        fun host => host.id).reverse) (built_invariant env).1 (built_invariant env).2
  obtain ⟨t0, ht0, h1, h2, h3, h4, h5⟩ := mergeManualEntry_own _ m hseen hid hargs
  have ht1 := foldl_mergeManualEntry_other after _ t0 (fun x hx => by rw [h1]; exact hlast x hx)
    ht0
  have ht2 : resolvedTarget env r.dnsCache t0 ∈ sortByLabel env.localeAwareCompare
      ((after.foldl mergeManualEntry (mergeManualEntry (before.foldl mergeManualEntry
        (((discoverHosts env.configFile env.knownHostsFile).map
            (targetOfDiscovered env.customUsernames)).map
            (applyCustomLabel env.customLabels),
          ((discoverHosts env.configFile env.knownHostsFile).map
            fun host => host.id).reverse)) m)).1.map (resolvedTarget env r.dnsCache)) :=
    (sortByLabel_perm _ _).mem_iff.2 (List.mem_map_of_mem _ ht1)
  refine ⟨resolvedTarget env r.dnsCache t0, ?_, h2, h3, h4, h5⟩
  apply filter_eq_singleton_of_unique _ _ _ (List.Nodup.of_map _ hnd) ht2
  intro y hy
  rw [decide_eq_true_eq]
  constructor
  · intro hyid
    exact List.inj_on_of_nodup_map hnd hy ht2 (by rw [hyid]; exact h1.symm)
  · rintro rfl
    exact h1

theorem exists_last_with_id (l : List ManualEntry) (i : QString)
    (h : ∃ y ∈ l, y.id = i) :
    ∃ before m after, l = before ++ m :: after ∧ m.id = i ∧ ∀ x ∈ after, x.id ≠ i := by
  induction l with
  | nil =>
    obtain ⟨y, hy, _⟩ := h
    simp at hy
  | cons x xs ih =>
    by_cases hx : ∃ y ∈ xs, y.id = i
    · obtain ⟨before, m, after, e, hm, hafter⟩ := ih hx
      exact ⟨x :: before, m, after, by rw [e]; rfl, hm, hafter⟩
    · obtain ⟨y, hy, hyi⟩ := h
      have hxi : x.id = i := by
        rcases List.mem_cons.1 hy with e | e
        · rw [← e]; exact hyi
        · exact absurd ⟨y, e, hyi⟩ hx
      exact ⟨[], x, xs, rfl, hxi, fun z hz hzi => hx ⟨z, hz, hzi⟩⟩

theorem mem_loadManualEntries (ids : QStringList) (group : QString → ManualGroup)
    (x : ManualEntry) (h : x ∈ loadManualEntries ids group) :
    x = ⟨x.id, (group x.id).name, (group x.id).description,
      normalizedArguments (group x.id).arguments⟩ ∧ x.arguments ≠ [] := by
  unfold loadManualEntries at h
  obtain ⟨id, _, hsome⟩ := List.mem_filterMap.1 h
  by_cases hc : (!(trimmed (group id).name).isEmpty &&
      !(normalizedArguments (group id).arguments).isEmpty) = true
  · rw [if_pos hc] at hsome
    have e := Option.some.inj hsome
    subst e
    refine ⟨rfl, ?_⟩
    intro hnil
    simp only [Bool.and_eq_true, Bool.not_eq_true', List.isEmpty_eq_false] at hc
    show False
    exact hc.2 hnil
  · rw [if_neg hc] at hsome
    exact absurd hsome (by simp)

/-- C22 as stated fails for the description: the config declares `web`, and a
manual entry as `loadManualEntries` returns it, with an empty description,
carries the id of that host. The snapshot holds one target with the id; its
label and arguments are those of the manual entry, but its description is
the text `Manual entry`, not the (empty) description of the manual entry. -/
theorem reloadHosts_manual_description_counterexample :
    loadManualEntries [entryIdForArguments ["web".toList]]
        (fun _ => ⟨"Web box".toList,
          ["-p".toList, "2222".toList, "admin@web.example.org".toList], []⟩)
      = [⟨entryIdForArguments ["web".toList], "Web box".toList, [],
          ["-p".toList, "2222".toList, "admin@web.example.org".toList]⟩] ∧
    (reloadHosts
        { homePath := "/home/u".toList, configFile := some "Host web\n".toList,
          knownHostsFile := none, customLabels := [], customUsernames := [],
          manualEntries :=
            loadManualEntries [entryIdForArguments ["web".toList]]
              (fun _ => ⟨"Web box".toList,
                ["-p".toList, "2222".toList, "admin@web.example.org".toList], []⟩),
          terminalPreference := ⟨[], []⟩,
          setAddress := fun _ => false, fromName := fun _ => none,
          localeAwareCompare := fun _ _ => 0 }
        Runner.initial).targets.map
        (fun t => (decide (t.id = entryIdForArguments ["web".toList]), t.label, t.description,
          t.sshArguments, t.isManual))
      = [(true, "Web box".toList, "Manual entry".toList,
          ["-p".toList, "2222".toList, "admin@web.example.org".toList], true)] := by
  decide!

/-- C22, amended: let the manual entries be those `loadManualEntries` returns,
and let one of them have a non-empty id. Then, whether or not a discovered
host has that id, the snapshot of a reload holds exactly one target with the
id; its label is the manual name (the id when the name is empty), its
description is the manual description, or the text `Manual entry` when the
manual description is empty, its sshArguments are the manual arguments and
isManual is true, whatever the custom labels and custom user names are. -/
theorem reloadHosts_manual_overrides (env : ReloadEnv) (r : Runner)
    (ids : QStringList) (group : QString → ManualGroup) (m : ManualEntry)
    (hhome : env.homePath.isEmpty = false)
    (hload : env.manualEntries = loadManualEntries ids group)
    (hm : m ∈ env.manualEntries) (hid : m.id ≠ []) :
    ∃ t, (reloadHosts env r).targets.filter (fun t => decide (t.id = m.id)) = [t] ∧
      t.label = (if m.name.isEmpty then m.id else m.name) ∧
      t.description =
        (if m.description.isEmpty then "Manual entry".toList else m.description) ∧
      t.sshArguments = m.arguments ∧ t.isManual = true := by
  obtain ⟨before, m2, after, hsplit, hm2, hafter⟩ :=
    exists_last_with_id env.manualEntries m.id ⟨m, hm, rfl⟩
  have hm2mem : m2 ∈ env.manualEntries := by
    rw [hsplit]
    exact List.mem_append_right _ (List.mem_cons_self _ _)
  rw [hload] at hm hm2mem
  obtain ⟨e1, hargs⟩ := mem_loadManualEntries ids group m hm
  obtain ⟨e2, _⟩ := mem_loadManualEntries ids group m2 hm2mem
  have hmm : m2 = m := by
    rw [e1, e2, hm2]
  rw [hmm] at hsplit
  exact reloadHosts_manual_last env r before after m hhome hsplit hid hargs hafter

/-- Witness of the amended C22: the config declares `web`, which has a custom
label and a custom user name, and a manual entry loaded from the config file
carries the id of that host. The snapshot holds one target with the id, and
it shows the manual entry. -/
theorem reloadHosts_manual_overrides_witness :
    (reloadHosts
        { homePath := "/home/u".toList, configFile := some "Host web\n".toList,
          knownHostsFile := none,
          customLabels := [(entryIdForArguments ["web".toList], "Custom".toList)],
          customUsernames := [(entryIdForArguments ["web".toList], "carol".toList)],
          manualEntries :=
            loadManualEntries [entryIdForArguments ["web".toList]]
              (fun _ => ⟨"Web box".toList,
                ["-p".toList, " 2222".toList, "admin@web.example.org".toList],
                "The web box".toList⟩),
          terminalPreference := ⟨[], []⟩,
          setAddress := fun _ => false, fromName := fun _ => none,
          localeAwareCompare := fun _ _ => 0 }
        Runner.initial).targets.map
        (fun t => (decide (t.id = entryIdForArguments ["web".toList]), t.label, t.description,
          t.sshArguments, t.isManual))
      = [(true, "Web box".toList, "The web box".toList,
          ["-p".toList, "2222".toList, "admin@web.example.org".toList], true)] ∧
    ∃ t,
      (reloadHosts
        { homePath := "/home/u".toList, configFile := some "Host web\n".toList,
          knownHostsFile := none,
          customLabels := [(entryIdForArguments ["web".toList], "Custom".toList)],
          customUsernames := [(entryIdForArguments ["web".toList], "carol".toList)],
          manualEntries :=
            loadManualEntries [entryIdForArguments ["web".toList]]
              (fun _ => ⟨"Web box".toList,
                ["-p".toList, " 2222".toList, "admin@web.example.org".toList],
                "The web box".toList⟩),
          terminalPreference := ⟨[], []⟩,
          setAddress := fun _ => false, fromName := fun _ => none,
          localeAwareCompare := fun _ _ => 0 }
        Runner.initial).targets.filter
          (fun t => decide (t.id = entryIdForArguments ["web".toList])) = [t] ∧
      t.label = "Web box".toList ∧ t.description = "The web box".toList ∧
      t.sshArguments = ["-p".toList, "2222".toList, "admin@web.example.org".toList] ∧
      t.isManual = true :=
  ⟨by decide!,
    reloadHosts_manual_overrides
      { homePath := "/home/u".toList, configFile := some "Host web\n".toList,
        knownHostsFile := none,
        customLabels := [(entryIdForArguments ["web".toList], "Custom".toList)],
        customUsernames := [(entryIdForArguments ["web".toList], "carol".toList)],
        manualEntries :=
          loadManualEntries [entryIdForArguments ["web".toList]]
            (fun _ => ⟨"Web box".toList,
              ["-p".toList, " 2222".toList, "admin@web.example.org".toList],
              "The web box".toList⟩),
        terminalPreference := ⟨[], []⟩,
        setAddress := fun _ => false, fromName := fun _ => none,
        localeAwareCompare := fun _ _ => 0 }
      Runner.initial [entryIdForArguments ["web".toList]]
      (fun _ => ⟨"Web box".toList,
        ["-p".toList, " 2222".toList, "admin@web.example.org".toList],
        "The web box".toList⟩)
      ⟨entryIdForArguments ["web".toList], "Web box".toList, "The web box".toList,
        ["-p".toList, "2222".toList, "admin@web.example.org".toList]⟩
      (by decide) rfl (by decide!) (by decide!)⟩

/-! ## The DNS echo guard -/

theorem resolveDnsNameForHost_clean (env : ReloadEnv) (s : Runner) (host : QString)
    (hclean : ∀ p ∈ s.dnsCache, p.2 ≠ [] ∧ p.2 ≠ p.1 ∧ env.setAddress p.2 = false) :
    ((resolveDnsNameForHost env s host).1 ≠ [] →
      ∃ ip, dnsIpCandidate env (normalizedHost host) = some ip ∧
        (resolveDnsNameForHost env s host).1 ≠ ip ∧
        env.setAddress (resolveDnsNameForHost env s host).1 = false) ∧
    ∀ p ∈ (resolveDnsNameForHost env s host).2.dnsCache,
      p.2 ≠ [] ∧ p.2 ≠ p.1 ∧ env.setAddress p.2 = false := by
  unfold resolveDnsNameForHost
  by_cases h1 : (normalizedHost host).isEmpty = true
  · rw [if_pos h1]
    exact ⟨fun h => absurd rfl h, hclean⟩
  · rw [if_neg h1]
    cases hc : dnsIpCandidate env (normalizedHost host) with
    | none => exact ⟨fun h => absurd rfl h, hclean⟩
    | some ip =>
      simp only []
      by_cases h2 : (s.dnsCache.lookup ip).isSome = true
      · rw [if_pos h2]
        refine ⟨fun _ => ⟨ip, rfl, ?_⟩, hclean⟩
        obtain ⟨_, hb, hc⟩ := hclean _ (hashValue_mem_of_isSome _ _ h2)
        exact ⟨hb, hc⟩
      · rw [if_neg h2]
        by_cases h3 : ip ∈ s.dnsFailures
        · rw [if_pos h3]
          exact ⟨fun h => absurd rfl h, hclean⟩
        · rw [if_neg h3]
          cases hn : env.fromName ip with
          | none => exact ⟨fun h => absurd rfl h, hclean⟩
          | some hostName =>
            simp only []
            by_cases h4 : (cleanedAnswer hostName).isEmpty = true ∨ cleanedAnswer hostName = ip
            · rw [if_pos h4]
              exact ⟨fun h => absurd rfl h, hclean⟩
            · rw [if_neg h4]
              by_cases h5 : env.setAddress (cleanedAnswer hostName) = true
              · rw [if_pos h5]
                exact ⟨fun h => absurd rfl h, hclean⟩
              · rw [if_neg h5]
                have hne : cleanedAnswer hostName ≠ [] := by
                  intro e
                  apply h4
                  left
                  rw [e]
                  rfl
                have hip : cleanedAnswer hostName ≠ ip := fun e => h4 (Or.inr e)
                have hset : env.setAddress (cleanedAnswer hostName) = false := by
                  simpa using h5
                refine ⟨fun _ => ⟨ip, rfl, hip, hset⟩, ?_⟩
                intro p hp
                rcases List.mem_cons.1 hp with e | hp
                · rw [e]
                  exact ⟨hne, hip, hset⟩
                · exact hclean p hp

theorem foldl_dnsStep_clean (env : ReloadEnv) (events : List (Option QString)) (s : Runner)
    (hclean : ∀ p ∈ s.dnsCache, p.2 ≠ [] ∧ p.2 ≠ p.1 ∧ env.setAddress p.2 = false) :
    ∀ p ∈ (events.foldl (dnsStep env) s).dnsCache,
      p.2 ≠ [] ∧ p.2 ≠ p.1 ∧ env.setAddress p.2 = false := by
  induction events generalizing s with
  | nil => exact hclean
  | cons e es ih =>
    rw [List.foldl_cons]
    apply ih
    cases e with
    | none => exact hclean
    | some host => exact (resolveDnsNameForHost_clean env s host hclean).2

theorem resolveDnsNameForHost_failure (env : ReloadEnv) (s : Runner) (host ip : QString)
    (hhost : (normalizedHost host).isEmpty = false)
    (hip : dnsIpCandidate env (normalizedHost host) = some ip)
    (hcache : s.dnsCache.lookup ip = none) (hfail : ip ∉ s.dnsFailures)
    (hbad : env.fromName ip = none ∨
      ∃ name, env.fromName ip = some name ∧
        (cleanedAnswer name = [] ∨ cleanedAnswer name = ip ∨
          env.setAddress (cleanedAnswer name) = true)) :
    (resolveDnsNameForHost env s host).1 = [] ∧
    ip ∈ (resolveDnsNameForHost env s host).2.dnsFailures := by
  unfold resolveDnsNameForHost
  rw [if_neg (by rw [hhost]; decide), hip]
  simp only []
  rw [if_neg (by rw [hcache]; decide), if_neg hfail]
  rcases hbad with hn | ⟨name, hn, hbad⟩
  · rw [hn]
    exact ⟨rfl, List.mem_cons_self _ _⟩
  · rw [hn]
    simp only []
    by_cases h4 : (cleanedAnswer name).isEmpty = true ∨ cleanedAnswer name = ip
    · rw [if_pos h4]
      exact ⟨rfl, List.mem_cons_self _ _⟩
    · rw [if_neg h4]
      have h5 : env.setAddress (cleanedAnswer name) = true := by
        rcases hbad with e | e | e
        · exact absurd (Or.inl (by rw [e]; rfl)) h4
        · exact absurd (Or.inr e) h4
        · exact e
      rw [if_pos h5]
      exact ⟨rfl, List.mem_cons_self _ _⟩

/-- C26: the DNS echo guard. Take any runner whose two caches are empty and
let any sequence of calls of `resolveDnsNameForHost` and of clearings of the
failure set act on it. In the state reached, for every host: a non-empty
result of `resolveDnsNameForHost` belongs to a literal address that was
looked up for the host, differs from that address and does not itself parse
as an address; and when the lookup runs for the address (the host is not
blank, the address is in neither cache) and errors, gives an empty name,
echoes the address or gives an address, the result is the empty name and the
address is in the failure set afterwards. -/
theorem resolveDnsNameForHost_echo_guard (env : ReloadEnv) (r0 : Runner)
    (events : List (Option QString)) (host : QString) :
    ((resolveDnsNameForHost env
        (events.foldl (dnsStep env) { r0 with dnsCache := [], dnsFailures := [] }) host).1 ≠ [] →
      ∃ ip, dnsIpCandidate env (normalizedHost host) = some ip ∧
        (resolveDnsNameForHost env
          (events.foldl (dnsStep env) { r0 with dnsCache := [], dnsFailures := [] }) host).1
          ≠ ip ∧
        env.setAddress (resolveDnsNameForHost env
          (events.foldl (dnsStep env) { r0 with dnsCache := [], dnsFailures := [] }) host).1
          = false) ∧
    ∀ ip, (normalizedHost host).isEmpty = false →
      dnsIpCandidate env (normalizedHost host) = some ip →
      (events.foldl (dnsStep env)
        { r0 with dnsCache := [], dnsFailures := [] }).dnsCache.lookup ip = none →
      ip ∉ (events.foldl (dnsStep env)
        { r0 with dnsCache := [], dnsFailures := [] }).dnsFailures →
      (env.fromName ip = none ∨
        ∃ name, env.fromName ip = some name ∧
          (cleanedAnswer name = [] ∨ cleanedAnswer name = ip ∨
            env.setAddress (cleanedAnswer name) = true)) →
      (resolveDnsNameForHost env
        (events.foldl (dnsStep env) { r0 with dnsCache := [], dnsFailures := [] }) host).1 = [] ∧
      ip ∈ (resolveDnsNameForHost env
        (events.foldl (dnsStep env)
          { r0 with dnsCache := [], dnsFailures := [] }) host).2.dnsFailures :=
  ⟨(resolveDnsNameForHost_clean env _ host
      (foldl_dnsStep_clean env events _ (by intro p hp; simp at hp))).1,
    fun ip h1 h2 h3 h4 h5 => resolveDnsNameForHost_failure env _ host ip h1 h2 h3 h4 h5⟩

/-- Witness of C26: the lookup service answers `web.lan.` for `192.168.1.5`
and echoes every other address. After a first call for `192.168.1.5`, the
host `admin@192.168.1.5` gets the name `web.lan`, which is not the address
and does not parse as one; the host `10.0.0.9`, whose lookup echoes the
address, gets the empty name and its address enters the failure set. -/
theorem resolveDnsNameForHost_echo_guard_witness :
    (resolveDnsNameForHost
      { homePath := "/home/u".toList, configFile := none, knownHostsFile := none,
        customLabels := [], customUsernames := [], manualEntries := [],
        terminalPreference := ⟨[], []⟩,
        setAddress := fun s => s == "192.168.1.5".toList || s == "10.0.0.9".toList,
        fromName := fun s => if s == "192.168.1.5".toList then some "web.lan.".toList else some s,
        localeAwareCompare := fun _ _ => 0 }
      ([some "192.168.1.5".toList].foldl
        (dnsStep
          { homePath := "/home/u".toList, configFile := none, knownHostsFile := none,
            customLabels := [], customUsernames := [], manualEntries := [],
            terminalPreference := ⟨[], []⟩,
            setAddress := fun s => s == "192.168.1.5".toList || s == "10.0.0.9".toList,
            fromName := fun s =>
              if s == "192.168.1.5".toList then some "web.lan.".toList else some s,
            localeAwareCompare := fun _ _ => 0 })
        { Runner.initial with dnsCache := [], dnsFailures := [] })
      "admin@192.168.1.5".toList).1 = "web.lan".toList ∧
    ((resolveDnsNameForHost
      { homePath := "/home/u".toList, configFile := none, knownHostsFile := none,
        customLabels := [], customUsernames := [], manualEntries := [],
        terminalPreference := ⟨[], []⟩,
        setAddress := fun s => s == "192.168.1.5".toList || s == "10.0.0.9".toList,
        fromName := fun s => if s == "192.168.1.5".toList then some "web.lan.".toList else some s,
        localeAwareCompare := fun _ _ => 0 }
      ([some "192.168.1.5".toList].foldl
        (dnsStep
          { homePath := "/home/u".toList, configFile := none, knownHostsFile := none,
            customLabels := [], customUsernames := [], manualEntries := [],
            terminalPreference := ⟨[], []⟩,
            setAddress := fun s => s == "192.168.1.5".toList || s == "10.0.0.9".toList,
            fromName := fun s =>
              if s == "192.168.1.5".toList then some "web.lan.".toList else some s,
            localeAwareCompare := fun _ _ => 0 })
        { Runner.initial with dnsCache := [], dnsFailures := [] })
      "10.0.0.9".toList).1 = [] ∧
    "10.0.0.9".toList ∈ (resolveDnsNameForHost
      { homePath := "/home/u".toList, configFile := none, knownHostsFile := none,
        customLabels := [], customUsernames := [], manualEntries := [],
        terminalPreference := ⟨[], []⟩,
        setAddress := fun s => s == "192.168.1.5".toList || s == "10.0.0.9".toList,
        fromName := fun s => if s == "192.168.1.5".toList then some "web.lan.".toList else some s,
        localeAwareCompare := fun _ _ => 0 }
      ([some "192.168.1.5".toList].foldl
        (dnsStep
          { homePath := "/home/u".toList, configFile := none, knownHostsFile := none,
            customLabels := [], customUsernames := [], manualEntries := [],
            terminalPreference := ⟨[], []⟩,
            setAddress := fun s => s == "192.168.1.5".toList || s == "10.0.0.9".toList,
            fromName := fun s =>
              if s == "192.168.1.5".toList then some "web.lan.".toList else some s,
            localeAwareCompare := fun _ _ => 0 })
        { Runner.initial with dnsCache := [], dnsFailures := [] })
      "10.0.0.9".toList).2.dnsFailures) :=
  ⟨by decide,
    (resolveDnsNameForHost_echo_guard
      { homePath := "/home/u".toList, configFile := none, knownHostsFile := none,
        customLabels := [], customUsernames := [], manualEntries := [],
        terminalPreference := ⟨[], []⟩,
        setAddress := fun s => s == "192.168.1.5".toList || s == "10.0.0.9".toList,
        fromName := fun s => if s == "192.168.1.5".toList then some "web.lan.".toList else some s,
        localeAwareCompare := fun _ _ => 0 }
      Runner.initial [some "192.168.1.5".toList] "10.0.0.9".toList).2 "10.0.0.9".toList
      (by decide) (by decide) (by decide) (by decide)
      (Or.inr ⟨"10.0.0.9".toList, by decide, Or.inr (Or.inl (by decide))⟩)⟩


/-! ## The subsequence score -/

theorem indexOf_ge (s : Utf16) (c : Nat) : -1 ≤ indexOf s c := by
  induction s with
  | nil => simp [indexOf]
  | cons x xs ih =>
    unfold indexOf
    split_ifs <;> omega

theorem subseqStep_eq (text : Utf16) (st : SubseqState) (c : Nat) :
    subseqStep text st c =
      if indexOfFrom text c (st.previousIndex + 1) < 0 then none
      else some (subseqUpdate st (indexOfFrom text c (st.previousIndex + 1))) := rfl

theorem greedyFrom_nil (text : Utf16) (k : Nat) : greedyFrom text k [] = some [] := by
  cases text <;> rfl

theorem greedyFrom_cons (rest : Utf16) (k : Nat) (c : Nat) (cs : Utf16) :
    greedyFrom rest k (c :: cs) =
      if indexOf rest c < 0 then none
      else (greedyFrom (rest.drop ((indexOf rest c).toNat + 1))
        (k + (indexOf rest c).toNat + 1) cs).map
          (fun ps => (k + (indexOf rest c).toNat) :: ps) := by
  induction rest generalizing k with
  | nil => simp [greedyFrom, indexOf]
  | cons t ts ih =>
    by_cases htc : t = c
    · have e : indexOf (t :: ts) c = 0 := by simp [indexOf, htc]
      rw [e]
      simp [greedyFrom, htc]
    · have hg : greedyFrom (t :: ts) k (c :: cs) = greedyFrom ts (k + 1) (c :: cs) := by
        simp [greedyFrom, htc]
      rw [hg, ih (k + 1)]
      by_cases hneg : indexOf ts c < 0
      · have e : indexOf (t :: ts) c = -1 := by simp [indexOf, htc, hneg]
        rw [e, if_pos hneg, if_pos (by decide)]
      · have e : indexOf (t :: ts) c = indexOf ts c + 1 := by simp [indexOf, htc, hneg]
        have hnat : (indexOf ts c + 1).toNat = (indexOf ts c).toNat + 1 := by omega
        rw [e, if_neg hneg, if_neg (by omega), hnat]
        have e2 : k + 1 + (indexOf ts c).toNat = k + ((indexOf ts c).toNat + 1) := by omega
        rw [e2]
        rfl

theorem subseqLoop_eq_greedy (text token : Utf16) (k : Nat) (st : SubseqState)
    (hprev : st.previousIndex + 1 = (k : Int)) :
    subseqLoop text token st =
      (greedyFrom (text.drop k) k token).map
        (fun ps => ps.foldl (fun s (p : Nat) => subseqUpdate s (p : Int)) st) := by
  induction token generalizing k st with
  | nil =>
    rw [greedyFrom_nil]
    rfl
  | cons c cs ih =>
    rw [greedyFrom_cons]
    show (match subseqStep text st c with
      | none => none
      | some st2 => subseqLoop text cs st2) = _
    rw [subseqStep_eq, hprev]
    unfold indexOfFrom
    rw [Int.toNat_ofNat]
    by_cases hneg : indexOf (text.drop k) c < 0
    · rw [if_pos hneg, if_pos hneg, if_pos (by decide)]
      rfl
    · rw [if_neg hneg, if_neg hneg, if_neg (by omega)]
      simp only []
      have hfound : indexOf (text.drop k) c + (k : Int)
          = ((k + (indexOf (text.drop k) c).toNat : Nat) : Int) := by
        push_cast
        omega
      rw [hfound]
      rw [ih (k + (indexOf (text.drop k) c).toNat + 1)
        (subseqUpdate st ((k + (indexOf (text.drop k) c).toNat : Nat) : Int))
        (by show ((k + (indexOf (text.drop k) c).toNat : Nat) : Int) + 1 = _; push_cast; ring)]
      rw [List.drop_drop]
      have e4 : k + ((indexOf (text.drop k) c).toNat + 1)
          = k + (indexOf (text.drop k) c).toNat + 1 := by omega
      rw [Option.map_map, e4]
      rfl

theorem greedyFrom_positions (rest : Utf16) (k : Nat) (token : Utf16) (ps : List Nat)
    (h : greedyFrom rest k token = some ps) :
    (∀ p ∈ ps, k ≤ p) ∧ ps.Pairwise (fun a b => a < b) ∧ ps.length = token.length := by
  induction rest generalizing k token ps with
  | nil =>
    cases token with
    | nil =>
      simp only [greedyFrom, Option.some.injEq] at h
      subst h
      simp
    | cons c cs => simp [greedyFrom] at h
  | cons t ts ih =>
    cases token with
    | nil =>
      simp only [greedyFrom, Option.some.injEq] at h
      subst h
      simp
    | cons c cs =>
      by_cases htc : t = c
      · simp only [greedyFrom, htc, if_true, Option.map_eq_some'] at h
        obtain ⟨ps2, hps2, rfl⟩ := h
        obtain ⟨h1, h2, h3⟩ := ih (k + 1) cs ps2 hps2
        refine ⟨?_, ?_, ?_⟩
        · intro p hp
          rcases List.mem_cons.1 hp with e | e
          · omega
          · have := h1 p e
            omega
        · rw [List.pairwise_cons]
          refine ⟨?_, h2⟩
          intro a ha
          have := h1 a ha
          omega
        · simp [h3]
      · simp only [greedyFrom, htc, if_false] at h
        obtain ⟨h1, h2, h3⟩ := ih (k + 1) (c :: cs) ps h
        refine ⟨?_, h2, h3⟩
        intro p hp
        have := h1 p hp
        omega

theorem greedyFrom_eq_none_iff (rest : Utf16) (k : Nat) (token : Utf16) :
    greedyFrom rest k token = none ↔ ¬ token.Sublist rest := by
  induction rest generalizing k token with
  | nil =>
    cases token with
    | nil => simp [greedyFrom]
    | cons c cs => simp [greedyFrom]
  | cons t ts ih =>
    cases token with
    | nil => simp [greedyFrom]
    | cons c cs =>
      by_cases htc : t = c
      · subst htc
        simp only [greedyFrom, if_true, Option.map_eq_none', ih, List.cons_sublist_cons]
      · have hg : greedyFrom (t :: ts) k (c :: cs) = greedyFrom ts (k + 1) (c :: cs) := by
          simp [greedyFrom, htc]
        rw [hg, ih]
        constructor
        · intro h hsub
          cases hsub with
          | cons _ h2 => exact h h2
          | cons₂ _ _ => exact htc rfl
        · intro h hsub
          exact h (List.Sublist.cons _ hsub)

theorem head_le_getLast (p : Nat) (ps : List Nat) (h : (p :: ps).Pairwise (fun a b => a < b)) :
    p ≤ (p :: ps).getLastD 0 := by
  have hmem : (p :: ps).getLastD 0 ∈ p :: ps := by
    have : (p :: ps).getLastD 0 = (p :: ps).getLast (by simp) := by
      simp [List.getLastD]
    rw [this]
    exact List.getLast_mem _
  rcases List.mem_cons.1 hmem with e | e
  · omega
  · have := (List.pairwise_cons.1 h).1 _ e
    omega

theorem foldl_subseqUpdate_matched (ps : List Nat) (st : SubseqState) :
    (ps.foldl (fun s (p : Nat) => subseqUpdate s (p : Int)) st).matched
      = st.matched + (ps.length : Int) := by
  induction ps generalizing st with
  | nil => simp
  | cons p ps ih =>
    rw [List.foldl_cons, ih]
    simp only [subseqUpdate, List.length_cons]
    push_cast
    ring

theorem foldl_subseqUpdate_firstIndex (ps : List Nat) (st : SubseqState)
    (h : st.firstIndex ≠ -1) :
    (ps.foldl (fun s (p : Nat) => subseqUpdate s (p : Int)) st).firstIndex = st.firstIndex := by
  induction ps generalizing st with
  | nil => rfl
  | cons p ps ih =>
    rw [List.foldl_cons]
    have e : (subseqUpdate st (p : Int)).firstIndex = st.firstIndex := by
      simp [subseqUpdate, h]
    rw [ih _ (by rw [e]; exact h), e]

theorem foldl_subseqUpdate_lastIndex (ps : List Nat) (st : SubseqState) (d : Nat)
    (h : st.lastIndex = (d : Int)) :
    (ps.foldl (fun s (p : Nat) => subseqUpdate s (p : Int)) st).lastIndex
      = ((ps.getLastD d : Nat) : Int) := by
  induction ps generalizing st d with
  | nil => simpa using h
  | cons p ps ih =>
    rw [List.foldl_cons, ih (subseqUpdate st (p : Int)) p rfl]
    cases ps <;> simp [List.getLastD]

theorem foldl_subseqUpdate_bestBlock (rest : List Nat) (p : Nat) (st : SubseqState)
    (hcur : 0 ≤ st.currentBlock) :
    ∃ k ks, runLengths (p :: rest) = k :: ks ∧ 1 ≤ k ∧
      ((p :: rest).foldl (fun s (p : Nat) => subseqUpdate s (p : Int)) st).bestBlock
        = max st.bestBlock
            (max ((k : Int) + (if (p : Int) = st.previousIndex + 1 then st.currentBlock else 0))
              ((ks.foldr max 0 : Nat) : Int)) := by
  induction rest generalizing p st with
  | nil =>
    refine ⟨1, [], rfl, le_refl _, ?_⟩
    simp only [List.foldl_cons, List.foldl_nil, subseqUpdate, List.foldr_nil]
    split_ifs <;> omega
  | cons q rest ih =>
    have hcur2 : 0 ≤ (subseqUpdate st (p : Int)).currentBlock := by
      simp only [subseqUpdate]
      split_ifs <;> omega
    obtain ⟨k, ks, hrl, hk, hbest⟩ := ih q (subseqUpdate st (p : Int)) hcur2
    rw [List.foldl_cons, hbest]
    have hprev : (subseqUpdate st (p : Int)).previousIndex = (p : Int) := rfl
    rw [hprev]
    by_cases hq : q = p + 1
    · refine ⟨k + 1, ks, ?_, by omega, ?_⟩
      · show (match runLengths (q :: rest) with
          | [] => [1]
          | k :: ks => if q = p + 1 then (k + 1) :: ks else 1 :: k :: ks) = _
        rw [hrl]
        simp [hq]
      · have hq2 : (q : Int) = (p : Int) + 1 := by omega
        rw [if_pos hq2]
        simp only [subseqUpdate]
        split_ifs <;> push_cast <;> omega
    · refine ⟨1, k :: ks, ?_, le_refl _, ?_⟩
      · show (match runLengths (q :: rest) with
          | [] => [1]
          | k :: ks => if q = p + 1 then (k + 1) :: ks else 1 :: k :: ks) = _
        rw [hrl]
        simp [hq]
      · have hq2 : ¬ (q : Int) = (p : Int) + 1 := by omega
        rw [if_neg hq2]
        simp only [subseqUpdate, List.foldr_cons]
        split_ifs <;> push_cast <;> omega


theorem foldl_subseqUpdate_final (p : Nat) (ps : List Nat)
    (hpw : (p :: ps).Pairwise (fun a b => a < b)) :
    ((p :: ps).foldl (fun s (p : Nat) => subseqUpdate s (p : Int)) ⟨-1, -1, -1, 0, 0, 0⟩).firstIndex
      = (p : Int) ∧
    ((p :: ps).foldl (fun s (p : Nat) => subseqUpdate s (p : Int)) ⟨-1, -1, -1, 0, 0, 0⟩).lastIndex
      = (((p :: ps).getLastD 0 : Nat) : Int) ∧
    ((p :: ps).foldl (fun s (p : Nat) => subseqUpdate s (p : Int)) ⟨-1, -1, -1, 0, 0, 0⟩).matched
      = ((p :: ps).length : Int) ∧
    ((p :: ps).foldl (fun s (p : Nat) => subseqUpdate s (p : Int)) ⟨-1, -1, -1, 0, 0, 0⟩).bestBlock
      = (longestRun (p :: ps) : Int) := by
  refine ⟨?_, ?_, ?_, ?_⟩
  · rw [List.foldl_cons, foldl_subseqUpdate_firstIndex]
    · simp [subseqUpdate]
    · simp only [subseqUpdate]
      rw [if_pos trivial]
      omega
  · rw [List.foldl_cons, foldl_subseqUpdate_lastIndex ps _ p rfl]
    cases ps <;> simp [List.getLastD]
  · rw [foldl_subseqUpdate_matched]
    simp
  · obtain ⟨k, ks, hrl, hk, hbest⟩ := foldl_subseqUpdate_bestBlock ps p ⟨-1, -1, -1, 0, 0, 0⟩
      (le_refl _)
    rw [hbest]
    unfold longestRun
    rw [hrl, List.foldr_cons]
    simp only []
    split_ifs <;> push_cast <;> omega

/-- The source function and the score in the words of the specification agree
on every token that is not empty. -/
theorem subsequenceScore_eq_spec (text token : Utf16) (htoken : token ≠ []) :
    subsequenceScore text token = specTokenScore text token := by
  unfold subsequenceScore specTokenScore greedyPositions
  rw [isEmpty_eq_false_of_ne_nil _ htoken]
  cases text with
  | nil =>
    cases token with
    | nil => exact absurd rfl htoken
    | cons c cs => simp [greedyFrom]
  | cons t ts =>
    have hl := subseqLoop_eq_greedy (t :: ts) token 0 ⟨-1, -1, -1, 0, 0, 0⟩ (by simp)
    rw [List.drop_zero] at hl
    simp only [List.isEmpty_cons, Bool.or_self, Bool.false_eq_true, if_false]
    rw [hl]
    cases hg : greedyFrom (t :: ts) 0 token with
    | none => rfl
    | some ps =>
      obtain ⟨_, hpw, hlen⟩ := greedyFrom_positions _ _ _ _ hg
      cases ps with
      | nil =>
        exfalso
        apply htoken
        exact List.length_eq_zero.1 hlen.symm
      | cons p ps =>
        obtain ⟨h1, h2, h3, h4⟩ := foldl_subseqUpdate_final p ps hpw
        show subseqWeighted token _ = _
        unfold subseqWeighted
        simp only []
        rw [h1, h2, h3, h4, hlen]
        have hle := head_le_getLast p ps hpw
        have hn : (token.length : ℚ) ≠ 0 := by
          have : token.length ≠ 0 := fun e => htoken (List.length_eq_zero.1 e)
          exact_mod_cast this
        have hspan : max (1 : Int) ((((p :: ps).getLastD 0 : Nat) : Int) - (p : Int) + 1)
            = (((p :: ps).getLastD 0 : Nat) : Int) - (p : Int) + 1 := by omega
        rw [hspan]
        have hhead : (p :: ps).headD 0 = p := rfl
        rw [hhead]
        have hboost : (if (p : Int) = 0 then (0.15 : ℚ) else 0) = (if p = 0 then (0.15 : ℚ) else 0) := by
          by_cases hp : p = 0
          · simp [hp]
          · have : ¬ (p : Int) = 0 := by omega
            rw [if_neg hp, if_neg this]
        rw [hboost]
        congr 1
        push_cast
        rw [div_self hn]
        ring

theorem specTokenScore_of_not_sublist (text token : Utf16) (h : ¬ token.Sublist text) :
    specTokenScore text token = 0 := by
  unfold specTokenScore greedyPositions
  rw [(greedyFrom_eq_none_iff text 0 token).2 h]

theorem specTokenScore_of_sublist (text token : Utf16) (htoken : token ≠ [])
    (h : token.Sublist text) : 0.45 ≤ specTokenScore text token := by
  unfold specTokenScore greedyPositions
  cases hg : greedyFrom text 0 token with
  | none => exact absurd h ((greedyFrom_eq_none_iff text 0 token).1 hg)
  | some ps =>
    obtain ⟨_, hpw, hlen⟩ := greedyFrom_positions _ _ _ _ hg
    cases ps with
    | nil => exact absurd (List.length_eq_zero.1 hlen.symm) htoken
    | cons p ps =>
      have hle := head_le_getLast p ps hpw
      have hle2 : ((p : ℚ)) ≤ (((p :: ps).getLastD 0 : Nat) : ℚ) := by exact_mod_cast hle
      have h1 : (0 : ℚ) ≤ (longestRun (p :: ps) : ℚ) / (token.length : ℚ) :=
        div_nonneg (Nat.cast_nonneg _) (Nat.cast_nonneg _)
      have h2 : (0 : ℚ) ≤ (token.length : ℚ) /
          ((((p :: ps).getLastD 0 : Nat) : ℚ) - ((p :: ps).headD 0 : ℚ) + 1) := by
        apply div_nonneg (Nat.cast_nonneg _)
        show (0 : ℚ) ≤ (((p :: ps).getLastD 0 : Nat) : ℚ) - (p : ℚ) + 1
        linarith
      have h3 : (0 : ℚ) ≤ (if (p :: ps).headD 0 = 0 then (0.15 : ℚ) else 0) := by
        split_ifs <;> norm_num
      show (0.45 : ℚ) ≤ qBound 0 _ 1
      unfold qBound
      apply le_max_of_le_right
      apply le_min
      · norm_num
      · linarith

theorem subsequenceScore_mem_unit (text token : Utf16) :
    0 ≤ subsequenceScore text token ∧ subsequenceScore text token ≤ 1 := by
  unfold subsequenceScore
  split_ifs
  · exact ⟨le_refl _, zero_le_one⟩
  · cases subseqLoop text token ⟨-1, -1, -1, 0, 0, 0⟩ with
    | none => exact ⟨le_refl _, zero_le_one⟩
    | some st => exact qBound_mem_unit _

theorem toUtf16_of_bmp (s : QString) (h : ∀ c ∈ s, c.toNat < 0x10000) :
    toUtf16 s = s.map Char.toNat := by
  induction s with
  | nil => rfl
  | cons c cs ih =>
    have hc : utf16EncodeChar c = [c.toNat] := by
      unfold utf16EncodeChar
      rw [if_pos (h c (List.mem_cons_self _ _))]
    show utf16EncodeChar c ++ toUtf16 cs = _
    rw [hc, ih (fun d hd => h d (List.mem_cons_of_mem _ hd))]
    rfl

theorem sublist_map_toNat (t s : QString) :
    (t.map Char.toNat).Sublist (s.map Char.toNat) ↔ t.Sublist s := by
  constructor
  · intro h
    obtain ⟨l, hl, e⟩ := List.sublist_map_iff.1 h
    have : t = l := by
      apply List.map_injective_iff.2 _ e
      intro a b hab
      exact char_eq_of_toNat_eq hab
    rw [this]
    exact hl
  · exact fun h => h.map _

/-- C24: for every text and every token that is not empty, the source
function `subsequenceScore` gives 0 exactly when the characters of the token
do not occur in the text as a subsequence in order; when they do, the score
is at least 0.45. The characters are the `QChar`s of the two strings, the
units that the loop iterates and `indexOf` searches; for strings of the Basic
Multilingual Plane the `QChar`s occur as a subsequence exactly when the
Unicode characters do. -/
theorem subsequenceScore_zero_iff (text token : Utf16) (htoken : token ≠ []) :
    (subsequenceScore text token = 0 ↔ ¬ token.Sublist text) ∧
    (token.Sublist text → 0.45 ≤ subsequenceScore text token) ∧
    ∀ s t : QString, (∀ c ∈ s, c.toNat < 0x10000) → (∀ c ∈ t, c.toNat < 0x10000) →
      text = toUtf16 s → token = toUtf16 t →
      ((subsequenceScore text token = 0 ↔ ¬ t.Sublist s) ∧
        (t.Sublist s → 0.45 ≤ subsequenceScore text token)) := by
  have hzero : subsequenceScore text token = 0 ↔ ¬ token.Sublist text := by
    rw [subsequenceScore_eq_spec text token htoken]
    refine ⟨?_, specTokenScore_of_not_sublist text token⟩
    intro h0 hsub
    have := specTokenScore_of_sublist text token htoken hsub
    rw [h0] at this
    norm_num at this
  have hpos : token.Sublist text → 0.45 ≤ subsequenceScore text token := by
    rw [subsequenceScore_eq_spec text token htoken]
    exact specTokenScore_of_sublist text token htoken
  refine ⟨hzero, hpos, ?_⟩
  intro s t hs ht etext etoken
  have hiff : token.Sublist text ↔ t.Sublist s := by
    rw [etext, etoken, toUtf16_of_bmp s hs, toUtf16_of_bmp t ht]
    exact sublist_map_toNat t s
  rw [← hiff]
  exact ⟨hzero, hpos⟩

/-- Witness of C24: the token `xyz` is not a subsequence of
`Production Server` and scores 0; the token `prs` is one of
`production server` and scores at least 0.45. A character outside the Basic
Multilingual Plane is two `QChar`s: the `QChar`s D83D DE00 of U+1F600 occur
in order in the text U+1F601 U+1FA00, and the score is 0.875. -/
theorem subsequenceScore_zero_iff_witness :
    toUtf16 "xyz".toList ≠ [] ∧
    ¬ (toUtf16 "xyz".toList).Sublist (toUtf16 "Production Server".toList) ∧
    subsequenceScore (toUtf16 "Production Server".toList) (toUtf16 "xyz".toList) = 0 ∧
    (toUtf16 "prs".toList).Sublist (toUtf16 "production server".toList) ∧
    0.45 ≤ subsequenceScore (toUtf16 "production server".toList) (toUtf16 "prs".toList) ∧
    toUtf16 [Char.ofNat 0x1F600] = [0xD83D, 0xDE00] ∧
    toUtf16 [Char.ofNat 0x1F601, Char.ofNat 0x1FA00] = [0xD83D, 0xDE01, 0xD83E, 0xDE00] ∧
    subsequenceScore [0xD83D, 0xDE01, 0xD83E, 0xDE00] [0xD83D, 0xDE00] = 0.875 ∧
    0.45 ≤ subsequenceScore [0xD83D, 0xDE01, 0xD83E, 0xDE00] [0xD83D, 0xDE00] :=
  ⟨by decide, by decide,
    (subsequenceScore_zero_iff (toUtf16 "Production Server".toList) (toUtf16 "xyz".toList)
      (by decide)).1.2 (by decide),
    by decide,
    (subsequenceScore_zero_iff (toUtf16 "production server".toList) (toUtf16 "prs".toList)
      (by decide)).2.1 (by decide),
    by decide, by decide, by decide!,
    (subsequenceScore_zero_iff [0xD83D, 0xDE01, 0xD83E, 0xDE00] [0xD83D, 0xDE00]
      (by decide)).2.1 (by decide)⟩

/-! ## The token branch of the fuzzy score -/

theorem containsStr_nil (s : Utf16) : containsStr s [] = true := by
  cases s <;> simp [containsStr]

theorem containsStr_of_startsWithStr (s p : Utf16) (h : startsWithStr s p = true) :
    containsStr s p = true := by
  unfold startsWithStr at h
  cases s with
  | nil =>
    cases p with
    | nil => rfl
    | cons _ _ => simp at h
  | cons c cs =>
    unfold containsStr
    rw [h]
    rfl

theorem containsStr_self (s : Utf16) : containsStr s s = true :=
  containsStr_of_startsWithStr s s (by simp [startsWithStr])

theorem splitSkipEmpty_ne_nil (isSep : Nat → Bool) (s token : Utf16)
    (h : token ∈ splitSkipEmpty isSep s) : token ≠ [] := by
  unfold splitSkipEmpty at h
  have := (List.mem_filter.1 h).2
  intro e
  rw [e] at this
  simp at this

theorem foldl_add_eq_sum {α : Type} (f : α → ℚ) (l : List α) (init : ℚ) :
    l.foldl (fun total x => total + f x) init = init + (l.map f).sum := by
  induction l generalizing init with
  | nil => simp
  | cons a l ih =>
    rw [List.foldl_cons, ih, List.map_cons, List.sum_cons]
    ring

theorem map_congr_sum {α : Type} (f g : α → ℚ) (l : List α) (h : ∀ x ∈ l, f x = g x) :
    (l.map f).sum = (l.map g).sum := by
  rw [List.map_congr_left h]

/-- C25: when the normalized candidate does not contain the normalized
pattern, the score of `computeFuzzyScore` is the arithmetic mean, clamped to
the interval from 0 to 1, of the scores of the space-separated tokens of the
normalized pattern against the normalized candidate, where the score of a
token is the one the specification words: for a token of `n` characters
matching greedily at `i1 < ... < in` it is
`clamp(0.45 + 0.35 * run / n + 0.20 * n / (in - i1 + 1) + boost, 0, 1)` with
`run` the longest run of consecutive positions and `boost` 0.15 when
`i1 = 0`, and 0 for a token with an unmatched character. Positions and the
size `n` count `QChar`s, as `indexOf` and `size()` do. -/
theorem computeFuzzyScore_token_mean (fold : Char → Char) (candidate pattern : QString)
    (h : containsStr (normalized fold candidate) (normalized fold pattern) = false) :
    computeFuzzyScore fold candidate pattern
      = qBound 0
          ((((splitSkipEmpty (fun u => u == 0x20) (normalized fold pattern)).map
              (specTokenScore (normalized fold candidate))).sum) /
            ((splitSkipEmpty (fun u => u == 0x20) (normalized fold pattern)).length : ℚ)) 1 := by
  have hsum : ((splitSkipEmpty (fun u => u == 0x20) (normalized fold pattern)).foldl
        (fun total token => total + subsequenceScore (normalized fold candidate) token) 0)
      = ((splitSkipEmpty (fun u => u == 0x20) (normalized fold pattern)).map
          (specTokenScore (normalized fold candidate))).sum := by
    rw [foldl_add_eq_sum, zero_add]
    exact map_congr_sum _ _ _
      (fun token ht => subsequenceScore_eq_spec _ token (splitSkipEmpty_ne_nil _ _ token ht))
  have hp : normalized fold pattern ≠ [] := by
    intro e
    rw [e, containsStr_nil] at h
    exact absurd h (by decide)
  unfold computeFuzzyScore
  by_cases hc : normalized fold candidate = []
  · rw [if_pos (by simp [hc])]
    have hz : ((splitSkipEmpty (fun u => u == 0x20) (normalized fold pattern)).map
        (specTokenScore (normalized fold candidate))).sum = 0 := by
      apply List.sum_eq_zero
      intro x hx
      obtain ⟨token, ht, rfl⟩ := List.mem_map.1 hx
      apply specTokenScore_of_not_sublist
      rw [hc]
      intro hsub
      exact splitSkipEmpty_ne_nil _ _ token ht (List.sublist_nil.1 hsub)
    rw [hz, zero_div]
    simp [qBound]
  · rw [if_neg (by simp [hc, hp])]
    have hne : normalized fold candidate ≠ normalized fold pattern := by
      intro e
      rw [e, containsStr_self] at h
      exact absurd h (by decide)
    have hstart : ¬ startsWithStr (normalized fold candidate) (normalized fold pattern) = true := by
      intro e
      rw [containsStr_of_startsWithStr _ _ e] at h
      exact absurd h (by decide)
    rw [if_neg hne, if_neg hstart, if_neg (by rw [h]; decide)]
    by_cases htok : (splitSkipEmpty (fun u => u == 0x20) (normalized fold pattern)).isEmpty = true
    · rw [if_pos htok]
      rw [List.isEmpty_iff] at htok
      rw [htok]
      simp [qBound]
    · rw [if_neg htok, hsum]

/-- Witness of C25: the candidate `web server` does not contain the pattern
`wb srv`. The token `wb` matches at the positions 0 and 2 and scores
`clamp(0.45 + 0.35 * 1/2 + 0.20 * 2/3 + 0.15)`, the token `srv` matches at 4,
6 and 7 and scores `clamp(0.45 + 0.35 * 2/3 + 0.20 * 3/4)`; the score is the
mean of the two. Positions count `QChar`s: in the candidate `a` U+1F600 `b`
the token `ab` matches at 0 and 3, and the score is 0.875. -/
theorem computeFuzzyScore_token_mean_witness :
    containsStr (normalized Char.toLower "web server".toList)
      (normalized Char.toLower "wb srv".toList) = false ∧
    greedyPositions (toUtf16 "web server".toList) (toUtf16 "wb".toList) = some [0, 2] ∧
    greedyPositions (toUtf16 "web server".toList) (toUtf16 "srv".toList) = some [4, 6, 7] ∧
    longestRun [4, 6, 7] = 2 ∧
    computeFuzzyScore Char.toLower "web server".toList "wb srv".toList
      = qBound 0
          ((((splitSkipEmpty (fun u => u == 0x20) (normalized Char.toLower "wb srv".toList)).map
              (specTokenScore (normalized Char.toLower "web server".toList))).sum) /
            ((splitSkipEmpty (fun u => u == 0x20)
              (normalized Char.toLower "wb srv".toList)).length : ℚ)) 1 ∧
    greedyPositions (toUtf16 ['a', Char.ofNat 0x1F600, 'b']) (toUtf16 "ab".toList)
      = some [0, 3] ∧
    computeFuzzyScore Char.toLower ['a', Char.ofNat 0x1F600, 'b'] "ab".toList = 0.875 :=
  ⟨by decide, by decide, by decide, by decide,
    computeFuzzyScore_token_mean Char.toLower "web server".toList "wb srv".toList (by decide),
    by decide, by decide!⟩

/-! ## The score 1 -/

theorem qBound_eq_one (x : ℚ) (h : qBound 0 x 1 = 1) : 1 ≤ x := by
  unfold qBound at h
  by_contra hlt
  push_neg at hlt
  rw [min_eq_right hlt.le] at h
  rcases max_cases (0 : ℚ) x with ⟨e, _⟩ | ⟨e, _⟩
  · rw [e] at h
    norm_num at h
  · rw [e] at h
    linarith

theorem all_one_of_sum_ge {α : Type} (f : α → ℚ) (l : List α) (hle : ∀ x ∈ l, f x ≤ 1)
    (hsum : (l.length : ℚ) ≤ (l.map f).sum) : ∀ x ∈ l, f x = 1 := by
  induction l with
  | nil => intro x hx; simp at hx
  | cons a l ih =>
    rw [List.map_cons, List.sum_cons, List.length_cons] at hsum
    push_cast at hsum
    have ha := hle a (List.mem_cons_self _ _)
    have hl : (l.map f).sum ≤ (l.length : ℚ) := by
      have hle2 : ∀ x ∈ l, f x ≤ 1 := fun x hx => hle x (List.mem_cons_of_mem _ hx)
      clear ih hsum ha hle
      induction l with
      | nil => simp
      | cons b l ih2 =>
        rw [List.map_cons, List.sum_cons, List.length_cons]
        push_cast
        have := hle2 b (List.mem_cons_self _ _)
        have := ih2 (fun x hx => hle2 x (List.mem_cons_of_mem _ hx))
        linarith
    intro x hx
    rcases List.mem_cons.1 hx with e | e
    · rw [e]
      linarith
    · exact ih (fun x hx => hle x (List.mem_cons_of_mem _ hx)) (by linarith) x e

/-- C29 as stated fails: a match by tokens alone can reach the score 1. The
candidate `web server` and the pattern `server web` differ after
normalization, the candidate neither starts with nor contains the pattern,
and both tokens occur in the candidate as unbroken blocks, so each token
scores 1 and the score is 1, level with an exact match. -/
theorem computeFuzzyScore_one_unequal_counterexample :
    computeFuzzyScore Char.toLower "web server".toList "server web".toList = 1 ∧
    normalized Char.toLower "web server".toList ≠ normalized Char.toLower "server web".toList ∧
    containsStr (normalized Char.toLower "web server".toList)
      (normalized Char.toLower "server web".toList) = false := by
  decide!

/-- C29, amended: the score is 1 only if the two strings are equal after
normalization, or the normalized candidate does not contain the normalized
pattern and every space-separated token of the pattern occurs in the
candidate as a subsequence (a match by tokens). A match of the whole pattern
as a proper start or as a substring of the candidate never scores 1, and
neither does a pattern with a token that does not match. -/
theorem computeFuzzyScore_eq_one (fold : Char → Char) (candidate pattern : QString)
    (h : computeFuzzyScore fold candidate pattern = 1) :
    normalized fold candidate = normalized fold pattern ∨
    (containsStr (normalized fold candidate) (normalized fold pattern) = false ∧
      ∀ token ∈ splitSkipEmpty (fun u => u == 0x20) (normalized fold pattern),
        token.Sublist (normalized fold candidate)) := by
  unfold computeFuzzyScore at h
  by_cases h1 : ((normalized fold candidate).isEmpty || (normalized fold pattern).isEmpty) = true
  · rw [if_pos h1] at h
    norm_num at h
  · rw [if_neg h1] at h
    by_cases h2 : normalized fold candidate = normalized fold pattern
    · exact Or.inl h2
    · rw [if_neg h2] at h
      have hc : normalized fold candidate ≠ [] := by
        intro e
        apply h1
        simp [e]
      have hpos : (0 : ℚ) < ((normalized fold candidate).length : ℚ) := by
        exact_mod_cast List.length_pos.2 hc
      by_cases h3 : startsWithStr (normalized fold candidate) (normalized fold pattern) = true
      · exfalso
        rw [if_pos h3] at h
        have hx := qBound_eq_one _ h
        have hpre := List.isPrefixOf_iff_prefix.1 h3
        have hlt : (normalized fold pattern).length < (normalized fold candidate).length := by
          rcases Nat.lt_or_ge (normalized fold pattern).length
            (normalized fold candidate).length with hl | hl
          · exact hl
          · exact absurd (hpre.eq_of_length (le_antisymm hpre.length_le hl)).symm h2
        have hr : ((normalized fold pattern).length : ℚ) /
            ((normalized fold candidate).length : ℚ) < 1 := by
          rw [div_lt_one hpos]
          exact_mod_cast hlt
        linarith
      · rw [if_neg h3] at h
        by_cases h4 : containsStr (normalized fold candidate) (normalized fold pattern) = true
        · exfalso
          rw [if_pos h4] at h
          have hx := qBound_eq_one _ h
          have hr := (proximity_mem_unit _ _ hc (length_le_of_containsStr _ _ h4)).2
          linarith
        · rw [if_neg h4] at h
          right
          refine ⟨by simpa using h4, ?_⟩
          by_cases h5 : (splitSkipEmpty (fun u => u == 0x20)
              (normalized fold pattern)).isEmpty = true
          · rw [if_pos h5] at h
            norm_num at h
          · rw [if_neg h5] at h
            have hx := qBound_eq_one _ h
            rw [foldl_add_eq_sum, zero_add] at hx
            have hlen : (0 : ℚ) < ((splitSkipEmpty (fun u => u == 0x20)
                (normalized fold pattern)).length : ℚ) := by
              have : (splitSkipEmpty (fun u => u == 0x20) (normalized fold pattern)) ≠ [] := by
                intro e
                apply h5
                rw [e]
                rfl
              exact_mod_cast List.length_pos.2 this
            rw [le_div_iff₀ hlen, one_mul] at hx
            have hall := all_one_of_sum_ge _ _
              (fun x _ => (subsequenceScore_mem_unit (normalized fold candidate) x).2) hx
            intro token htoken
            by_contra hns
            have hone := hall token htoken
            rw [subsequenceScore_eq_spec _ token (splitSkipEmpty_ne_nil _ _ token htoken),
              specTokenScore_of_not_sublist _ token hns] at hone
            norm_num at hone

/-- Witness of the amended C29: `web server` against `server web` scores 1
by its tokens; the normalized strings differ, the candidate does not contain
the pattern, and both tokens occur in the candidate. A pattern with a token
that does not match stays below 1. -/
theorem computeFuzzyScore_eq_one_witness :
    computeFuzzyScore Char.toLower "web server".toList "server web".toList = 1 ∧
    (normalized Char.toLower "web server".toList = normalized Char.toLower "server web".toList ∨
      (containsStr (normalized Char.toLower "web server".toList)
          (normalized Char.toLower "server web".toList) = false ∧
        ∀ token ∈ splitSkipEmpty (fun u => u == 0x20)
            (normalized Char.toLower "server web".toList),
          token.Sublist (normalized Char.toLower "web server".toList))) ∧
    computeFuzzyScore Char.toLower "web server".toList "server xyz".toList = 1 / 2 :=
  ⟨by decide!,
    computeFuzzyScore_eq_one Char.toLower "web server".toList "server web".toList (by decide!),
    by decide!⟩

end SshHelper
